import Mathlib

/-!
# Verification of the koto-lang front-end core

A shallow embedding of the koto-lang repository's runtime tuple type
(crates/runtime/src/types/tuple.rs), lexer (crates/lexer/src/lexer.rs),
lookup-chain AST nodes (src/parser/src/node.rs), and — modelled from the
specification where the implementation is not part of the source tree —
the formatter contract and the parser's pipe-operator resolution.

Conventions:
* Rust `&str` / `String` source text is embedded as `List Char`; byte offsets
  are tracked with `Char.utf8Size`, mirroring the UTF-8 byte accounting of the
  original.
* Mutating methods (`&mut self`) become state-passing functions returning the
  updated value.
* `Ptr<T>` (reference-counted shared pointer) is embedded by value; "the shared
  underlying storage" of a tuple is its `data` list, and frame conditions are
  stated as preservation of that list.
* Rust `usize`/`u16` become `Nat`; the only place wrap-around or underflow can
  occur on the paths covered here is the subtraction in `KotoLexer::peek`,
  which is modelled with a checked subtraction (`none` = arithmetic panic of a
  debug build).
-/

set_option maxHeartbeats 1000000

namespace Koto

/-! ## Runtime tuple type — crates/runtime/src/types/tuple.rs

`KValue` (the runtime value type) is opaque to this file and is embedded as a
type parameter `α`. -/

/-- Embeds `std::ops::Range<usize>` (and `Range<u16>`); `end` is renamed to
`stop` (Lean keyword). -/
structure Bounds where
  start : Nat
  stop : Nat
deriving DecidableEq, Repr

/-- Embeds `TupleSlice`: shared data plus `usize` bounds. -/
structure TupleSlice (α : Type u) where
  data : List α
  bounds : Bounds

/-- Embeds `TupleSlice16`: shared data plus 16-bit bounds (the
`_niche_placeholder` field has no behavioural content and is omitted). The
`u16` bounds are stored as `Nat`s; `tupleSlice16_tryFrom` is the only
constructor used by the code and checks that they fit in 16 bits. -/
structure TupleSlice16 (α : Type u) where
  data : List α
  bounds : Bounds

/-- Embeds `enum Inner`. -/
inductive Inner (α : Type u) where
  | Full : List α → Inner α
  | Slice : TupleSlice α → Inner α
  | Slice16 : TupleSlice16 α → Inner α

/-- Embeds `pub struct KTuple(Inner)`. -/
structure KTuple (α : Type u) where
  inner : Inner α

/-- Embeds `<[T]>::get(Range<usize>)` on a list: `some` exactly when
`start ≤ end ∧ end ≤ len`. -/
def sliceGet? (l : List α) (b : Bounds) : Option (List α) :=
  if b.start ≤ b.stop ∧ b.stop ≤ l.length then
    some ((l.take b.stop).drop b.start)
  else
    none

/-- Embeds `impl Deref for TupleSlice` (`get_unchecked(bounds)`). -/
def TupleSlice.deref (s : TupleSlice α) : List α :=
  (s.data.take s.bounds.stop).drop s.bounds.start

/-- Embeds `impl Deref for TupleSlice16`. -/
def TupleSlice16.deref (s : TupleSlice16 α) : List α :=
  (s.data.take s.bounds.stop).drop s.bounds.start

/-- Embeds `impl From<Ptr<Vec<KValue>>> for TupleSlice`. -/
def tupleSlice_ofPtr (data : List α) : TupleSlice α :=
  { data := data, bounds := { start := 0, stop := data.length } }

/-- Embeds `impl From<TupleSlice16> for TupleSlice` (`u16_to_usize_range`). -/
def tupleSlice_ofSlice16 (s : TupleSlice16 α) : TupleSlice α :=
  { data := s.data, bounds := s.bounds }

/-- Embeds `impl TryFrom<TupleSlice> for TupleSlice16` (`usize_to_u16_range`):
succeeds exactly when both bounds fit in a `u16`. -/
def tupleSlice16_tryFrom (s : TupleSlice α) : Option (TupleSlice16 α) :=
  if s.bounds.start < 65536 ∧ s.bounds.stop < 65536 then
    some { data := s.data, bounds := s.bounds }
  else
    none

/-- Embeds `impl From<TupleSlice> for KTuple`: prefer the 16-bit slice
representation when the bounds fit. -/
def KTuple.ofTupleSlice (s : TupleSlice α) : KTuple α :=
  match tupleSlice16_tryFrom s with
  | some s16 => { inner := Inner.Slice16 s16 }
  | none => { inner := Inner.Slice s }

/-- Embeds `impl Deref for KTuple`. -/
def KTuple.deref (t : KTuple α) : List α :=
  match t.inner with
  | Inner.Full data => data
  | Inner.Slice16 s => s.deref
  | Inner.Slice s => s.deref

/-- The shared underlying element storage of a tuple (the target of the
`Ptr<Vec<KValue>>`). -/
def KTuple.underlying (t : KTuple α) : List α :=
  match t.inner with
  | Inner.Full data => data
  | Inner.Slice s => s.data
  | Inner.Slice16 s => s.data

/-- Representation invariant maintained by the `KTuple` API: slice bounds are
ordered and within the underlying storage, and 16-bit bounds fit in a `u16`.
(`get_unchecked` in the `Deref` impls relies on this.) -/
def KTuple.wf (t : KTuple α) : Prop :=
  match t.inner with
  | Inner.Full _ => True
  | Inner.Slice s =>
      s.bounds.start ≤ s.bounds.stop ∧ s.bounds.stop ≤ s.data.length
  | Inner.Slice16 s =>
      s.bounds.start ≤ s.bounds.stop ∧ s.bounds.stop ≤ s.data.length ∧
      s.bounds.stop < 65536

/-- Embeds `KTuple::make_sub_tuple`. -/
def KTuple.make_sub_tuple (t : KTuple α) (new_bounds : Bounds) :
    Option (KTuple α) :=
  let slice : TupleSlice α :=
    match t.inner with
    | Inner.Full data => tupleSlice_ofPtr data
    | Inner.Slice s => s
    | Inner.Slice16 s => tupleSlice_ofSlice16 s
  let nb : Bounds :=
    { start := new_bounds.start + slice.bounds.start,
      stop := new_bounds.stop + slice.bounds.start }
  if nb.stop ≤ slice.bounds.stop ∧ (sliceGet? slice.deref nb).isSome then
    some (KTuple.ofTupleSlice { data := slice.data, bounds := nb })
  else
    none

/-- Embeds `KTuple::pop_front`: the `&mut self` update is returned alongside
the popped value. -/
def KTuple.pop_front (t : KTuple α) : Option (α × KTuple α) :=
  match t.inner with
  | Inner.Full data =>
      match data.head? with
      | some value =>
          some (value, KTuple.ofTupleSlice
            { data := data, bounds := { start := 1, stop := data.length } })
      | none => none
  | Inner.Slice s =>
      match s.deref.head? with
      | some value =>
          let s2 : TupleSlice α :=
            { data := s.data,
              bounds := { start := s.bounds.start + 1, stop := s.bounds.stop } }
          some (value, { inner := Inner.Slice s2 })
      | none => none
  | Inner.Slice16 s =>
      match s.deref.head? with
      | some value =>
          let s2 : TupleSlice16 α :=
            { data := s.data,
              bounds := { start := s.bounds.start + 1, stop := s.bounds.stop } }
          some (value, { inner := Inner.Slice16 s2 })
      | none => none

/-- Embeds `KTuple::pop_back`. -/
def KTuple.pop_back (t : KTuple α) : Option (α × KTuple α) :=
  match t.inner with
  | Inner.Full data =>
      match data.getLast? with
      | some value =>
          some (value, KTuple.ofTupleSlice
            { data := data, bounds := { start := 0, stop := data.length - 1 } })
      | none => none
  | Inner.Slice s =>
      match s.deref.getLast? with
      | some value =>
          let s2 : TupleSlice α :=
            { data := s.data,
              bounds := { start := s.bounds.start, stop := s.bounds.stop - 1 } }
          some (value, { inner := Inner.Slice s2 })
      | none => none
  | Inner.Slice16 s =>
      match s.deref.getLast? with
      | some value =>
          let s2 : TupleSlice16 α :=
            { data := s.data,
              bounds := { start := s.bounds.start, stop := s.bounds.stop - 1 } }
          some (value, { inner := Inner.Slice16 s2 })
      | none => none

/-! ## Lookup-chain AST nodes — src/parser/src/node.rs -/

/-- Embeds `AstIndex` (an arena index). -/
abbrev AstIndex := Nat

/-- Embeds `ConstantIndex` (a constant-pool index). -/
abbrev ConstantIndex := Nat

/-- Embeds `enum QuotationMark`. -/
inductive QuotationMark where
  | Double
  | Single
deriving DecidableEq, Repr

/-- Embeds `enum StringNode`. -/
inductive StringNode where
  | Literal (c : ConstantIndex)
  | Expr (e : AstIndex)
deriving DecidableEq, Repr

/-- Embeds `struct AstString`. -/
structure AstString where
  quotation_mark : QuotationMark
  nodes : List StringNode
deriving DecidableEq, Repr

/-- Embeds `enum LookupNode`; `Call` carries its arguments and the
semantically-significant `with_parens` bit. -/
inductive LookupNode where
  | Root (root : AstIndex)
  | Id (id : ConstantIndex)
  | Str (s : AstString)
  | Index (idx : AstIndex)
  | Call (args : List AstIndex) (with_parens : Bool)
deriving DecidableEq, Repr

/-- The `with_parens` flags of the call links of a chain, in order. -/
def call_flags (chain : List LookupNode) : List Bool :=
  chain.filterMap (fun l =>
    match l with
    | LookupNode.Call _ wp => some wp
    | _ => none)

/-- Modelled from the spec: the parser implementation (the `koto_parser`
crate) is not part of the source tree — only its node declarations
(src/parser/src/node.rs) are. Per §4.2 of the specification, "the pipe
operator `>>` binds its left operand as an additional trailing argument to an
unclosed call, but passes it to the result of a closed call".
`apply_pipe piped chain` resolves a pipe whose right operand parsed to the
lookup chain `chain` and whose left operand is `piped`: when the chain ends in
a call without parentheses the piped value is appended to that call's
arguments; otherwise the piped value is passed as the single argument of a new
call on the chain's result. -/
def apply_pipe (piped : AstIndex) (chain : List LookupNode) :
    List LookupNode :=
  match chain.getLast? with
  | some (LookupNode.Call args false) =>
      chain.dropLast ++ [LookupNode.Call (args ++ [piped]) false]
  | _ => chain ++ [LookupNode.Call [piped] true]

/-! ## Formatter — modelled from the spec (§4.3)

The `koto_format` crate's implementation is not part of the source tree (only
its tests, crates/format/tests/format_tests.rs, are), so the formatter is
modelled from the specification. -/

/-- Embeds `FormatOptions` (`line_length`, `always_indent_arms`). -/
structure FormatOptions where
  line_length : Nat
  always_indent_arms : Bool
deriving DecidableEq, Repr

/-- Modelled from the spec: a formatter token of the modelled source core
(identifiers, numbers, single-character binary operators, commas). -/
inductive FTok where
  | ident (s : List Char)
  | num (s : List Char)
  | op (c : Char)
  | comma
deriving DecidableEq, Repr

/-- The single-character binary operators of the modelled core. -/
def opChars : List Char := ['+', '-', '*', '/', '%']

/-- Well-formedness of a formatter token (what `tokenizeLineGo` produces):
identifier and number spellings are non-empty runs of their character
class. -/
def FTok.wf : FTok → Prop
  | FTok.ident s => s ≠ [] ∧ ∀ c ∈ s, c.isAlpha = true
  | FTok.num s => s ≠ [] ∧ ∀ c ∈ s, c.isDigit = true
  | FTok.op c => c ∈ opChars
  | FTok.comma => True

/-- Modelled from the spec: tokenize one line of the modelled core, skipping
horizontal whitespace; identifier/number tokens are maximal character-class
runs. The `fuel` argument only bounds recursion (callers pass the line
length, which always suffices). An unrecognised character makes the line —
and hence the whole source — invalid. -/
def tokenizeLineGo : Nat → List Char → Option (List FTok)
  | _, [] => some []
  | 0, _ :: _ => none
  | fuel + 1, c :: rest =>
    if c = ' ' ∨ c = '	' then
      tokenizeLineGo fuel rest
    else if c.isAlpha then
      (tokenizeLineGo fuel (rest.dropWhile Char.isAlpha)).map
        (fun ts => FTok.ident (c :: rest.takeWhile Char.isAlpha) :: ts)
    else if c.isDigit then
      (tokenizeLineGo fuel (rest.dropWhile Char.isDigit)).map
        (fun ts => FTok.num (c :: rest.takeWhile Char.isDigit) :: ts)
    else if c = ',' then
      (tokenizeLineGo fuel rest).map (fun ts => FTok.comma :: ts)
    else if c ∈ opChars then
      (tokenizeLineGo fuel rest).map (fun ts => FTok.op c :: ts)
    else
      none

/-- Tokenize a line (fuel = line length always suffices). -/
def tokenizeLine (l : List Char) : Option (List FTok) :=
  tokenizeLineGo l.length l

/-- Render a single token. -/
def renderTok : FTok → List Char
  | FTok.ident s => s
  | FTok.num s => s
  | FTok.op c => [c]
  | FTok.comma => [',']

/-- Split source text into lines at each newline character. -/
def splitLines : List Char → List (List Char)
  | [] => [[]]
  | c :: rest =>
    if c = '\n' then [] :: splitLines rest
    else
      match splitLines rest with
      | [] => [[c]]
      | ln :: rest' => (c :: ln) :: rest'

/-- Join rendered lines, terminating the file with exactly one newline. -/
def joinLines : List (List Char) → List Char
  | [] => ['\n']
  | [l] => l ++ ['\n']
  | l :: rest => l ++ '\n' :: joinLines rest

/-- Whether a character is one of the modelled binary-operator characters
(the Boolean form of membership in `opChars`). -/
def isOpChar (c : Char) : Bool :=
  c = '+' || c = '-' || c = '*' || c = '/' || c = '%'

/-- Whether an operator character has the lowest precedence of the modelled
core (`+` and `-`); `*`, `/`, `%` bind tighter. -/
def isLowOp (c : Char) : Bool := c = '+' || c = '-'

/-- Modelled from the spec: an atomic operand of the modelled core — an
identifier or a number literal. -/
inductive ABase where
  | id (s : List Char)
  | num (s : List Char)
deriving DecidableEq, Repr

/-- Modelled from the spec: an operand with a (possibly repeated) unary
minus prefix; per §4.3's normalization table unary minus takes no
surrounding space, unlike binary operators. -/
structure Atom where
  neg : Nat
  base : ABase
deriving DecidableEq, Repr

/-- Modelled from the spec: a flat binary-operator expression — the
"formattable unit" of the modelled core: a first operand followed by
(binary operator, operand) pairs. -/
structure UnitExpr where
  head : Atom
  rest : List (Char × Atom)
deriving DecidableEq, Repr

/-- Well-formedness of an operand spelling: a non-empty run of its
character class. -/
def ABase.wf : ABase → Prop
  | ABase.id s => s ≠ [] ∧ ∀ c ∈ s, c.isAlpha = true
  | ABase.num s => s ≠ [] ∧ ∀ c ∈ s, c.isDigit = true

def Atom.wf (a : Atom) : Prop := a.base.wf

def UnitExpr.wf (e : UnitExpr) : Prop :=
  e.head.wf ∧ ∀ p ∈ e.rest, p.1 ∈ opChars ∧ p.2.wf

/-- The token spelling of an atom: its unary minuses, then its operand. -/
def atomToks (a : Atom) : List FTok :=
  List.replicate a.neg (FTok.op '-') ++
    [match a.base with
     | ABase.id s => FTok.ident s
     | ABase.num s => FTok.num s]

/-- The token spelling of the operator/operand pairs of a unit. -/
def pairsToks (ps : List (Char × Atom)) : List FTok :=
  ps.flatMap (fun p => FTok.op p.1 :: atomToks p.2)

/-- The token spelling of a unit expression. -/
def exprToks (e : UnitExpr) : List FTok :=
  atomToks e.head ++ pairsToks e.rest

/-- Parse an atom from a token list: leading `-` tokens are unary minuses,
then an identifier or number.  Any other shape is invalid. -/
def parseAtom : List FTok → Option (Atom × List FTok)
  | FTok.op c :: rest =>
      if c = '-' then
        (parseAtom rest).map
          (fun r => ({ neg := r.1.neg + 1, base := r.1.base }, r.2))
      else none
  | FTok.ident s :: rest => some ({ neg := 0, base := ABase.id s }, rest)
  | FTok.num s :: rest => some ({ neg := 0, base := ABase.num s }, rest)
  | _ => none

/-- Parse the (binary operator, atom) pairs that follow the first operand;
the whole remaining token list must be consumed.  The fuel only bounds
recursion (one pair consumes at least two tokens). -/
def parsePairs : Nat → List FTok → Option (List (Char × Atom))
  | _, [] => some []
  | 0, _ :: _ => none
  | fuel + 1, FTok.op c :: rest =>
      match parseAtom rest with
      | some (a, rest2) =>
          (parsePairs fuel rest2).map (fun ps => (c, a) :: ps)
      | none => none
  | _ + 1, _ => none

/-- Parse a whole token list as one unit expression. -/
def parseExpr (ts : List FTok) : Option UnitExpr :=
  match parseAtom ts with
  | some (a, rest) =>
      (parsePairs rest.length rest).map (fun ps => { head := a, rest := ps })
  | none => none

/-- Tokenize and parse the content of one physical line. -/
def parseContent (l : List Char) : Option UnitExpr :=
  (tokenizeLine l).bind parseExpr

/-- Canonical spelling of an atom: unary minuses directly attached to the
operand, no spaces (§4.3: one space each side of a binary operator
"except unary"). -/
def renderAtom (a : Atom) : List Char :=
  List.replicate a.neg '-' ++
    (match a.base with
     | ABase.id s => s
     | ABase.num s => s)

/-- Canonical spelling of the operator/operand pairs: one space on each
side of every binary operator. -/
def pairsRender (ps : List (Char × Atom)) : List Char :=
  ps.flatMap (fun p => ' ' :: p.1 :: ' ' :: renderAtom p.2)

/-- Canonical one-line spelling of a unit expression. -/
def renderExpr (e : UnitExpr) : List Char :=
  renderAtom e.head ++ pairsRender e.rest

/-- The visual width of a segment rendered on its own line (every
character of the modelled core has display width one). -/
def exprWidth (e : UnitExpr) : Nat := (renderExpr e).length

/-- Split a unit at the operators satisfying `p`: returns the segment
before the first such operator and the following (break operator, segment)
pairs.  Used with `isLowOp` for the lowest-precedence pass and with the
always-true predicate for the all-operators pass. -/
def splitOps (p : Char → Bool) : Atom → List (Char × Atom) →
    UnitExpr × List (Char × UnitExpr)
  | h, [] => ({ head := h, rest := [] }, [])
  | h, (c, a) :: rest =>
      let (s1, ss) := splitOps p a rest
      if p c then ({ head := h, rest := [] }, (c, s1) :: ss)
      else ({ head := h, rest := (c, s1.head) :: s1.rest }, ss)

/-- Modelled from the spec: second-level breaking of a first-line segment
that is still over the budget — break at every remaining operator. -/
def breakAllFirst (L : Nat) (e : UnitExpr) :
    UnitExpr × List (Char × UnitExpr) :=
  if exprWidth e ≤ L then (e, [])
  else splitOps (fun _ => true) e.head e.rest

/-- Modelled from the spec: second-level breaking of a continuation-line
segment (rendered as two spaces of indent, its break operator, a space,
then the segment, hence width `4 + exprWidth`). -/
def breakAllCont (L : Nat) (q : Char × UnitExpr) :
    List (Char × UnitExpr) :=
  if 4 + exprWidth q.2 ≤ L then [q]
  else
    let (s1, ss) := splitOps (fun _ => true) q.2.head q.2.rest
    (q.1, s1) :: ss

/-- Modelled from §4.3's layout algorithm, first-line segment: if the
one-line rendering exceeds `line_length` the unit is broken at its
lowest-precedence operators first, each break operator starting a
continuation line indented one level; a segment still over the budget is
then broken at every operator. -/
def breakFirst (L : Nat) (e : UnitExpr) :
    UnitExpr × List (Char × UnitExpr) :=
  if exprWidth e ≤ L then (e, [])
  else
    let (s1, ss) := splitOps isLowOp e.head e.rest
    let (f1, fs) := breakAllFirst L s1
    (f1, fs ++ ss.flatMap (breakAllCont L))

/-- Like `breakFirst` for a segment that already starts a continuation
line (monotonic breaking: an existing break is kept, never re-collapsed,
and the segment is broken further only if over the budget). -/
def breakCont (L : Nat) (q : Char × UnitExpr) :
    List (Char × UnitExpr) :=
  if 4 + exprWidth q.2 ≤ L then [q]
  else
    let (s1, ss) := splitOps isLowOp q.2.head q.2.rest
    breakAllCont L (q.1, s1) ++ ss.flatMap (breakAllCont L)

/-- A block of the modelled source: a blank line, or a formattable unit —
a first-line segment plus the (break operator, segment) continuation
lines it is currently broken into. -/
inductive FBlock where
  | blank
  | unit (first : UnitExpr) (conts : List (Char × UnitExpr))
deriving DecidableEq, Repr

def FBlock.isBlank : FBlock → Bool
  | FBlock.blank => true
  | _ => false

/-- Apply the line-length layout to one block (monotonic: existing breaks
are kept, over-budget segments are broken further). -/
def breakBlock (L : Nat) : FBlock → FBlock
  | FBlock.blank => FBlock.blank
  | FBlock.unit e conts =>
      let (f1, fs) := breakFirst L e
      FBlock.unit f1 (fs ++ conts.flatMap (breakCont L))

/-- A line containing only spaces (normalized to an empty line: trailing
whitespace is stripped and blank-line runs are collapsed). -/
def isBlankLine (l : List Char) : Bool := l.all (fun c => c = ' ')

/-- Detect a continuation line: optional indent, then a binary operator
character starting the line (the shape §4.3's layout emits for a broken
expression).  Returns the break operator and the rest of the line. -/
def contLine? (l : List Char) : Option (Char × List Char) :=
  match l.dropWhile (fun c => c = ' ') with
  | c :: rest => if isOpChar c then some (c, rest) else none
  | [] => none

/-- Take the maximal run of continuation lines. -/
def splitConts : List (List Char) →
    List (Char × List Char) × List (List Char)
  | [] => ([], [])
  | l :: rest =>
      match contLine? l with
      | some p =>
          let (ps, rem) := splitConts rest
          (p :: ps, rem)
      | none => ([], l :: rest)

/-- Group the physical lines into blocks: blank lines, and units made of a
first line (which must start at the left margin) together with the
continuation lines that follow it (monotonic breaking reads an existing
break back in).  Each line's content must parse as a unit expression of
the modelled core; anything else makes the source invalid.  The fuel only
bounds recursion (callers pass the number of lines). -/
def groupGo : Nat → List (List Char) → Option (List FBlock)
  | _, [] => some []
  | 0, _ :: _ => none
  | fuel + 1, l :: rest =>
      if isBlankLine l then
        (groupGo fuel rest).map (fun bs => FBlock.blank :: bs)
      else if l.head? = some ' ' ∨ l.head? = some '	' then none
      else
        match parseContent l with
        | none => none
        | some e0 =>
            let (cps, rem) := splitConts rest
            match cps.mapM
                (fun p => (parseContent p.2).map (fun e => (p.1, e))) with
            | none => none
            | some conts =>
                (groupGo fuel rem).map
                  (fun bs => FBlock.unit e0 conts :: bs)

/-- Modelled from the spec: collapse runs of blank lines to at most one
blank line. -/
def collapseBlanks : List FBlock → List FBlock
  | [] => []
  | [b] => [b]
  | b1 :: b2 :: rest =>
      if b1.isBlank = true ∧ b2.isBlank = true then
        collapseBlanks (b2 :: rest)
      else b1 :: collapseBlanks (b2 :: rest)

/-- Drop trailing blank lines (the file ends with exactly one newline
after its last unit). -/
def dropTrailingBlanks : List FBlock → List FBlock
  | [] => []
  | b :: rest =>
      match dropTrailingBlanks rest with
      | [] => if b.isBlank then [] else [b]
      | r => b :: r

/-- Render one continuation line: two spaces of indent (one level), the
break operator, one space, then the segment. -/
def renderContPiece (q : Char × UnitExpr) : List Char :=
  ' ' :: ' ' :: q.1 :: ' ' :: renderExpr q.2

/-- The physical lines of a block. -/
def blockLines : FBlock → List (List Char)
  | FBlock.blank => [[]]
  | FBlock.unit e conts => renderExpr e :: conts.map renderContPiece

/-- Render the blocks; an empty block list renders to the empty file. -/
def renderBlocks : List FBlock → List Char
  | [] => []
  | bs => joinLines (bs.flatMap blockLines)

/-- Modelled from the spec: `format(source, options)` for the modelled
source core (top-level flat binary-operator expressions over identifiers
and numbers with unary minus, and blank lines).  The implementation of the
`koto_format` crate is not under the source tree, so this follows §4.3:
the normalization table (one space each side of a binary operator except
unary minus, which attaches to its operand; trailing whitespace stripped;
blank-line runs collapsed to at most one; exactly one trailing newline)
and the line-length layout algorithm (a unit whose one-line rendering
exceeds `options.line_length` breaks at its lowest-precedence operators
first, the operator starting the continuation line indented one level,
then at the remaining operators for segments still over the budget;
breaking is monotonic — breaks already present in the input are kept and
never re-collapsed).  Comments, `#[fmt:skip]` and nesting are outside the
modelled core; the modelled core has no match/switch arms, which by §4.3
are the only constructs `always_indent_arms` affects, so that option is
carried but vacuous here. -/
def format (opts : FormatOptions) (src : List Char) : Option (List Char) :=
  let lines := splitLines src
  match groupGo lines.length lines with
  | none => none
  | some bs =>
      some (renderBlocks
        ((dropTrailingBlanks (collapseBlanks bs)).map
          (breakBlock opts.line_length)))

/-- A unit block's first expression has no unary-minus prefix (the shape
grouping guarantees for a unit that directly follows another unit: its
first line did not start with an operator character). -/
def firstNegZero : FBlock → Prop
  | FBlock.blank => True
  | FBlock.unit e _ => e.head.neg = 0

/-- Block well-formedness: the expressions of a unit are well-formed and
every continuation's break operator is an operator character. -/
def FBlock.wfB : FBlock → Prop
  | FBlock.blank => True
  | FBlock.unit e conts => e.wf ∧ ∀ p ∈ conts, p.1 ∈ opChars ∧ p.2.wf

/-- Stability of a block under the layout pass with budget `L`: breaking
it again changes nothing (every segment either fits its line or has no
operator left to break at). -/
def FBlock.stable (L : Nat) : FBlock → Prop
  | FBlock.blank => True
  | FBlock.unit e conts =>
      breakFirst L e = (e, []) ∧ ∀ q ∈ conts, breakCont L q = [q]

/-! ## Lexer — crates/lexer/src/lexer.rs -/

/-- Embeds `Position` from the lexer crate root (not under the source tree):
1-based line/column per §3 of the specification; columns advance by display
width. -/
structure Position where
  line : Nat
  column : Nat
deriving DecidableEq, Repr

/-- Embeds `Span`; `end` is renamed to `stop` (Lean keyword). -/
structure Span where
  start : Position
  stop : Position
deriving DecidableEq, Repr

/-- Embeds `enum StringQuote`. -/
inductive StringQuote where
  | Double
  | Single
deriving DecidableEq, Repr

/-- The double-quote character. -/
def doubleQuoteChar : Char := Char.ofNat 34

/-- The single-quote character. -/
def singleQuoteChar : Char := Char.ofNat 39

/-- The backslash character. -/
def backslashChar : Char := Char.ofNat 92

/-- Embeds `impl TryFrom<char> for StringQuote`. -/
def stringQuote? (c : Char) : Option StringQuote :=
  if c = doubleQuoteChar then some StringQuote.Double
  else if c = singleQuoteChar then some StringQuote.Single
  else none

/-- Embeds `enum Token`. -/
inductive Token where
  | Error
  | Whitespace
  | NewLine
  | CommentSingle
  | CommentMulti
  | Number
  | Id
  | Wildcard
  | StringStart (quote : StringQuote) (raw : Bool)
  | StringEnd
  | StringLiteral
  | At
  | Colon
  | Comma
  | Dollar
  | Dot
  | Ellipsis
  | Function
  | RoundOpen
  | RoundClose
  | SquareOpen
  | SquareClose
  | CurlyOpen
  | CurlyClose
  | Range
  | RangeInclusive
  | Add
  | Subtract
  | Multiply
  | Divide
  | Remainder
  | Assign
  | AddAssign
  | SubtractAssign
  | MultiplyAssign
  | DivideAssign
  | RemainderAssign
  | Equal
  | NotEqual
  | Greater
  | GreaterOrEqual
  | Less
  | LessOrEqual
  | Pipe
  | And
  | Break
  | Catch
  | Continue
  | Debug
  | Else
  | ElseIf
  | Export
  | False
  | Finally
  | For
  | From
  | If
  | Import
  | In
  | Loop
  | Match
  | Not
  | Null
  | Or
  | Return
  | Self_
  | Switch
  | Then
  | Throw
  | True
  | Try
  | Until
  | While
  | Yield

/-- An injective numeric code for `Token` (used only to derive decidable
equality without a quadratic case split). -/
def Token.encode : Token → Nat
  | Token.Error => 0
  | Token.Whitespace => 1
  | Token.NewLine => 2
  | Token.CommentSingle => 3
  | Token.CommentMulti => 4
  | Token.Number => 5
  | Token.Id => 6
  | Token.Wildcard => 7
  | Token.StringEnd => 8
  | Token.StringLiteral => 9
  | Token.At => 10
  | Token.Colon => 11
  | Token.Comma => 12
  | Token.Dollar => 13
  | Token.Dot => 14
  | Token.Ellipsis => 15
  | Token.Function => 16
  | Token.RoundOpen => 17
  | Token.RoundClose => 18
  | Token.SquareOpen => 19
  | Token.SquareClose => 20
  | Token.CurlyOpen => 21
  | Token.CurlyClose => 22
  | Token.Range => 23
  | Token.RangeInclusive => 24
  | Token.Add => 25
  | Token.Subtract => 26
  | Token.Multiply => 27
  | Token.Divide => 28
  | Token.Remainder => 29
  | Token.Assign => 30
  | Token.AddAssign => 31
  | Token.SubtractAssign => 32
  | Token.MultiplyAssign => 33
  | Token.DivideAssign => 34
  | Token.RemainderAssign => 35
  | Token.Equal => 36
  | Token.NotEqual => 37
  | Token.Greater => 38
  | Token.GreaterOrEqual => 39
  | Token.Less => 40
  | Token.LessOrEqual => 41
  | Token.Pipe => 42
  | Token.And => 43
  | Token.Break => 44
  | Token.Catch => 45
  | Token.Continue => 46
  | Token.Debug => 47
  | Token.Else => 48
  | Token.ElseIf => 49
  | Token.Export => 50
  | Token.False => 51
  | Token.Finally => 52
  | Token.For => 53
  | Token.From => 54
  | Token.If => 55
  | Token.Import => 56
  | Token.In => 57
  | Token.Loop => 58
  | Token.Match => 59
  | Token.Not => 60
  | Token.Null => 61
  | Token.Or => 62
  | Token.Return => 63
  | Token.Self_ => 64
  | Token.Switch => 65
  | Token.Then => 66
  | Token.Throw => 67
  | Token.True => 68
  | Token.Try => 69
  | Token.Until => 70
  | Token.While => 71
  | Token.Yield => 72
  | Token.StringStart StringQuote.Double Bool.false => 73
  | Token.StringStart StringQuote.Double Bool.true => 74
  | Token.StringStart StringQuote.Single Bool.false => 75
  | Token.StringStart StringQuote.Single Bool.true => 76

/-- The left inverse of `Token.encode`. -/
def Token.decode : Nat → Token
  | 0 => Token.Error
  | 1 => Token.Whitespace
  | 2 => Token.NewLine
  | 3 => Token.CommentSingle
  | 4 => Token.CommentMulti
  | 5 => Token.Number
  | 6 => Token.Id
  | 7 => Token.Wildcard
  | 8 => Token.StringEnd
  | 9 => Token.StringLiteral
  | 10 => Token.At
  | 11 => Token.Colon
  | 12 => Token.Comma
  | 13 => Token.Dollar
  | 14 => Token.Dot
  | 15 => Token.Ellipsis
  | 16 => Token.Function
  | 17 => Token.RoundOpen
  | 18 => Token.RoundClose
  | 19 => Token.SquareOpen
  | 20 => Token.SquareClose
  | 21 => Token.CurlyOpen
  | 22 => Token.CurlyClose
  | 23 => Token.Range
  | 24 => Token.RangeInclusive
  | 25 => Token.Add
  | 26 => Token.Subtract
  | 27 => Token.Multiply
  | 28 => Token.Divide
  | 29 => Token.Remainder
  | 30 => Token.Assign
  | 31 => Token.AddAssign
  | 32 => Token.SubtractAssign
  | 33 => Token.MultiplyAssign
  | 34 => Token.DivideAssign
  | 35 => Token.RemainderAssign
  | 36 => Token.Equal
  | 37 => Token.NotEqual
  | 38 => Token.Greater
  | 39 => Token.GreaterOrEqual
  | 40 => Token.Less
  | 41 => Token.LessOrEqual
  | 42 => Token.Pipe
  | 43 => Token.And
  | 44 => Token.Break
  | 45 => Token.Catch
  | 46 => Token.Continue
  | 47 => Token.Debug
  | 48 => Token.Else
  | 49 => Token.ElseIf
  | 50 => Token.Export
  | 51 => Token.False
  | 52 => Token.Finally
  | 53 => Token.For
  | 54 => Token.From
  | 55 => Token.If
  | 56 => Token.Import
  | 57 => Token.In
  | 58 => Token.Loop
  | 59 => Token.Match
  | 60 => Token.Not
  | 61 => Token.Null
  | 62 => Token.Or
  | 63 => Token.Return
  | 64 => Token.Self_
  | 65 => Token.Switch
  | 66 => Token.Then
  | 67 => Token.Throw
  | 68 => Token.True
  | 69 => Token.Try
  | 70 => Token.Until
  | 71 => Token.While
  | 72 => Token.Yield
  | 73 => Token.StringStart StringQuote.Double Bool.false
  | 74 => Token.StringStart StringQuote.Double Bool.true
  | 75 => Token.StringStart StringQuote.Single Bool.false
  | 76 => Token.StringStart StringQuote.Single Bool.true
  | _ => Token.Error

instance : DecidableEq Token := fun a b =>
  decidable_of_iff (Token.encode a = Token.encode b) (by
    constructor
    · intro h
      have hde : ∀ t, Token.decode (Token.encode t) = t := by
        intro t
        cases t <;> try rfl
        rename_i q r
        cases q <;> cases r <;> rfl
      rw [← hde a, ← hde b, h]
    · intro h
      rw [h])

/-- Embeds `enum StringMode`. -/
inductive StringMode where
  | Literal (quote : StringQuote)
  | TemplateStart
  | TemplateExpression
  | TemplateExpressionInlineMap
  | RawStart (quote : StringQuote)
  | RawEnd (quote : StringQuote)
deriving DecidableEq, Repr

/-- Models `unicode_xid::UnicodeXID::is_xid_start` (external crate); exact on
the ASCII range, which is all the concrete inputs used here. -/
def is_id_start (c : Char) : Bool := c.isAlpha

/-- Models `unicode_xid::UnicodeXID::is_xid_continue` (external crate); exact
on the ASCII range. -/
def is_id_continue (c : Char) : Bool := c.isAlpha || c.isDigit || c = '_'

/-- Models `unicode_width` `c.width().unwrap_or(0)` (external crate): 0 for
control characters, 1 otherwise (wide characters are approximated; no claim
depends on column values). -/
def charWidth (c : Char) : Nat := if c.toNat < 32 then 0 else 1

/-- Embeds `is_digit`. -/
def is_digit (c : Char) : Bool := c.isDigit

/-- Embeds `is_binary_digit`. -/
def is_binary_digit (c : Char) : Bool := c = '0' || c = '1'

/-- Embeds `is_octal_digit`. -/
def is_octal_digit (c : Char) : Bool := '0' ≤ c && c ≤ '7'

/-- Embeds `is_hex_digit` (`char::is_ascii_hexdigit`). -/
def is_hex_digit (c : Char) : Bool :=
  c.isDigit || ('a' ≤ c && c ≤ 'f') || ('A' ≤ c && c ≤ 'F')

/-- Embeds `is_whitespace`. -/
def is_whitespace (c : Char) : Bool := c = ' ' || c = '\t'

/-- The UTF-8 byte length of a character sequence. -/
def byteLen (l : List Char) : Nat := (l.map Char.utf8Size).sum

/-- The display width of a character sequence. -/
def widthLen (l : List Char) : Nat := (l.map charWidth).sum

/-- Embeds `consume_and_count`: consume characters matching the predicate,
counting one byte per character (only used with ASCII predicates); returns
the count and the rest of the iterator. -/
def consume_and_count (p : Char → Bool) (chars : List Char) :
    Nat × List Char :=
  ((chars.takeWhile p).length, chars.dropWhile p)

/-- Embeds `consume_and_count_utf8`: like `consume_and_count` but counting
UTF-8 bytes and display width. -/
def consume_and_count_utf8 (p : Char → Bool) (chars : List Char) :
    (Nat × Nat) × List Char :=
  ((byteLen (chars.takeWhile p), widthLen (chars.takeWhile p)),
    chars.dropWhile p)

/-- Embeds `struct TokenLexer`; the borrowed `source` is carried in the
state. -/
structure TokenLexer where
  source : List Char
  current_byte : Nat
  previous_byte : Nat
  previous_token : Option Token
  span : Span
  indent : Nat
  string_mode_stack : List StringMode
deriving DecidableEq

/-- Embeds `TokenLexer::new`. -/
def TokenLexer.new (source : List Char) : TokenLexer :=
  { source := source
    previous_byte := 0
    current_byte := 0
    indent := 0
    previous_token := none
    span := ⟨⟨1, 1⟩, ⟨1, 1⟩⟩
    string_mode_stack := [] }

/-- Embeds `TokenLexer::source_bytes` (the token's byte range as a pair). -/
def TokenLexer.source_bytes (s : TokenLexer) : Nat × Nat :=
  (s.previous_byte, s.current_byte)

/-- Embeds `TokenLexer::current_position`. -/
def TokenLexer.current_position (s : TokenLexer) : Position := s.span.stop

/-- Embeds `TokenLexer::advance_line_utf8`. -/
def TokenLexer.advance_line_utf8 (s : TokenLexer)
    (char_bytes char_count : Nat) : TokenLexer :=
  let previous_end := s.span.stop
  { s with
    previous_byte := s.current_byte
    current_byte := s.current_byte + char_bytes
    span := { start := previous_end
              stop := { line := previous_end.line
                        column := previous_end.column + char_count } } }

/-- Embeds `TokenLexer::advance_line`. -/
def TokenLexer.advance_line (s : TokenLexer) (char_bytes : Nat) : TokenLexer :=
  s.advance_line_utf8 char_bytes char_bytes

/-- Embeds `TokenLexer::advance_to_position`. -/
def TokenLexer.advance_to_position (s : TokenLexer) (char_bytes : Nat)
    (position : Position) : TokenLexer :=
  { s with
    previous_byte := s.current_byte
    current_byte := s.current_byte + char_bytes
    span := { start := s.span.stop, stop := position } }

/-- Embeds `self.source.get(self.current_byte..)`: `none` when the byte
offset is out of range or not on a character boundary. -/
def remainingChars (source : List Char) (byte : Nat) : Option (List Char) :=
  if byte = 0 then some source
  else
    match source with
    | [] => none
    | c :: rest =>
        if c.utf8Size ≤ byte then remainingChars rest (byte - c.utf8Size)
        else none

/-- Embeds `TokenLexer::consume_newline`. -/
def TokenLexer.consume_newline (s : TokenLexer) (chars : List Char) :
    Token × TokenLexer :=
  let (consumed_bytes, rest) :=
    match chars with
    | '\r' :: tail => (2, tail)
    | _ => (1, chars)
  match rest with
  | '\n' :: _ =>
      (Token.NewLine,
        s.advance_to_position consumed_bytes
          { line := s.current_position.line + 1, column := 1 })
  | _ => (Token.Error, s)

/-- The multi-line-comment loop of `TokenLexer::consume_comment`; `none`
models the early `return Error` on a `\r` not followed by `\n`. -/
def comment_multi_loop :
    List Char → Nat → Position → Option (Nat × Position × Bool)
  | [], char_bytes, position => some (char_bytes, position, false)
  | c :: rest, char_bytes, position =>
    let char_bytes := char_bytes + c.utf8Size
    let position := { position with column := position.column + charWidth c }
    if c = '#' then
      if rest.head? = some '-' then
        comment_multi_loop rest.tail (char_bytes + 1)
          { position with column := position.column + 1 }
      else comment_multi_loop rest char_bytes position
    else if c = '-' then
      if rest.head? = some '#' then
        some (char_bytes + 1,
          { position with column := position.column + 1 }, true)
      else comment_multi_loop rest char_bytes position
    else if c = '\r' then
      if rest.head? = some '\n' then
        comment_multi_loop rest.tail (char_bytes + 1)
          { line := position.line + 1, column := 1 }
      else none
    else if c = '\n' then
      comment_multi_loop rest char_bytes
        { line := position.line + 1, column := 1 }
    else
      comment_multi_loop rest char_bytes position
termination_by l _ _ => l.length
decreasing_by all_goals (simp_wf; (try omega))

/-- Embeds `TokenLexer::consume_comment` (the `#` has been matched and is the
head of `chars`). -/
def TokenLexer.consume_comment (s : TokenLexer) (chars : List Char) :
    Token × TokenLexer :=
  match chars with
  | '#' :: rest =>
    match rest with
    | '-' :: _ =>
        let position0 := s.current_position
        match comment_multi_loop rest 1
            { position0 with column := position0.column + 1 } with
        | some (char_bytes, position, end_found) =>
            (if end_found then Token.CommentMulti else Token.Error,
              s.advance_to_position char_bytes position)
        | none => (Token.Error, s)
    | _ =>
        let ((comment_bytes, comment_width), _) :=
          consume_and_count_utf8 (fun c => !(c = '\r' || c = '\n')) rest
        (Token.CommentSingle,
          s.advance_line_utf8 (comment_bytes + 1) (comment_width + 1))
  | _ => (Token.Error, s)

/-- The scanning loop of `TokenLexer::consume_string_literal`; `none` models
the `Error` returns (end of input, or a `\r` not followed by `\n`). -/
def string_literal_loop (quote : StringQuote) :
    List Char → Nat → Position → Option (Nat × Position)
  | [], _, _ => none
  | c :: rest, string_bytes, position =>
    if stringQuote? c = some quote then some (string_bytes, position)
    else if c = '$' then some (string_bytes, position)
    else if c = backslashChar then
      let string_bytes := string_bytes + 1
      let position := { position with column := position.column + 1 }
      match rest.head? with
      | some c2 =>
          if c2 = '$' ∨ c2 = backslashChar ∨ stringQuote? c2 = some quote then
            string_literal_loop quote rest.tail (string_bytes + 1)
              { position with column := position.column + 1 }
          else
            string_literal_loop quote rest string_bytes position
      | none => string_literal_loop quote rest string_bytes position
    else if c = '\r' then
      if rest.head? = some '\n' then
        string_literal_loop quote rest.tail (string_bytes + 2)
          { line := position.line + 1, column := 1 }
      else none
    else if c = '\n' then
      string_literal_loop quote rest (string_bytes + 1)
        { line := position.line + 1, column := 1 }
    else
      string_literal_loop quote rest (string_bytes + c.utf8Size)
        { position with column := position.column + charWidth c }
termination_by l _ _ => l.length
decreasing_by all_goals (simp_wf; (try omega))

/-- Embeds `TokenLexer::consume_string_literal`. -/
def TokenLexer.consume_string_literal (s : TokenLexer) (chars : List Char) :
    Token × TokenLexer :=
  match s.string_mode_stack.head? with
  | some (StringMode.Literal quote) =>
      match string_literal_loop quote chars 0 s.current_position with
      | some (string_bytes, position) =>
          (Token.StringLiteral, s.advance_to_position string_bytes position)
      | none => (Token.Error, s)
  | _ => (Token.Error, s)

/-- The scanning loop of `TokenLexer::consume_raw_string_contents`. -/
def raw_string_loop (quote : StringQuote) :
    List Char → Nat → Position → Option (Nat × Position)
  | [], _, _ => none
  | c :: rest, string_bytes, position =>
    if stringQuote? c = some quote then some (string_bytes, position)
    else if c = '\r' then
      if rest.head? = some '\n' then
        raw_string_loop quote rest.tail (string_bytes + 2)
          { line := position.line + 1, column := 1 }
      else none
    else if c = '\n' then
      raw_string_loop quote rest (string_bytes + 1)
        { line := position.line + 1, column := 1 }
    else
      raw_string_loop quote rest (string_bytes + c.utf8Size)
        { position with column := position.column + charWidth c }
termination_by l _ _ => l.length
decreasing_by all_goals (simp_wf; (try omega))

/-- Embeds `TokenLexer::consume_raw_string_contents` (on success, the
`RawStart` mode on top of the stack is replaced by `RawEnd`). -/
def TokenLexer.consume_raw_string_contents (s : TokenLexer)
    (chars : List Char) (end_quote : StringQuote) : Token × TokenLexer :=
  match raw_string_loop end_quote chars 0 s.current_position with
  | some (string_bytes, position) =>
      let s2 := s.advance_to_position string_bytes position
      (Token.StringLiteral,
        { s2 with string_mode_stack :=
            StringMode.RawEnd end_quote :: s2.string_mode_stack.tail })
  | none => (Token.Error, s)

/-- Embeds `TokenLexer::consume_raw_string_end`. -/
def TokenLexer.consume_raw_string_end (s : TokenLexer) (chars : List Char)
    (end_quote : StringQuote) : Token × TokenLexer :=
  match chars with
  | c :: _ =>
      if stringQuote? c = some end_quote then
        let s2 := { s with string_mode_stack := s.string_mode_stack.tail }
        (Token.StringEnd, s2.advance_line 1)
      else (Token.Error, s)
  | [] => (Token.Error, s)

/-- The exponent block at the end of `TokenLexer::consume_number` (entered
with `allow_exponent = true`; the `0b`/`0o`/`0x` arms bypass it). -/
def number_exponent (s : TokenLexer) (char_bytes : Nat) (chars : List Char) :
    Token × TokenLexer :=
  if chars.head? = some 'e' then
    let chars2 := chars.tail
    if chars2.head? = some '+' ∨ chars2.head? = some '-' then
      let (n3, _) := consume_and_count is_digit chars2.tail
      (Token.Number, s.advance_line (char_bytes + 2 + n3))
    else
      let (n3, _) := consume_and_count is_digit chars2
      (Token.Number, s.advance_line (char_bytes + 1 + n3))
  else (Token.Number, s.advance_line char_bytes)

/-- The fractional-part consumption of `TokenLexer::consume_number`
(`char_bytes += 1 + <digit run>`, the `1` being the dot), followed by the
exponent block. -/
def number_fraction_exponent (s : TokenLexer) (char_bytes : Nat)
    (chars2 : List Char) : Token × TokenLexer :=
  let (nf, chars3) := consume_and_count is_digit chars2
  number_exponent s (char_bytes + 1 + nf) chars3

/-- Embeds `TokenLexer::consume_number` (the head of `chars` is a digit). -/
def TokenLexer.consume_number (s : TokenLexer) (chars : List Char) :
    Token × TokenLexer :=
  let has_leading_zero := chars.head? = some '0'
  let (char_bytes, chars1) := consume_and_count is_digit chars
  if chars1.head? = some 'b' ∧ has_leading_zero ∧ char_bytes = 1 then
    let (n2, _) := consume_and_count is_binary_digit chars1.tail
    (Token.Number, s.advance_line (char_bytes + 1 + n2))
  else if chars1.head? = some 'o' ∧ has_leading_zero ∧ char_bytes = 1 then
    let (n2, _) := consume_and_count is_octal_digit chars1.tail
    (Token.Number, s.advance_line (char_bytes + 1 + n2))
  else if chars1.head? = some 'x' ∧ has_leading_zero ∧ char_bytes = 1 then
    let (n2, _) := consume_and_count is_hex_digit chars1.tail
    (Token.Number, s.advance_line (char_bytes + 1 + n2))
  else if chars1.head? = some '.' then
    let chars2 := chars1.tail
    match chars2.head? with
    | some c2 =>
      if is_digit c2 then
        number_fraction_exponent s char_bytes chars2
      else if c2 = 'e' then
        match chars2.tail.head? with
        | some c3 =>
            if is_digit c3 ∨ c3 = '+' ∨ c3 = '-' then
              number_fraction_exponent s char_bytes chars2
            else (Token.Number, s.advance_line char_bytes)
        | none => (Token.Number, s.advance_line char_bytes)
      else (Token.Number, s.advance_line char_bytes)
    | none => (Token.Number, s.advance_line char_bytes)
  else
    number_exponent s char_bytes chars1

/-- The keyword table checked by `consume_id_or_keyword` (the sequence of
`check_keyword!` invocations, in source order; `else` and `r` are handled
separately before it). -/
def keywords : List (String × Token) :=
  [ ("and", Token.And), ("break", Token.Break), ("catch", Token.Catch),
    ("continue", Token.Continue), ("debug", Token.Debug),
    ("export", Token.Export), ("false", Token.False),
    ("finally", Token.Finally), ("for", Token.For), ("from", Token.From),
    ("if", Token.If), ("import", Token.Import), ("in", Token.In),
    ("loop", Token.Loop), ("match", Token.Match), ("not", Token.Not),
    ("null", Token.Null), ("or", Token.Or), ("return", Token.Return),
    ("self", Token.Self_), ("switch", Token.Switch), ("then", Token.Then),
    ("throw", Token.Throw), ("true", Token.True), ("try", Token.Try),
    ("until", Token.Until), ("while", Token.While), ("yield", Token.Yield) ]

/-- Sequential keyword lookup: the matched keyword's token together with the
byte count to advance (`$keyword.len()`). -/
def keyword_token : List (String × Token) → String → Option (Token × Nat)
  | [], _ => none
  | (kw, tok) :: rest, id =>
      if id = kw then some (tok, kw.utf8ByteSize) else keyword_token rest id

/-- Embeds `TokenLexer::consume_id_or_keyword` (the head of `chars` matched
`is_id_start`; Rust unwraps it, so the empty case is unreachable). -/
def TokenLexer.consume_id_or_keyword (s : TokenLexer) (chars : List Char) :
    Token × TokenLexer :=
  match chars with
  | [] => (Token.Error, s)
  | c :: cs =>
    let taken := cs.takeWhile is_id_continue
    let rest := cs.dropWhile is_id_continue
    let char_bytes := c.utf8Size + byteLen taken
    let char_count := 1 + widthLen taken
    let id := String.mk (c :: taken)
    if id = "else" then
      if ("else if".data).isPrefixOf chars then (Token.ElseIf, s.advance_line 7)
      else (Token.Else, s.advance_line 4)
    else
      match (if id = "r" then rest.head?.bind stringQuote? else none) with
      | some quote =>
          let s2 := s.advance_line 2
          (Token.StringStart quote Bool.true,
            { s2 with string_mode_stack :=
                StringMode.RawStart quote :: s2.string_mode_stack })
      | none =>
          if s.previous_token = some Token.Dot then
            (Token.Id, s.advance_line_utf8 char_bytes char_count)
          else
            match keyword_token keywords id with
            | some (tok, n) => (tok, s.advance_line n)
            | none => (Token.Id, s.advance_line_utf8 char_bytes char_count)

/-- Embeds `TokenLexer::consume_wildcard`. -/
def TokenLexer.consume_wildcard (s : TokenLexer) (chars : List Char) :
    Token × TokenLexer :=
  match chars with
  | [] => (Token.Error, s)
  | c :: cs =>
    let taken := cs.takeWhile is_id_continue
    let char_bytes := c.utf8Size + byteLen taken
    let char_count := 1 + widthLen taken
    (Token.Wildcard, s.advance_line_utf8 char_bytes char_count)

/-- The symbol table checked by `consume_symbol` (the sequence of
`check_symbol!` invocations, in source order). -/
def symbols : List (String × Token) :=
  [ ("...", Token.Ellipsis), ("..=", Token.RangeInclusive),
    ("..", Token.Range), (">>", Token.Pipe), ("==", Token.Equal),
    ("!=", Token.NotEqual), (">=", Token.GreaterOrEqual),
    ("<=", Token.LessOrEqual), (">", Token.Greater), ("<", Token.Less),
    ("=", Token.Assign), ("+=", Token.AddAssign),
    ("-=", Token.SubtractAssign), ("*=", Token.MultiplyAssign),
    ("/=", Token.DivideAssign), ("%=", Token.RemainderAssign),
    ("+", Token.Add), ("-", Token.Subtract), ("*", Token.Multiply),
    ("/", Token.Divide), ("%", Token.Remainder), ("@", Token.At),
    (":", Token.Colon), (",", Token.Comma), (".", Token.Dot),
    ("(", Token.RoundOpen), (")", Token.RoundClose), ("|", Token.Function),
    ("[", Token.SquareOpen), ("]", Token.SquareClose),
    ("\x7b", Token.CurlyOpen), ("\x7d", Token.CurlyClose) ]

/-- Sequential prefix matching over the symbol table, advancing by the
matched symbol's byte length. -/
def symbol_go :
    List (String × Token) → TokenLexer → List Char →
      Option Token × TokenLexer
  | [], s, _ => (none, s)
  | (str, tok) :: rest, s, remaining =>
      if str.data.isPrefixOf remaining then
        (some tok, s.advance_line str.utf8ByteSize)
      else symbol_go rest s remaining

/-- Embeds `TokenLexer::consume_symbol`. -/
def TokenLexer.consume_symbol (s : TokenLexer) (remaining : List Char) :
    Option Token × TokenLexer :=
  symbol_go symbols s remaining

/-- The token-producing core of `TokenLexer::get_next_token`, after the
remaining input has been found nonempty (`remaining = c :: restChars`) and
the indent reset for a leading newline has been applied. -/
def TokenLexer.gnt_inner (s : TokenLexer) (c : Char) (restChars : List Char) :
    Token × TokenLexer :=
    let remaining := c :: restChars
    let string_mode := s.string_mode_stack.head?
    match string_mode with
      | some (StringMode.Literal quote) =>
          if stringQuote? c = some quote then
            let s2 := s.advance_line 1
            (Token.StringEnd,
              { s2 with string_mode_stack := s2.string_mode_stack.tail })
          else if c = '$' then
            let s2 := s.advance_line 1
            (Token.Dollar,
              { s2 with string_mode_stack :=
                  StringMode.TemplateStart :: s2.string_mode_stack })
          else s.consume_string_literal remaining
      | some (StringMode.RawStart quote) =>
          s.consume_raw_string_contents remaining quote
      | some (StringMode.RawEnd quote) =>
          s.consume_raw_string_end remaining quote
      | some StringMode.TemplateStart =>
          if is_id_start c then
            match s.consume_id_or_keyword remaining with
            | (Token.Id, s2) =>
                (Token.Id,
                  { s2 with string_mode_stack := s2.string_mode_stack.tail })
            | (_, s2) => (Token.Error, s2)
          else if c = ("\x7b").data.headI then
            let s2 := s.advance_line 1
            (Token.CurlyOpen,
              { s2 with string_mode_stack :=
                  StringMode.TemplateExpression :: s2.string_mode_stack.tail })
          else (Token.Error, s)
      | _ =>
          if is_whitespace c then
            let (count, _) := consume_and_count is_whitespace remaining
            let s2 := s.advance_line count
            let s2 :=
              if s.previous_token = some Token.NewLine ∨
                  s.previous_token = none then
                { s2 with indent := count }
              else s2
            (Token.Whitespace, s2)
          else if c = '\r' ∨ c = '\n' then s.consume_newline remaining
          else if c = '#' then s.consume_comment remaining
          else if c = doubleQuoteChar then
            let s2 := s.advance_line 1
            (Token.StringStart StringQuote.Double Bool.false,
              { s2 with string_mode_stack :=
                  StringMode.Literal StringQuote.Double ::
                    s2.string_mode_stack })
          else if c = singleQuoteChar then
            let s2 := s.advance_line 1
            (Token.StringStart StringQuote.Single Bool.false,
              { s2 with string_mode_stack :=
                  StringMode.Literal StringQuote.Single ::
                    s2.string_mode_stack })
          else if is_digit c then s.consume_number remaining
          else if is_id_start c then s.consume_id_or_keyword remaining
          else if c = '_' then s.consume_wildcard remaining
          else
            let (symResult, s2) :=
              match s.consume_symbol remaining with
              | (some tok, s2) => (tok, s2)
              | (none, s2) => (Token.Error, s2.advance_line 1)
            let s3 :=
              match symResult with
              | Token.CurlyOpen =>
                  if string_mode = some StringMode.TemplateExpression then
                    { s2 with string_mode_stack :=
                        StringMode.TemplateExpressionInlineMap ::
                          s2.string_mode_stack }
                  else s2
              | Token.CurlyClose =>
                  if string_mode = some StringMode.TemplateExpression ∨
                      string_mode =
                        some StringMode.TemplateExpressionInlineMap then
                    { s2 with string_mode_stack := s2.string_mode_stack.tail }
                  else s2
              | _ => s2
            (symResult, s3)

/-- One nonempty-input step of `TokenLexer::get_next_token`: reset the
indent after a newline, then run the core. -/
def TokenLexer.gnt_step (s : TokenLexer) (c : Char) (restChars : List Char) :
    Token × TokenLexer :=
  let s :=
    if s.previous_token = some Token.NewLine then { s with indent := 0 }
    else s
  s.gnt_inner c restChars

/-- Embeds `TokenLexer::get_next_token` (one step of the lexer). -/
def TokenLexer.get_next_token (s : TokenLexer) : Option Token × TokenLexer :=
  match remainingChars s.source s.current_byte with
  | some (c :: restChars) =>
      let result := s.gnt_step c restChars
      (some result.1, { result.2 with previous_token := some result.1 })
  | _ => (none, { s with previous_token := none })

/-- Embeds `struct LexedToken` (the byte range as a pair). -/
structure LexedToken where
  token : Token
  source_bytes : Nat × Nat
  span : Span
  indent : Nat
deriving DecidableEq

/-- Embeds `struct KotoLexer`. -/
structure KotoLexer where
  lexer : TokenLexer
  token_queue : List LexedToken
deriving DecidableEq

/-- Embeds `KotoLexer::new`. -/
def KotoLexer.new (source : List Char) : KotoLexer :=
  { lexer := TokenLexer.new source, token_queue := [] }

/-- Embeds `KotoLexer::next_token`. -/
def KotoLexer.next_token (s : KotoLexer) : Option LexedToken × KotoLexer :=
  match s.lexer.get_next_token with
  | (some token, lx) =>
      (some { token := token
              source_bytes := lx.source_bytes
              span := lx.span
              indent := lx.indent },
        { s with lexer := lx })
  | (none, lx) => (none, { s with lexer := lx })

/-- Embeds `impl Iterator for KotoLexer`: drain the queue before advancing
the underlying lexer. -/
def KotoLexer.next (s : KotoLexer) : Option LexedToken × KotoLexer :=
  match s.token_queue with
  | t :: rest => (some t, { s with token_queue := rest })
  | [] => s.next_token

/-- Checked `usize` subtraction: `none` models the arithmetic-overflow panic
of a debug build. -/
def checked_sub (a b : Nat) : Option Nat :=
  if b ≤ a then some (a - b) else none

/-- The `for _ in 0..tokens_to_add` loop of `KotoLexer::peek`: push tokens
onto the queue, stopping early at end of input. -/
def add_tokens : Nat → KotoLexer → KotoLexer
  | 0, s => s
  | k + 1, s =>
    match s.next_token with
    | (some t, s2) =>
        add_tokens k { s2 with token_queue := s2.token_queue ++ [t] }
    | (none, s2) => s2

/-- Embeds `KotoLexer::peek`; the outer `none` models the `usize` underflow
of `token_queue_len + 1 - n.max(token_queue_len)` (a panic in debug
builds). -/
def KotoLexer.peek (n : Nat) (s : KotoLexer) :
    Option (Option LexedToken × KotoLexer) :=
  let token_queue_len := s.token_queue.length
  match checked_sub (token_queue_len + 1) (n.max token_queue_len) with
  | some tokens_to_add =>
      let s2 := add_tokens tokens_to_add s
      some (s2.token_queue.get? n, s2)
  | none => none

/-- The first `k` results of repeatedly calling `KotoLexer::next`. -/
def takeTokens : Nat → KotoLexer → List LexedToken
  | 0, _ => []
  | k + 1, s =>
    match s.next with
    | (some t, s2) => t :: takeTokens k s2
    | (none, _) => []

/-- The first `k` tokens from the raw `TokenLexer`, with metadata. -/
def rawTokens : Nat → TokenLexer → List LexedToken
  | 0, _ => []
  | k + 1, lx =>
    match lx.get_next_token with
    | (some t, lx2) =>
        { token := t
          source_bytes := lx2.source_bytes
          span := lx2.span
          indent := lx2.indent } :: rawTokens k lx2
    | (none, _) => []

/-- Run the raw lexer with the given fuel, recording each token with its
byte range; `none` when the fuel runs out before end of input. -/
def run_lexer : Nat → TokenLexer → Option (List (Token × Nat × Nat))
  | 0, _ => none
  | fuel + 1, s =>
    match s.get_next_token with
    | (none, _) => some []
    | (some t, s2) =>
        (run_lexer fuel s2).map
          (fun ts => (t, s2.previous_byte, s2.current_byte) :: ts)

/-- Run the raw lexer with the given fuel, recording the tokens and whether
end of input was reached. -/
def run_all : Nat → TokenLexer → List Token × Bool
  | 0, _ => ([], Bool.false)
  | fuel + 1, s =>
    match s.get_next_token with
    | (none, _) => ([], Bool.true)
    | (some t, s2) =>
        let (ts, d) := run_all fuel s2
        (t :: ts, d)

/-- The byte ranges of a token list tile the interval from `a` to `b`:
each range starts where the previous one ended. -/
def covers : List (Token × Nat × Nat) → Nat → Nat → Prop
  | [], a, b => a = b
  | (_, p, q) :: rest, a, b => p = a ∧ covers rest q b

/-- One when a raw string's contents are still pending on top of the mode
stack (the only situation producing a zero-byte token, the empty raw-string
literal of `r''`, which pops that state), zero otherwise. -/
def rawPot (s : TokenLexer) : Nat :=
  match s.string_mode_stack.head? with
  | some (StringMode.RawStart _) => 1
  | _ => 0

/-- The termination measure for Error-free lexing: twice the remaining
bytes plus the pending-raw-string component. -/
def lexMeasure (s : TokenLexer) : Nat :=
  2 * (byteLen s.source - s.current_byte) + rawPot s

/-- A consuming state transition: the byte range recorded for the produced
token starts at the old `current_byte`, the source is untouched, and a
prefix of the transition's input `chars` accounts exactly for the byte
advance, that prefix being nonempty. -/
def Advances1 (s s2 : TokenLexer) (chars : List Char) : Prop :=
  s2.previous_byte = s.current_byte ∧ s2.source = s.source ∧
  ∃ pre suf, chars = pre ++ suf ∧
    s2.current_byte = s.current_byte + byteLen pre ∧ 1 ≤ byteLen pre

/-- A successful non-`Error` lexer step over input `chars`: like
`Advances1` but the consumed prefix may be empty, and an empty prefix only
happens when leaving raw-string-contents mode (the zero-width raw-string
literal of `r''`). -/
def StepOk (s s2 : TokenLexer) (chars : List Char) : Prop :=
  s2.previous_byte = s.current_byte ∧ s2.source = s.source ∧
  ∃ pre suf, chars = pre ++ suf ∧
    s2.current_byte = s.current_byte + byteLen pre ∧
    (byteLen pre = 0 →
      (∃ q, s.string_mode_stack.head? = some (StringMode.RawStart q)) ∧
      (∀ q, s2.string_mode_stack.head? ≠ some (StringMode.RawStart q)))

-- ===================================================================
-- THEOREMS
-- ===================================================================

/-! ### Helper lemmas for the tuple type -/

theorem KTuple.ofTupleSlice_cases (s : TupleSlice α) :
    KTuple.ofTupleSlice s = ⟨Inner.Slice16 ⟨s.data, s.bounds⟩⟩ ∨
    KTuple.ofTupleSlice s = ⟨Inner.Slice s⟩ := by
  by_cases h : s.bounds.start < 65536 ∧ s.bounds.stop < 65536
  · left
    unfold KTuple.ofTupleSlice tupleSlice16_tryFrom
    rw [if_pos h]
  · right
    unfold KTuple.ofTupleSlice tupleSlice16_tryFrom
    rw [if_neg h]

theorem KTuple.deref_ofTupleSlice (s : TupleSlice α) :
    (KTuple.ofTupleSlice s).deref = s.deref := by
  rcases KTuple.ofTupleSlice_cases s with h | h <;> rw [h] <;> rfl

theorem KTuple.underlying_ofTupleSlice (s : TupleSlice α) :
    (KTuple.ofTupleSlice s).underlying = s.data := by
  rcases KTuple.ofTupleSlice_cases s with h | h <;> rw [h] <;> rfl

theorem sliceGet?_mk (l : List α) (x y : Nat) :
    sliceGet? l ⟨x, y⟩ =
      if x ≤ y ∧ y ≤ l.length then some ((l.take y).drop x) else none := rfl

theorem KTuple.make_sub_tuple_ofTupleSlice (dta : List α) (s1 s2 n1 n2 : Nat) :
    KTuple.make_sub_tuple (KTuple.ofTupleSlice ⟨dta, ⟨s1, s2⟩⟩) ⟨n1, n2⟩ =
      (if n2 + s1 ≤ s2 ∧
          (sliceGet? ((dta.take s2).drop s1) ⟨n1 + s1, n2 + s1⟩).isSome then
        some (KTuple.ofTupleSlice ⟨dta, ⟨n1 + s1, n2 + s1⟩⟩)
      else none) := by
  rcases KTuple.ofTupleSlice_cases ⟨dta, ⟨s1, s2⟩⟩ with h | h <;> rw [h] <;> rfl

/-- `take (e-1)` of a list is the `dropLast` of `take e`, after a common
`drop`. -/
theorem drop_take_pred (l : List α) (s e : Nat) (he : e ≤ l.length) :
    (l.take (e - 1)).drop s = ((l.take e).drop s).dropLast := by
  rcases Nat.lt_or_ge s e with hs | hs
  · rw [List.dropLast_eq_take, List.length_drop, List.length_take,
      List.take_drop, List.take_take]
    have h1 : e ⊓ l.length = e := Nat.min_eq_left he
    rw [h1]
    have h2 : s + (e - s - 1) = e - 1 := by omega
    rw [h2]
    have h3 : (e - 1) ⊓ e = e - 1 := Nat.min_eq_left (by omega)
    rw [h3]
  · have h1 : (l.take (e - 1)).drop s = [] := by
      apply List.drop_eq_nil_of_le
      simp only [List.length_take]
      omega
    have h2 : (l.take e).drop s = [] := by
      apply List.drop_eq_nil_of_le
      simp only [List.length_take]
      omega
    rw [h1, h2]
    rfl

/-! ### C2 — tuple slice composition -/

/-- Counterexample to C2: for `t = (0,1,2,3,4)`, `make_sub_tuple(t, 2..5)`
succeeds, and the direct range `(2+0)..(2+3) = 2..5` is in-bounds for `t`, yet
slicing the sub-tuple again with `0..3` returns `None` (the code re-checks the
absolute bounds against the already-narrowed slice). -/
theorem tuple_sub_sub_counterexample :
    (Option.bind
      (KTuple.make_sub_tuple (⟨Inner.Full [0, 1, 2, 3, 4]⟩ : KTuple Nat)
        { start := 2, stop := 5 })
      (fun t1 => KTuple.make_sub_tuple t1 { start := 0, stop := 3 })) = none ∧
    2 + 3 ≤ 5 ∧
    (KTuple.make_sub_tuple (⟨Inner.Full [0, 1, 2, 3, 4]⟩ : KTuple Nat)
      { start := 2 + 0, stop := 2 + 3 }).isSome = true :=
  ⟨rfl, by omega, rfl⟩

/-- C2 as amended: starting from a full tuple over `data`, if
`make_sub_tuple t (a..b)` succeeds with `t1`, then slicing `t1` with `c..d`
succeeds exactly when `c ≤ d ∧ a + d ≤ b - a` (NOT whenever `(a+c)..(a+d)` is
in-bounds for `t`: the end bound is also compared against the narrowed
slice's length), and whenever it succeeds the result holds the same elements
as the direct slice `t.make_sub_tuple ((a+c)..(a+d))`. -/
theorem tuple_sub_sub_amended {α : Type} (data : List α) (a b c d : Nat)
    (t1 : KTuple α)
    (h1 : KTuple.make_sub_tuple ⟨Inner.Full data⟩ { start := a, stop := b } =
      some t1) :
    ((KTuple.make_sub_tuple t1 { start := c, stop := d }).isSome ↔
      (c ≤ d ∧ a + d ≤ b - a)) ∧
    (∀ t2, KTuple.make_sub_tuple t1 { start := c, stop := d } = some t2 →
      ∃ t3,
        KTuple.make_sub_tuple ⟨Inner.Full data⟩
          { start := a + c, stop := a + d } = some t3 ∧
        t2.deref = t3.deref) := by
  simp only [KTuple.make_sub_tuple, tupleSlice_ofPtr, sliceGet?,
    TupleSlice.deref, List.drop_zero, List.length_take] at h1
  split at h1
  case isFalse => exact absurd h1 (by simp)
  case isTrue hcond =>
  obtain ⟨hb, hget⟩ := hcond
  split at h1
  case isFalse => exact absurd h1 (by simp)
  case isTrue hcond2 =>
  simp only [Nat.add_zero] at hb hget hcond2 h1
  have hblen : b ≤ data.length := hcond2.1
  have hab : a ≤ b := hb
  simp only [Option.some.injEq] at h1
  subst h1
  have hlen : ((data.take b).drop a).length = b - a := by
    simp only [List.length_drop, List.length_take]
    omega
  have hchar : KTuple.make_sub_tuple
      (KTuple.ofTupleSlice ⟨data, ⟨a, b⟩⟩) ⟨c, d⟩ =
      (if c + a ≤ d + a ∧ d + a ≤ b - a then
        some (KTuple.ofTupleSlice ⟨data, ⟨c + a, d + a⟩⟩)
      else none) := by
    rw [KTuple.make_sub_tuple_ofTupleSlice, sliceGet?_mk, hlen]
    by_cases hB : c + a ≤ d + a ∧ d + a ≤ b - a
    · rw [if_pos hB, if_pos hB,
        if_pos (⟨by omega, rfl⟩ :
          d + a ≤ b ∧
          (some ((((data.take b).drop a).take (d + a)).drop (c + a))).isSome
            = true)]
    · have hno : ¬(d + a ≤ b ∧ (none : Option (List α)).isSome = true) :=
        fun hcon => by simpa using hcon.2
      rw [if_neg hB, if_neg hB, if_neg hno]
  have hfull : ∀ n1 n2 : Nat,
      KTuple.make_sub_tuple ⟨Inner.Full data⟩ ⟨n1, n2⟩ =
      (if n1 ≤ n2 ∧ n2 ≤ data.length then
        some (KTuple.ofTupleSlice ⟨data, ⟨n1, n2⟩⟩)
      else none) := by
    intro n1 n2
    have hstep : KTuple.make_sub_tuple ⟨Inner.Full data⟩ ⟨n1, n2⟩ =
        (if n2 + 0 ≤ data.length ∧
            (sliceGet? ((data.take data.length).drop 0)
              ⟨n1 + 0, n2 + 0⟩).isSome then
          some (KTuple.ofTupleSlice ⟨data, ⟨n1 + 0, n2 + 0⟩⟩)
        else none) := rfl
    rw [hstep]
    simp only [Nat.add_zero, List.drop_zero, List.take_length]
    rw [sliceGet?_mk]
    by_cases hB : n1 ≤ n2 ∧ n2 ≤ data.length
    · rw [if_pos hB, if_pos hB,
        if_pos (⟨hB.2, rfl⟩ :
          n2 ≤ data.length ∧
          (some ((data.take n2).drop n1)).isSome = true)]
    · have hno : ¬(n2 ≤ data.length ∧
          (none : Option (List α)).isSome = true) :=
        fun hcon => by simpa using hcon.2
      rw [if_neg hB, if_neg hB, if_neg hno]
  constructor
  · rw [hchar]
    by_cases hB : c + a ≤ d + a ∧ d + a ≤ b - a
    · rw [if_pos hB]
      simp only [Option.isSome_some, true_iff]
      exact ⟨by omega, by omega⟩
    · rw [if_neg hB]
      simp only [Option.isSome_none]
      constructor
      · intro h
        exact absurd h (by decide)
      · intro hcd
        exact absurd (⟨by omega, by omega⟩ :
          c + a ≤ d + a ∧ d + a ≤ b - a) hB
  · intro t2 h2
    rw [hchar] at h2
    split at h2
    case isFalse => exact absurd h2 (by simp)
    case isTrue hB =>
    simp only [Option.some.injEq] at h2
    subst h2
    refine ⟨KTuple.ofTupleSlice ⟨data, ⟨a + c, a + d⟩⟩, ?_, ?_⟩
    · rw [hfull]
      rw [if_pos ⟨by omega, by omega⟩]
    · rw [KTuple.deref_ofTupleSlice, KTuple.deref_ofTupleSlice]
      show (data.take (d + a)).drop (c + a) = (data.take (a + d)).drop (a + c)
      rw [Nat.add_comm d a, Nat.add_comm c a]

/-- Witness for `tuple_sub_sub_amended` at `data = [0,1,2]`, `a..b = 1..3`,
`c..d = 0..2`: the composed slice fails because `1 + 2 ≤ 3 - 1` fails. -/
theorem tuple_sub_sub_amended_witness :
    (KTuple.make_sub_tuple
      (⟨Inner.Slice16 ⟨[0, 1, 2], ⟨1, 3⟩⟩⟩ : KTuple Nat)
      { start := 0, stop := 2 }).isSome ↔ (0 ≤ 2 ∧ 1 + 2 ≤ 3 - 1) :=
  (tuple_sub_sub_amended [0, 1, 2] 1 3 0 2 _ rfl).1

/-! ### C9 — slicing and popping never mutate shared storage -/

/-- C9: `make_sub_tuple`, `pop_front` and `pop_back` never change the shared
underlying element storage; popping an empty tuple returns `none`; popping a
non-empty tuple returns the first/last element and a view of the remainder. -/
theorem tuple_ops_preserve_shared_storage {α : Type} (t : KTuple α)
    (hwf : t.wf) (bnds : Bounds) (v : α) (t' : KTuple α) :
    (∀ u, t.make_sub_tuple bnds = some u → u.underlying = t.underlying) ∧
    (t.deref = [] → t.pop_front = none ∧ t.pop_back = none) ∧
    (t.pop_front = some (v, t') →
      t.deref.head? = some v ∧ t'.deref = t.deref.tail ∧
      t'.underlying = t.underlying) ∧
    (t.pop_back = some (v, t') →
      t.deref.getLast? = some v ∧ t'.deref = t.deref.dropLast ∧
      t'.underlying = t.underlying) := by
  obtain ⟨inner⟩ := t
  cases inner with
  | Full data =>
    refine ⟨?_, ?_, ?_, ?_⟩
    · intro u hu
      simp only [KTuple.make_sub_tuple, tupleSlice_ofPtr] at hu
      split at hu
      case isFalse => exact absurd hu (by simp)
      case isTrue =>
        simp only [Option.some.injEq] at hu
        subst hu
        rw [KTuple.underlying_ofTupleSlice]
        rfl
    · intro hempty
      simp only [KTuple.deref] at hempty
      subst hempty
      exact ⟨rfl, rfl⟩
    · intro hpop
      simp only [KTuple.pop_front] at hpop
      cases hhead : data.head? with
      | none => rw [hhead] at hpop; exact absurd hpop (by simp)
      | some w =>
        rw [hhead] at hpop
        simp only [Option.some.injEq, Prod.mk.injEq] at hpop
        obtain ⟨hv, ht'⟩ := hpop
        subst hv
        subst ht'
        refine ⟨hhead, ?_, ?_⟩
        · rw [KTuple.deref_ofTupleSlice]
          simp [TupleSlice.deref, KTuple.deref, List.drop_one]
        · rw [KTuple.underlying_ofTupleSlice]
          rfl
    · intro hpop
      simp only [KTuple.pop_back] at hpop
      cases hlast : data.getLast? with
      | none => rw [hlast] at hpop; exact absurd hpop (by simp)
      | some w =>
        rw [hlast] at hpop
        simp only [Option.some.injEq, Prod.mk.injEq] at hpop
        obtain ⟨hv, ht'⟩ := hpop
        subst hv
        subst ht'
        refine ⟨hlast, ?_, ?_⟩
        · rw [KTuple.deref_ofTupleSlice]
          simp [TupleSlice.deref, KTuple.deref, List.dropLast_eq_take]
        · rw [KTuple.underlying_ofTupleSlice]
          rfl
  | Slice s =>
    obtain ⟨hwf1, hwf2⟩ := hwf
    refine ⟨?_, ?_, ?_, ?_⟩
    · intro u hu
      simp only [KTuple.make_sub_tuple] at hu
      split at hu
      case isFalse => exact absurd hu (by simp)
      case isTrue =>
        simp only [Option.some.injEq] at hu
        subst hu
        rw [KTuple.underlying_ofTupleSlice]
        rfl
    · intro hempty
      simp only [KTuple.deref] at hempty
      simp only [KTuple.pop_front, KTuple.pop_back, hempty,
        List.head?_nil, List.getLast?_nil]
      exact ⟨trivial, trivial⟩
    · intro hpop
      simp only [KTuple.pop_front] at hpop
      cases hhead : s.deref.head? with
      | none => rw [hhead] at hpop; exact absurd hpop (by simp)
      | some w =>
        rw [hhead] at hpop
        simp only [Option.some.injEq, Prod.mk.injEq] at hpop
        obtain ⟨hv, ht'⟩ := hpop
        subst hv
        subst ht'
        refine ⟨hhead, ?_, rfl⟩
        simp only [KTuple.deref, TupleSlice.deref]
        rw [List.tail_drop]
    · intro hpop
      simp only [KTuple.pop_back] at hpop
      cases hlast : s.deref.getLast? with
      | none => rw [hlast] at hpop; exact absurd hpop (by simp)
      | some w =>
        rw [hlast] at hpop
        simp only [Option.some.injEq, Prod.mk.injEq] at hpop
        obtain ⟨hv, ht'⟩ := hpop
        subst hv
        subst ht'
        refine ⟨hlast, ?_, rfl⟩
        simp only [KTuple.deref, TupleSlice.deref]
        exact drop_take_pred s.data s.bounds.start s.bounds.stop hwf2
  | Slice16 s =>
    obtain ⟨hwf1, hwf2, hwf3⟩ := hwf
    refine ⟨?_, ?_, ?_, ?_⟩
    · intro u hu
      simp only [KTuple.make_sub_tuple] at hu
      split at hu
      case isFalse => exact absurd hu (by simp)
      case isTrue =>
        simp only [Option.some.injEq] at hu
        subst hu
        rw [KTuple.underlying_ofTupleSlice]
        rfl
    · intro hempty
      simp only [KTuple.deref, TupleSlice16.deref] at hempty
      simp only [KTuple.pop_front, KTuple.pop_back, TupleSlice16.deref,
        hempty, List.head?_nil, List.getLast?_nil]
      exact ⟨trivial, trivial⟩
    · intro hpop
      simp only [KTuple.pop_front] at hpop
      cases hhead : s.deref.head? with
      | none => rw [hhead] at hpop; exact absurd hpop (by simp)
      | some w =>
        rw [hhead] at hpop
        simp only [Option.some.injEq, Prod.mk.injEq] at hpop
        obtain ⟨hv, ht'⟩ := hpop
        subst hv
        subst ht'
        refine ⟨hhead, ?_, rfl⟩
        simp only [KTuple.deref, TupleSlice16.deref]
        rw [List.tail_drop]
    · intro hpop
      simp only [KTuple.pop_back] at hpop
      cases hlast : s.deref.getLast? with
      | none => rw [hlast] at hpop; exact absurd hpop (by simp)
      | some w =>
        rw [hlast] at hpop
        simp only [Option.some.injEq, Prod.mk.injEq] at hpop
        obtain ⟨hv, ht'⟩ := hpop
        subst hv
        subst ht'
        refine ⟨hlast, ?_, rfl⟩
        simp only [KTuple.deref, TupleSlice16.deref]
        exact drop_take_pred s.data s.bounds.start s.bounds.stop hwf2

/-- Witness for `tuple_ops_preserve_shared_storage` at the full tuple
`(5, 7)`. -/
theorem tuple_ops_preserve_shared_storage_witness :
    (KTuple.deref (⟨Inner.Full [5, 7]⟩ : KTuple Nat)).head? = some 5 ∧
    KTuple.deref (⟨Inner.Slice16 ⟨[5, 7], ⟨1, 2⟩⟩⟩ : KTuple Nat) =
      (KTuple.deref (⟨Inner.Full [5, 7]⟩ : KTuple Nat)).tail ∧
    KTuple.underlying (⟨Inner.Slice16 ⟨[5, 7], ⟨1, 2⟩⟩⟩ : KTuple Nat) =
      KTuple.underlying (⟨Inner.Full [5, 7]⟩ : KTuple Nat) :=
  (tuple_ops_preserve_shared_storage (⟨Inner.Full [5, 7]⟩ : KTuple Nat)
    trivial ⟨0, 1⟩ 5 ⟨Inner.Slice16 ⟨[5, 7], ⟨1, 2⟩⟩⟩).2.2.1 rfl

/-! ### Helper lemmas for the modelled formatter -/

theorem takeWhile_append_all {α : Type} {p : α → Bool} (xs ys : List α)
    (hall : ∀ a ∈ xs, p a = true)
    (hys : ∀ c ys', ys = c :: ys' → p c = false) :
    (xs ++ ys).takeWhile p = xs ∧ (xs ++ ys).dropWhile p = ys := by
  induction xs with
  | nil =>
    simp only [List.nil_append]
    cases ys with
    | nil => exact ⟨rfl, rfl⟩
    | cons c ys' =>
      rw [List.takeWhile_cons, List.dropWhile_cons, if_neg, if_neg] <;>
        simp [hys c ys' rfl]
  | cons x xs ih =>
    have hx : p x = true := hall x (by simp)
    obtain ⟨ih1, ih2⟩ := ih (fun a ha => hall a (by simp [ha]))
    simp only [List.cons_append, List.takeWhile_cons, List.dropWhile_cons,
      if_pos hx, hx, ih1, ih2]
    simp

theorem isAlpha_not_space (c : Char) (h : c.isAlpha = true) :
    ¬(c = ' ' ∨ c = Char.ofNat 9) := by
  rintro (rfl | rfl) <;> exact absurd h (by decide)

theorem isDigit_not_space (c : Char) (h : c.isDigit = true) :
    ¬(c = ' ' ∨ c = Char.ofNat 9) := by
  rintro (rfl | rfl) <;> exact absurd h (by decide)

theorem isDigit_not_isAlpha (c : Char) (h : c.isDigit = true) :
    c.isAlpha = false := by
  simp only [Char.isDigit, Char.isAlpha, Char.isLower, Char.isUpper,
    Bool.and_eq_true, Bool.or_eq_true, decide_eq_true_eq] at *
  rw [Bool.eq_false_iff]
  intro hcon
  simp only [Bool.and_eq_true, Bool.or_eq_true, decide_eq_true_eq] at hcon
  obtain ⟨h1, h2⟩ := h
  have h1' : 48 ≤ c.val.toNat := h1
  have h2' : c.val.toNat ≤ 57 := h2
  rcases hcon with ⟨h3, h4⟩ | ⟨h3, h4⟩
  · have h3' : 65 ≤ c.val.toNat := h3
    omega
  · have h3' : 97 ≤ c.val.toNat := h3
    omega

theorem tokenizeLineGo_wf :
    ∀ fuel l ts, tokenizeLineGo fuel l = some ts → ∀ t ∈ ts, t.wf := by
  intro fuel
  induction fuel with
  | zero =>
    intro l ts h t ht
    cases l with
    | nil =>
      simp only [tokenizeLineGo, Option.some.injEq] at h
      subst h
      simp at ht
    | cons c rest => simp [tokenizeLineGo] at h
  | succ f ih =>
    intro l ts h t ht
    cases l with
    | nil =>
      simp only [tokenizeLineGo, Option.some.injEq] at h
      subst h
      simp at ht
    | cons c rest =>
      simp only [tokenizeLineGo] at h
      split at h
      · exact ih rest ts h t ht
      · split at h
        case isTrue halpha =>
          cases hrec : tokenizeLineGo f (rest.dropWhile Char.isAlpha) with
          | none => rw [hrec] at h; exact absurd h (by simp)
          | some ts' =>
            rw [hrec] at h
            simp only [Option.map_some', Option.some.injEq] at h
            subst h
            rcases List.mem_cons.mp ht with rfl | hmem
            · refine ⟨by simp, ?_⟩
              intro a ha
              rcases List.mem_cons.mp ha with rfl | ha'
              · exact halpha
              · exact List.mem_takeWhile_imp ha'
            · exact ih _ ts' hrec t hmem
        case isFalse =>
          split at h
          case isTrue hdigit =>
            cases hrec : tokenizeLineGo f (rest.dropWhile Char.isDigit) with
            | none => rw [hrec] at h; exact absurd h (by simp)
            | some ts' =>
              rw [hrec] at h
              simp only [Option.map_some', Option.some.injEq] at h
              subst h
              rcases List.mem_cons.mp ht with rfl | hmem
              · refine ⟨by simp, ?_⟩
                intro a ha
                rcases List.mem_cons.mp ha with rfl | ha'
                · exact hdigit
                · exact List.mem_takeWhile_imp ha'
              · exact ih _ ts' hrec t hmem
          case isFalse =>
            split at h
            case isTrue hcomma =>
              cases hrec : tokenizeLineGo f rest with
              | none => rw [hrec] at h; exact absurd h (by simp)
              | some ts' =>
                rw [hrec] at h
                simp only [Option.map_some', Option.some.injEq] at h
                subst h
                rcases List.mem_cons.mp ht with rfl | hmem
                · exact trivial
                · exact ih _ ts' hrec t hmem
            case isFalse =>
              split at h
              case isTrue hop =>
                cases hrec : tokenizeLineGo f rest with
                | none => rw [hrec] at h; exact absurd h (by simp)
                | some ts' =>
                  rw [hrec] at h
                  simp only [Option.map_some', Option.some.injEq] at h
                  subst h
                  rcases List.mem_cons.mp ht with rfl | hmem
                  · exact hop
                  · exact ih _ ts' hrec t hmem
              case isFalse => exact absurd h (by simp)

theorem tokenizeLineGo_space_step (f : Nat) (R : List Char) :
    tokenizeLineGo (f + 1) (' ' :: R) = tokenizeLineGo f R := rfl

theorem tokenizeLineGo_comma_step (f : Nat) (R : List Char) :
    tokenizeLineGo (f + 1) (',' :: R) =
      (tokenizeLineGo f R).map (fun ts => FTok.comma :: ts) := rfl

theorem tokenizeLineGo_op_step (f : Nat) (R : List Char) (c : Char)
    (h : c ∈ opChars) :
    tokenizeLineGo (f + 1) (c :: R) =
      (tokenizeLineGo f R).map (fun ts => FTok.op c :: ts) := by
  simp only [opChars, List.mem_cons, List.not_mem_nil, or_false] at h
  rcases h with rfl | rfl | rfl | rfl | rfl <;> rfl

theorem tokenizeLineGo_consume_tok (t : FTok) (ts : List FTok)
    (R : List Char)
    (hhead : R = [] ∨ (∃ r, R = ' ' :: r) ∨ (∃ r, R = ',' :: r))
    (hcont : ∀ fuel, R.length ≤ fuel → tokenizeLineGo fuel R = some ts)
    (hwf : t.wf) :
    ∀ fuel, (renderTok t ++ R).length ≤ fuel →
      tokenizeLineGo fuel (renderTok t ++ R) = some (t :: ts) := by
  intro fuel hlen
  have hheadAlpha : ∀ c ys', R = c :: ys' → c.isAlpha = false := by
    intro c ys' hR
    rcases hhead with h | ⟨r, h⟩ | ⟨r, h⟩ <;> rw [h] at hR
    · exact absurd hR (by simp)
    · injection hR with h1 h2
      rw [← h1]
      decide
    · injection hR with h1 h2
      rw [← h1]
      decide
  have hheadDigit : ∀ c ys', R = c :: ys' → c.isDigit = false := by
    intro c ys' hR
    rcases hhead with h | ⟨r, h⟩ | ⟨r, h⟩ <;> rw [h] at hR
    · exact absurd hR (by simp)
    · injection hR with h1 h2
      rw [← h1]
      decide
    · injection hR with h1 h2
      rw [← h1]
      decide
  cases t with
  | ident s =>
    obtain ⟨hne, hall⟩ := hwf
    cases s with
    | nil => exact absurd rfl hne
    | cons c s' =>
      have hc : c.isAlpha = true := hall c (by simp)
      simp only [renderTok, List.cons_append] at hlen ⊢
      cases fuel with
      | zero => simp at hlen
      | succ f =>
        have htw := takeWhile_append_all s' R
          (fun a ha => hall a (by simp [ha])) hheadAlpha
        simp only [tokenizeLineGo]
        rw [if_neg (isAlpha_not_space c hc), if_pos hc, htw.1, htw.2,
          hcont f (by
            simp only [List.length_cons, List.length_append] at hlen
            omega)]
        rfl
  | num s =>
    obtain ⟨hne, hall⟩ := hwf
    cases s with
    | nil => exact absurd rfl hne
    | cons c s' =>
      have hc : c.isDigit = true := hall c (by simp)
      have hna : ¬(c.isAlpha = true) := by
        simp [isDigit_not_isAlpha c hc]
      simp only [renderTok, List.cons_append] at hlen ⊢
      cases fuel with
      | zero => simp at hlen
      | succ f =>
        have htw := takeWhile_append_all s' R
          (fun a ha => hall a (by simp [ha])) hheadDigit
        simp only [tokenizeLineGo]
        rw [if_neg (isDigit_not_space c hc), if_neg hna, if_pos hc,
          htw.1, htw.2,
          hcont f (by
            simp only [List.length_cons, List.length_append] at hlen
            omega)]
        rfl
  | op c =>
    have hshape : renderTok (FTok.op c) ++ R = c :: R := rfl
    rw [hshape] at hlen ⊢
    cases fuel with
    | zero => simp at hlen
    | succ f =>
      have hlen' : R.length ≤ f := by
        simp only [List.length_cons] at hlen
        omega
      rw [tokenizeLineGo_op_step f R c hwf, hcont f hlen']
      rfl
  | comma =>
    have hshape : renderTok FTok.comma ++ R = ',' :: R := rfl
    rw [hshape] at hlen ⊢
    cases fuel with
    | zero => simp at hlen
    | succ f =>
      have hlen' : R.length ≤ f := by
        simp only [List.length_cons] at hlen
        omega
      rw [tokenizeLineGo_comma_step, hcont f hlen']
      rfl

theorem splitLines_ne_nil (l : List Char) : splitLines l ≠ [] := by
  cases l with
  | nil => simp [splitLines]
  | cons c rest =>
    simp only [splitLines]
    split
    · simp
    · split <;> simp

theorem splitLines_append (l : List Char) :
    ∀ r, ('\n') ∉ l →
    ∃ h tl, splitLines r = h :: tl ∧ splitLines (l ++ r) = (l ++ h) :: tl := by
  induction l with
  | nil =>
    intro r _
    cases hs : splitLines r with
    | nil => exact absurd hs (splitLines_ne_nil r)
    | cons h tl => exact ⟨h, tl, rfl, by simpa using hs⟩
  | cons c l' ih =>
    intro r hnl
    have hc : ¬(c = '\n') := by
      intro h
      exact hnl (by simp [h])
    obtain ⟨h, tl, h1, h2⟩ := ih r (fun hm => hnl (by simp [hm]))
    refine ⟨h, tl, h1, ?_⟩
    simp only [List.cons_append, splitLines, if_neg hc, List.append_eq]
    rw [h2]

theorem splitLines_joinLines (ls : List (List Char)) :
    ls ≠ [] → (∀ l ∈ ls, ('\n') ∉ l) →
    splitLines (joinLines ls) = ls ++ [[]] := by
  induction ls with
  | nil => intro h _; exact absurd rfl h
  | cons l tail ih =>
    intro _ hnl
    cases tail with
    | nil =>
      obtain ⟨h, tl, h1, h2⟩ :=
        splitLines_append l ['\n'] (hnl l (by simp))
      have hsn : splitLines ['\n'] = [[], []] := rfl
      rw [hsn] at h1
      injection h1 with e1 e2
      show splitLines (l ++ ['\n']) = [l, []]
      rw [h2, ← e1, ← e2]
      simp
    | cons l2 rest =>
      obtain ⟨h, tl, h1, h2⟩ := splitLines_append l
        ('\n' :: joinLines (l2 :: rest)) (hnl l (by simp))
      have hsplit : splitLines ('\n' :: joinLines (l2 :: rest)) =
          [] :: splitLines (joinLines (l2 :: rest)) := by
        simp [splitLines]
      rw [hsplit, ih (by simp) (fun x hx => hnl x (by simp [hx]))] at h1
      injection h1 with e1 e2
      show splitLines (l ++ '\n' :: joinLines (l2 :: rest)) = _
      rw [h2, ← e1, ← e2]
      simp

theorem newline_not_mem_renderTok (t : FTok) (h : t.wf) :
    ('\n') ∉ renderTok t := by
  cases t with
  | ident s =>
    obtain ⟨_, hall⟩ := h
    intro hm
    exact absurd (hall _ hm) (by decide)
  | num s =>
    obtain ⟨_, hall⟩ := h
    intro hm
    exact absurd (hall _ hm) (by decide)
  | op c =>
    intro hm
    simp only [renderTok, List.mem_singleton] at hm
    rw [← hm] at h
    have hmem : ('\n') ∈ opChars := h
    exact absurd hmem (by decide)
  | comma =>
    intro hm
    simp [renderTok] at hm

/-! ### C8 — pipe resolution uses the `with_parens` bit -/

/-- C8 (spec-modelled parser): `99 >> foo.bar 42` produces a single call link
with `args = [42, 99]` and `with_parens = false`; `99 >> foo.bar(42)` keeps
the closed call `foo.bar(42)` intact and calls its result with the single
argument `99`; and pipe resolution preserves the `with_parens` bit of every
existing call link (adding at most one new parenthesised call link). -/
theorem pipe_uses_with_parens (n99 n42 rfoo : AstIndex)
    (cbar : ConstantIndex) :
    apply_pipe n99
      [LookupNode.Root rfoo, LookupNode.Id cbar,
        LookupNode.Call [n42] false] =
      [LookupNode.Root rfoo, LookupNode.Id cbar,
        LookupNode.Call [n42, n99] false] ∧
    apply_pipe n99
      [LookupNode.Root rfoo, LookupNode.Id cbar,
        LookupNode.Call [n42] true] =
      [LookupNode.Root rfoo, LookupNode.Id cbar,
        LookupNode.Call [n42] true, LookupNode.Call [n99] true] ∧
    ∀ (piped : AstIndex) (chain : List LookupNode),
      call_flags (apply_pipe piped chain) = call_flags chain ∨
      call_flags (apply_pipe piped chain) = call_flags chain ++ [true] := by
  refine ⟨rfl, rfl, ?_⟩
  intro piped chain
  unfold apply_pipe
  cases hlast : chain.getLast? with
  | none => right; simp [call_flags, List.filterMap_append]
  | some link =>
    have hne : chain ≠ [] := by
      intro h
      rw [h] at hlast
      simp at hlast
    have hdecomp : chain.dropLast ++ [link] = chain := by
      have hgl : chain.getLast hne = link := by
        have := List.getLast?_eq_getLast chain hne
        rw [hlast] at this
        exact (Option.some.injEq _ _ ▸ this.symm)
      rw [← hgl]
      exact List.dropLast_append_getLast hne
    cases link with
    | Call args wp =>
      cases wp with
      | false =>
        left
        conv_rhs => rw [← hdecomp]
        simp [call_flags, List.filterMap_append]
      | true =>
        right
        simp [call_flags, List.filterMap_append]
    | Root r => right; simp [call_flags, List.filterMap_append]
    | Id i => right; simp [call_flags, List.filterMap_append]
    | Str s => right; simp [call_flags, List.filterMap_append]
    | Index i => right; simp [call_flags, List.filterMap_append]

-- -------------------------------------------------------------------
-- Lexer helpers: byte accounting
-- -------------------------------------------------------------------

theorem byteLen_nil : byteLen [] = 0 := rfl

theorem byteLen_cons (c : Char) (l : List Char) :
    byteLen (c :: l) = c.utf8Size + byteLen l := by
  simp [byteLen]

theorem byteLen_append (a b : List Char) :
    byteLen (a ++ b) = byteLen a + byteLen b := by
  simp [byteLen]

theorem byteLen_cons_pos (c : Char) (l : List Char) : 1 ≤ byteLen (c :: l) := by
  rw [byteLen_cons]
  have := Char.utf8Size_pos c
  omega

theorem byteLen_eq_zero (l : List Char) (h : byteLen l = 0) : l = [] := by
  cases l with
  | nil => rfl
  | cons c t => exact absurd h (by have := byteLen_cons_pos c t; omega)

theorem byteLen_all_one (l : List Char) (h : ∀ c ∈ l, c.utf8Size = 1) :
    byteLen l = l.length := by
  induction l with
  | nil => rfl
  | cons c t ih =>
      rw [byteLen_cons, h c (by simp), ih (fun x hx => h x (by simp [hx]))]
      simp [List.length_cons]
      omega

theorem utf8Size_one_of_lt (c : Char) (h : c.val.toNat < 128) :
    c.utf8Size = 1 := by
  unfold Char.utf8Size
  rw [if_pos]
  exact show c.val.toNat ≤ 127 from by omega

theorem is_digit_size (c : Char) (h : is_digit c = true) : c.utf8Size = 1 := by
  simp [is_digit, Char.isDigit] at h
  have h1 : 48 ≤ c.val.toNat := h.1
  have h2 : c.val.toNat ≤ 57 := h.2
  exact utf8Size_one_of_lt c (by omega)

theorem is_whitespace_size (c : Char) (h : is_whitespace c = true) :
    c.utf8Size = 1 := by
  simp [is_whitespace] at h
  rcases h with h | h <;> subst h <;> decide

theorem is_binary_digit_size (c : Char) (h : is_binary_digit c = true) :
    c.utf8Size = 1 := by
  simp [is_binary_digit] at h
  rcases h with h | h <;> subst h <;> decide

theorem is_octal_digit_size (c : Char) (h : is_octal_digit c = true) :
    c.utf8Size = 1 := by
  simp [is_octal_digit] at h
  have h2 : c.val.toNat ≤ 55 := h.2
  exact utf8Size_one_of_lt c (by omega)

theorem is_hex_digit_size (c : Char) (h : is_hex_digit c = true) :
    c.utf8Size = 1 := by
  simp [is_hex_digit, is_digit, Char.isDigit] at h
  rcases h with (h | h) | h
  · have h2 : c.val.toNat ≤ 57 := h.2
    exact utf8Size_one_of_lt c (by omega)
  · have h2 : c.val.toNat ≤ 102 := h.2
    exact utf8Size_one_of_lt c (by omega)
  · have h2 : c.val.toNat ≤ 70 := h.2
    exact utf8Size_one_of_lt c (by omega)

theorem stringQuote?_size (c : Char) (q : StringQuote)
    (h : stringQuote? c = some q) : c.utf8Size = 1 := by
  unfold stringQuote? at h
  split at h
  · rename_i hc
    subst hc
    decide
  · split at h
    · rename_i hc
      subst hc
      decide
    · exact absurd h (by simp)

theorem takeWhile_byteLen_one (p : Char → Bool)
    (hp : ∀ c, p c = true → c.utf8Size = 1) (l : List Char) :
    byteLen (l.takeWhile p) = (l.takeWhile p).length :=
  byteLen_all_one _ (fun c hc => hp c (List.mem_takeWhile_imp hc))

-- -------------------------------------------------------------------
-- Lexer helpers: the remaining input as a suffix of the source
-- -------------------------------------------------------------------

theorem remainingChars_append (p r : List Char) :
    remainingChars (p ++ r) (byteLen p) = some r := by
  induction p with
  | nil =>
      show remainingChars ([] ++ r) (byteLen []) = some r
      rw [List.nil_append, byteLen_nil, remainingChars.eq_def, if_pos rfl]
  | cons c t ih =>
      have hpos := Char.utf8Size_pos c
      rw [List.cons_append, byteLen_cons, remainingChars.eq_def,
        if_neg (by omega : ¬c.utf8Size + byteLen t = 0)]
      show (if c.utf8Size ≤ c.utf8Size + byteLen t then
          remainingChars (t ++ r) (c.utf8Size + byteLen t - c.utf8Size)
        else none) = some r
      rw [if_pos (by omega)]
      have heq : c.utf8Size + byteLen t - c.utf8Size = byteLen t := by omega
      rw [heq]
      exact ih

theorem remainingChars_decomp (source : List Char) (byte : Nat) :
    ∀ r, remainingChars source byte = some r →
      ∃ p, source = p ++ r ∧ byteLen p = byte := by
  induction source, byte using remainingChars.induct with
  | case1 t =>
      intro r h
      rw [remainingChars.eq_def, if_pos rfl] at h
      injection h with h
      exact ⟨[], by simp [h], rfl⟩
  | case2 byte hb =>
      intro r h
      rw [remainingChars.eq_def, if_neg hb] at h
      exact absurd h (by simp)
  | case3 byte hb c rest hle ih =>
      intro r h
      rw [remainingChars.eq_def, if_neg hb] at h
      replace h : (if c.utf8Size ≤ byte then
          remainingChars rest (byte - c.utf8Size) else none) = some r := h
      rw [if_pos hle] at h
      obtain ⟨p, hp1, hp2⟩ := ih r h
      have hpos := Char.utf8Size_pos c
      exact ⟨c :: p, by simp [hp1], by rw [byteLen_cons, hp2]; omega⟩
  | case4 byte hb c rest hle =>
      intro r h
      rw [remainingChars.eq_def, if_neg hb] at h
      replace h : (if c.utf8Size ≤ byte then
          remainingChars rest (byte - c.utf8Size) else none) = some r := h
      rw [if_neg hle] at h
      exact absurd h (by simp)

theorem head?_decomp {α : Type} (l : List α) (a : α) (h : l.head? = some a) :
    l = a :: l.tail := by
  cases l with
  | nil => exact absurd h (by simp)
  | cons x t =>
      simp at h
      subst h
      rfl

-- -------------------------------------------------------------------
-- Lexer helpers: the scanning loops consume a prefix of their input
-- -------------------------------------------------------------------

theorem comment_multi_loop_decomp (chars : List Char) (b : Nat)
    (pos : Position) :
    ∀ out, comment_multi_loop chars b pos = some out →
      ∃ pre suf, chars = pre ++ suf ∧ out.1 = b + byteLen pre := by
  induction chars, b, pos using comment_multi_loop.induct with
  | case1 b pos =>
      intro out h
      unfold comment_multi_loop at h
      injection h with h
      exact ⟨[], [], rfl, by rw [← h]; simp [byteLen_nil]⟩
  | case2 rest b pos hh cb1 pos1 ih =>
      intro out h
      unfold comment_multi_loop at h
      simp [hh] at h
      obtain ⟨pre, suf, h1, h2⟩ := ih out h
      refine ⟨'#' :: '-' :: pre, suf, ?_, ?_⟩
      · conv_lhs => rw [head?_decomp rest '-' hh, h1]
        rfl
      · rw [h2, byteLen_cons, byteLen_cons]
        have e1 : ('#' : Char).utf8Size = 1 := by decide
        have e2 : ('-' : Char).utf8Size = 1 := by decide
        omega
  | case3 rest b pos hh cb1 pos1 ih =>
      intro out h
      unfold comment_multi_loop at h
      simp [hh] at h
      obtain ⟨pre, suf, h1, h2⟩ := ih out h
      refine ⟨'#' :: pre, suf, by rw [h1]; rfl, ?_⟩
      rw [h2, byteLen_cons]
      have e1 : ('#' : Char).utf8Size = 1 := by decide
      omega
  | case4 rest b pos hh hne =>
      intro out h
      unfold comment_multi_loop at h
      simp [hh] at h
      refine ⟨'-' :: '#' :: [], rest.tail, ?_, ?_⟩
      · conv_lhs => rw [head?_decomp rest '#' hh]
        rfl
      · rw [← h]
        have e1 : ('-' : Char).utf8Size = 1 := by decide
        have e2 : byteLen ['-', '#'] = 2 := by decide
        simp only [e2]
        omega
  | case5 rest b pos hh cb1 pos1 hne ih =>
      intro out h
      unfold comment_multi_loop at h
      simp [hh] at h
      obtain ⟨pre, suf, h1, h2⟩ := ih out h
      refine ⟨'-' :: pre, suf, by rw [h1]; rfl, ?_⟩
      rw [h2, byteLen_cons]
      have e1 : ('-' : Char).utf8Size = 1 := by decide
      omega
  | case6 rest b pos hh cb1 pos1 hne1 hne2 ih =>
      intro out h
      unfold comment_multi_loop at h
      simp [hh] at h
      obtain ⟨pre, suf, h1, h2⟩ := ih out h
      refine ⟨'\r' :: '\n' :: pre, suf, ?_, ?_⟩
      · conv_lhs => rw [head?_decomp rest '\n' hh, h1]
        rfl
      · rw [h2, byteLen_cons, byteLen_cons]
        have e1 : ('\r' : Char).utf8Size = 1 := by decide
        have e2 : ('\n' : Char).utf8Size = 1 := by decide
        omega
  | case7 rest b pos hh hne1 hne2 =>
      intro out h
      unfold comment_multi_loop at h
      simp [hh] at h
  | case8 rest b pos cb1 pos1 hne1 hne2 hne3 ih =>
      intro out h
      unfold comment_multi_loop at h
      simp at h
      obtain ⟨pre, suf, h1, h2⟩ := ih out h
      refine ⟨'\n' :: pre, suf, by rw [h1]; rfl, ?_⟩
      rw [h2, byteLen_cons]
      have e1 : ('\n' : Char).utf8Size = 1 := by decide
      omega
  | case9 c rest b pos cb1 pos1 hc1 hc2 hc3 hc4 ih =>
      intro out h
      unfold comment_multi_loop at h
      simp [hc1, hc2, hc3, hc4] at h
      obtain ⟨pre, suf, h1, h2⟩ := ih out h
      refine ⟨c :: pre, suf, by rw [h1]; rfl, ?_⟩
      rw [h2, byteLen_cons]
      omega

theorem string_literal_loop_decomp (quote : StringQuote) (chars : List Char)
    (b : Nat) (pos : Position) :
    ∀ out, string_literal_loop quote chars b pos = some out →
      ∃ pre suf, chars = pre ++ suf ∧ out.1 = b + byteLen pre := by
  induction chars, b, pos using string_literal_loop.induct quote with
  | case1 b pos =>
      intro out h
      unfold string_literal_loop at h
      exact absurd h (by simp)
  | case2 c rest b pos hq =>
      intro out h
      unfold string_literal_loop at h
      simp [hq] at h
      exact ⟨[], c :: rest, rfl, by rw [← h]; simp [byteLen_nil]⟩
  | case3 rest b pos hq =>
      intro out h
      unfold string_literal_loop at h
      simp [hq] at h
      exact ⟨[], '$' :: rest, rfl, by rw [← h]; simp [byteLen_nil]⟩
  | case4 rest b pos sb pos1 c2 hh hesc hq hd ih =>
      intro out h
      unfold string_literal_loop at h
      simp [hq, hd, hh, hesc] at h
      obtain ⟨pre, suf, h1, h2⟩ := ih out h
      refine ⟨backslashChar :: c2 :: pre, suf, ?_, ?_⟩
      · conv_lhs => rw [head?_decomp rest c2 hh, h1]
        rfl
      · rw [h2, byteLen_cons, byteLen_cons]
        have e1 : backslashChar.utf8Size = 1 := by decide
        have e2 : c2.utf8Size = 1 := by
          rcases hesc with h' | h' | h'
          · subst h'; decide
          · subst h'; decide
          · exact stringQuote?_size c2 quote h'
        omega
  | case5 rest b pos sb pos1 c2 hh hesc hq hd ih =>
      intro out h
      unfold string_literal_loop at h
      simp [hq, hd, hh, hesc] at h
      obtain ⟨pre, suf, h1, h2⟩ := ih out h
      refine ⟨backslashChar :: pre, suf, by rw [h1]; rfl, ?_⟩
      rw [h2, byteLen_cons]
      have e1 : backslashChar.utf8Size = 1 := by decide
      omega
  | case6 rest b pos sb pos1 hnone hq hd ih =>
      intro out h
      unfold string_literal_loop at h
      simp [hq, hd, hnone] at h
      obtain ⟨pre, suf, h1, h2⟩ := ih out h
      refine ⟨backslashChar :: pre, suf, by rw [h1]; rfl, ?_⟩
      rw [h2, byteLen_cons]
      have e1 : backslashChar.utf8Size = 1 := by decide
      omega
  | case7 rest b pos hh hq hd hbs ih =>
      intro out h
      unfold string_literal_loop at h
      simp [hq, hd, hbs, hh] at h
      obtain ⟨pre, suf, h1, h2⟩ := ih out h
      refine ⟨'\r' :: '\n' :: pre, suf, ?_, ?_⟩
      · conv_lhs => rw [head?_decomp rest '\n' hh, h1]
        rfl
      · rw [h2, byteLen_cons, byteLen_cons]
        have e1 : ('\r' : Char).utf8Size = 1 := by decide
        have e2 : ('\n' : Char).utf8Size = 1 := by decide
        omega
  | case8 rest b pos hh hq hd hbs =>
      intro out h
      unfold string_literal_loop at h
      simp [hq, hd, hbs, hh] at h
  | case9 rest b pos hq hd hbs hr ih =>
      intro out h
      unfold string_literal_loop at h
      simp [hq, hd, hbs, hr] at h
      obtain ⟨pre, suf, h1, h2⟩ := ih out h
      refine ⟨'\n' :: pre, suf, by rw [h1]; rfl, ?_⟩
      rw [h2, byteLen_cons]
      have e1 : ('\n' : Char).utf8Size = 1 := by decide
      omega
  | case10 c rest b pos hq hd hbs hr hn ih =>
      intro out h
      unfold string_literal_loop at h
      simp [hq, hd, hbs, hr, hn] at h
      obtain ⟨pre, suf, h1, h2⟩ := ih out h
      refine ⟨c :: pre, suf, by rw [h1]; rfl, ?_⟩
      rw [h2, byteLen_cons]
      omega

theorem raw_string_loop_decomp (quote : StringQuote) (chars : List Char)
    (b : Nat) (pos : Position) :
    ∀ out, raw_string_loop quote chars b pos = some out →
      ∃ pre suf, chars = pre ++ suf ∧ out.1 = b + byteLen pre := by
  induction chars, b, pos using raw_string_loop.induct quote with
  | case1 b pos =>
      intro out h
      unfold raw_string_loop at h
      exact absurd h (by simp)
  | case2 c rest b pos hq =>
      intro out h
      unfold raw_string_loop at h
      simp [hq] at h
      exact ⟨[], c :: rest, rfl, by rw [← h]; simp [byteLen_nil]⟩
  | case3 rest b pos hh hq ih =>
      intro out h
      unfold raw_string_loop at h
      simp [hq, hh] at h
      obtain ⟨pre, suf, h1, h2⟩ := ih out h
      refine ⟨'\r' :: '\n' :: pre, suf, ?_, ?_⟩
      · conv_lhs => rw [head?_decomp rest '\n' hh, h1]
        rfl
      · rw [h2, byteLen_cons, byteLen_cons]
        have e1 : ('\r' : Char).utf8Size = 1 := by decide
        have e2 : ('\n' : Char).utf8Size = 1 := by decide
        omega
  | case4 rest b pos hh hq =>
      intro out h
      unfold raw_string_loop at h
      simp [hq, hh] at h
  | case5 rest b pos hq hr ih =>
      intro out h
      unfold raw_string_loop at h
      simp [hq, hr] at h
      obtain ⟨pre, suf, h1, h2⟩ := ih out h
      refine ⟨'\n' :: pre, suf, by rw [h1]; rfl, ?_⟩
      rw [h2, byteLen_cons]
      have e1 : ('\n' : Char).utf8Size = 1 := by decide
      omega
  | case6 c rest b pos hq hr hn ih =>
      intro out h
      unfold raw_string_loop at h
      simp [hq, hr, hn] at h
      obtain ⟨pre, suf, h1, h2⟩ := ih out h
      refine ⟨c :: pre, suf, by rw [h1]; rfl, ?_⟩
      rw [h2, byteLen_cons]
      omega

theorem string_literal_loop_pos (quote : StringQuote) (c : Char)
    (rest : List Char) (b : Nat) (pos : Position)
    (hq : ¬stringQuote? c = some quote) (hd : ¬c = '$') :
    ∀ out, string_literal_loop quote (c :: rest) b pos = some out →
      b + 1 ≤ out.1 := by
  intro out h
  unfold string_literal_loop at h
  by_cases hbs : c = backslashChar
  · subst hbs
    cases hh : rest.head? with
    | some c2 =>
        by_cases hesc : c2 = '$' ∨ c2 = backslashChar ∨
            stringQuote? c2 = some quote
        · simp [hq, hd, hh, hesc] at h
          obtain ⟨pre, suf, h1, h2⟩ :=
            string_literal_loop_decomp quote rest.tail _ _ out h
          omega
        · simp [hq, hd, hh, hesc] at h
          obtain ⟨pre, suf, h1, h2⟩ :=
            string_literal_loop_decomp quote rest _ _ out h
          omega
    | none =>
        simp [hq, hd, hh] at h
        obtain ⟨pre, suf, h1, h2⟩ :=
          string_literal_loop_decomp quote rest _ _ out h
        omega
  · by_cases hr : c = '\r'
    · subst hr
      cases hh : rest.head? with
      | some c2 =>
          by_cases hn : c2 = '\n'
          · subst hn
            simp [hq, hd, hbs, hh] at h
            obtain ⟨pre, suf, h1, h2⟩ :=
              string_literal_loop_decomp quote rest.tail _ _ out h
            omega
          · simp [hq, hd, hbs, hh, hn] at h
      | none => simp [hq, hd, hbs, hh] at h
    · by_cases hn : c = '\n'
      · subst hn
        simp [hq, hd, hbs] at h
        obtain ⟨pre, suf, h1, h2⟩ :=
          string_literal_loop_decomp quote rest _ _ out h
        omega
      · simp [hq, hd, hbs, hr, hn] at h
        obtain ⟨pre, suf, h1, h2⟩ :=
          string_literal_loop_decomp quote rest _ _ out h
        have := Char.utf8Size_pos c
        omega


-- -------------------------------------------------------------------
-- Lexer helpers: each consuming function advances over a prefix
-- -------------------------------------------------------------------

theorem consume_newline_adv (s : TokenLexer) (chars : List Char) (t : Token)
    (s2 : TokenLexer) (h : s.consume_newline chars = (t, s2))
    (ht : t ≠ Token.Error) : Advances1 s s2 chars := by
  unfold TokenLexer.consume_newline at h
  cases chars with
  | nil =>
      simp at h
      exact absurd h.1.symm ht
  | cons c tail =>
      by_cases hr : c = '\r'
      · subst hr
        cases tail with
        | nil =>
            simp at h
            exact absurd h.1.symm ht
        | cons c2 t2 =>
            by_cases hn : c2 = '\n'
            · subst hn
              simp at h
              obtain ⟨rfl, rfl⟩ := h.symm
              have e : byteLen ['\r', '\n'] = 2 := by decide
              exact ⟨rfl, rfl, ['\r', '\n'], t2, rfl, by rw [e]; rfl, by decide⟩
            · simp [hn] at h
              exact absurd h.1.symm ht
      · by_cases hn : c = '\n'
        · subst hn
          simp [hr] at h
          obtain ⟨rfl, rfl⟩ := h.symm
          have e : byteLen ['\n'] = 1 := by decide
          exact ⟨rfl, rfl, ['\n'], tail, rfl, by rw [e]; rfl, by decide⟩
        · simp [hr, hn] at h
          exact absurd h.1.symm ht

theorem consume_comment_adv (s : TokenLexer) (chars : List Char) (t : Token)
    (s2 : TokenLexer) (h : s.consume_comment chars = (t, s2))
    (ht : t ≠ Token.Error) : Advances1 s s2 chars := by
  unfold TokenLexer.consume_comment at h
  split at h
  case _ rest =>
    split at h
    case _ r1 =>
      dsimp only at h
      split at h
      case _ cb pos2 found heq =>
        injection h with h1 h2
        subst h2
        obtain ⟨pre, suf, hd1, hd2⟩ :=
          comment_multi_loop_decomp _ 1 _ (cb, pos2, found) heq
        have hcb : cb = 1 + byteLen pre := hd2
        refine ⟨rfl, rfl, '#' :: pre, suf, by rw [hd1]; rfl, ?_, ?_⟩
        · show s.current_byte + cb = s.current_byte + byteLen ('#' :: pre)
          rw [byteLen_cons]
          have e : ('#' : Char).utf8Size = 1 := by decide
          omega
        · exact byteLen_cons_pos _ _
      case _ =>
        injection h with h1 h2
        exact absurd h1.symm ht
    case _ hne =>
      injection h with h1 h2
      subst h2
      refine ⟨rfl, rfl,
        '#' :: rest.takeWhile (fun c => !(c = '\r' || c = '\n')),
        rest.dropWhile (fun c => !(c = '\r' || c = '\n')), ?_, ?_, ?_⟩
      · rw [List.cons_append, List.takeWhile_append_dropWhile]
      · show s.current_byte +
            (byteLen (rest.takeWhile (fun c => !(c = '\r' || c = '\n'))) + 1) =
          s.current_byte +
            byteLen ('#' :: rest.takeWhile (fun c => !(c = '\r' || c = '\n')))
        rw [byteLen_cons]
        have e : ('#' : Char).utf8Size = 1 := by decide
        omega
      · exact byteLen_cons_pos _ _
  case _ hne =>
    injection h with h1 h2
    exact absurd h1.symm ht

theorem consume_string_literal_adv (s : TokenLexer) (c : Char)
    (rest : List Char) (quote : StringQuote) (t : Token) (s2 : TokenLexer)
    (hm : s.string_mode_stack.head? = some (StringMode.Literal quote))
    (hq : ¬stringQuote? c = some quote) (hd : ¬c = '$')
    (h : s.consume_string_literal (c :: rest) = (t, s2))
    (ht : t ≠ Token.Error) : Advances1 s s2 (c :: rest) := by
  unfold TokenLexer.consume_string_literal at h
  rw [hm] at h
  dsimp only at h
  split at h
  case _ sb pos2 heq =>
    injection h with h1 h2
    subst h2
    obtain ⟨pre, suf, hd1, hd2⟩ :=
      string_literal_loop_decomp quote (c :: rest) 0 _ (sb, pos2) heq
    have hsb : sb = 0 + byteLen pre := hd2
    have hpos : 0 + 1 ≤ sb :=
      string_literal_loop_pos quote c rest 0 _ hq hd (sb, pos2) heq
    refine ⟨rfl, rfl, pre, suf, hd1, ?_, by omega⟩
    show s.current_byte + sb = s.current_byte + byteLen pre
    omega
  case _ =>
    injection h with h1 _
    exact absurd h1.symm ht

theorem consume_raw_string_contents_adv (s : TokenLexer) (chars : List Char)
    (q : StringQuote) (t : Token) (s2 : TokenLexer)
    (h : s.consume_raw_string_contents chars q = (t, s2))
    (ht : t ≠ Token.Error) :
    s2.previous_byte = s.current_byte ∧ s2.source = s.source ∧
    s2.string_mode_stack = StringMode.RawEnd q :: s.string_mode_stack.tail ∧
    ∃ pre suf, chars = pre ++ suf ∧
      s2.current_byte = s.current_byte + byteLen pre := by
  unfold TokenLexer.consume_raw_string_contents at h
  dsimp only at h
  split at h
  case _ sb pos2 heq =>
    injection h with h1 h2
    subst h2
    obtain ⟨pre, suf, hd1, hd2⟩ :=
      raw_string_loop_decomp q chars 0 _ (sb, pos2) heq
    have hsb : sb = 0 + byteLen pre := hd2
    refine ⟨rfl, rfl, rfl, pre, suf, hd1, ?_⟩
    show s.current_byte + sb = s.current_byte + byteLen pre
    omega
  case _ =>
    injection h with h1 _
    exact absurd h1.symm ht

theorem consume_raw_string_end_adv (s : TokenLexer) (chars : List Char)
    (q : StringQuote) (t : Token) (s2 : TokenLexer)
    (h : s.consume_raw_string_end chars q = (t, s2)) (ht : t ≠ Token.Error) :
    Advances1 s s2 chars := by
  unfold TokenLexer.consume_raw_string_end at h
  split at h
  case _ c rest' =>
    split at h
    case _ hq =>
      injection h with h1 h2
      subst h2
      have e : c.utf8Size = 1 := stringQuote?_size c q (by simpa using hq)
      refine ⟨rfl, rfl, [c], rest', rfl, ?_, ?_⟩
      · show s.current_byte + 1 = s.current_byte + byteLen [c]
        rw [byteLen_cons, byteLen_nil, e]
      · rw [byteLen_cons, byteLen_nil, e]
    case _ =>
      injection h with h1 _
      exact absurd h1.symm ht
  case _ =>
    injection h with h1 _
    exact absurd h1.symm ht

theorem consume_wildcard_adv (s : TokenLexer) (c : Char) (cs : List Char) :
    Advances1 s (s.consume_wildcard (c :: cs)).2 (c :: cs) := by
  refine ⟨rfl, rfl, c :: cs.takeWhile is_id_continue,
    cs.dropWhile is_id_continue, ?_, ?_, ?_⟩
  · rw [List.cons_append, List.takeWhile_append_dropWhile]
  · show s.current_byte + (c.utf8Size + byteLen (cs.takeWhile is_id_continue)) =
      s.current_byte + byteLen (c :: cs.takeWhile is_id_continue)
    rw [byteLen_cons]
  · exact byteLen_cons_pos _ _

theorem number_exponent_adv (s : TokenLexer) (cb : Nat) (cs : List Char) :
    ∃ pre suf, cs = pre ++ suf ∧
      number_exponent s cb cs =
        (Token.Number, s.advance_line (cb + byteLen pre)) := by
  unfold number_exponent
  by_cases he : cs.head? = some 'e'
  · rw [if_pos he]
    by_cases hsign : cs.tail.head? = some '+' ∨ cs.tail.head? = some '-'
    · rw [if_pos hsign]
      rcases hsign with hs | hs
      · refine ⟨'e' :: '+' :: cs.tail.tail.takeWhile is_digit,
          cs.tail.tail.dropWhile is_digit, ?_, ?_⟩
        · conv_lhs => rw [head?_decomp cs 'e' he, head?_decomp cs.tail '+' hs,
            ← List.takeWhile_append_dropWhile is_digit cs.tail.tail]
          rfl
        · show (Token.Number, s.advance_line
              (cb + 2 + (cs.tail.tail.takeWhile is_digit).length)) = _
          have e : cb + 2 + (cs.tail.tail.takeWhile is_digit).length =
              cb + byteLen ('e' :: '+' :: cs.tail.tail.takeWhile is_digit) := by
            rw [byteLen_cons, byteLen_cons,
              takeWhile_byteLen_one is_digit is_digit_size]
            have e1 : ('e' : Char).utf8Size = 1 := by decide
            have e2 : ('+' : Char).utf8Size = 1 := by decide
            omega
          rw [e]
      · refine ⟨'e' :: '-' :: cs.tail.tail.takeWhile is_digit,
          cs.tail.tail.dropWhile is_digit, ?_, ?_⟩
        · conv_lhs => rw [head?_decomp cs 'e' he, head?_decomp cs.tail '-' hs,
            ← List.takeWhile_append_dropWhile is_digit cs.tail.tail]
          rfl
        · show (Token.Number, s.advance_line
              (cb + 2 + (cs.tail.tail.takeWhile is_digit).length)) = _
          have e : cb + 2 + (cs.tail.tail.takeWhile is_digit).length =
              cb + byteLen ('e' :: '-' :: cs.tail.tail.takeWhile is_digit) := by
            rw [byteLen_cons, byteLen_cons,
              takeWhile_byteLen_one is_digit is_digit_size]
            have e1 : ('e' : Char).utf8Size = 1 := by decide
            have e2 : ('-' : Char).utf8Size = 1 := by decide
            omega
          rw [e]
    · rw [if_neg hsign]
      refine ⟨'e' :: cs.tail.takeWhile is_digit,
        cs.tail.dropWhile is_digit, ?_, ?_⟩
      · conv_lhs => rw [head?_decomp cs 'e' he,
          ← List.takeWhile_append_dropWhile is_digit cs.tail]
        rfl
      · show (Token.Number, s.advance_line
            (cb + 1 + (cs.tail.takeWhile is_digit).length)) = _
        have e : cb + 1 + (cs.tail.takeWhile is_digit).length =
            cb + byteLen ('e' :: cs.tail.takeWhile is_digit) := by
          rw [byteLen_cons, takeWhile_byteLen_one is_digit is_digit_size]
          have e1 : ('e' : Char).utf8Size = 1 := by decide
          omega
        rw [e]
  · rw [if_neg he]
    exact ⟨[], cs, rfl, by simp [byteLen_nil]⟩

theorem number_fraction_exponent_adv (s : TokenLexer) (cb : Nat)
    (cs2 : List Char) :
    ∃ pre suf, cs2 = pre ++ suf ∧
      number_fraction_exponent s cb cs2 =
        (Token.Number, s.advance_line (cb + 1 + byteLen pre)) := by
  unfold number_fraction_exponent
  obtain ⟨pe, se, he1, he2⟩ := number_exponent_adv s
    (cb + 1 + (cs2.takeWhile is_digit).length) (cs2.dropWhile is_digit)
  refine ⟨cs2.takeWhile is_digit ++ pe, se, ?_, ?_⟩
  · rw [List.append_assoc, ← he1, List.takeWhile_append_dropWhile]
  · show number_exponent s (cb + 1 + (cs2.takeWhile is_digit).length)
        (cs2.dropWhile is_digit) = _
    rw [he2]
    have e : cb + 1 + (cs2.takeWhile is_digit).length + byteLen pe =
        cb + 1 + byteLen (cs2.takeWhile is_digit ++ pe) := by
      rw [byteLen_append, takeWhile_byteLen_one is_digit is_digit_size]
      omega
    rw [e]

theorem consume_number_adv (s : TokenLexer) (c : Char) (rest : List Char)
    (hd : is_digit c = true) (t : Token) (s2 : TokenLexer)
    (h : s.consume_number (c :: rest) = (t, s2)) :
    t = Token.Number ∧ ∃ pre suf, c :: rest = pre ++ suf ∧ 1 ≤ byteLen pre ∧
      s2 = s.advance_line (byteLen pre) := by
  have htw : (c :: rest).takeWhile is_digit = c :: rest.takeWhile is_digit :=
    List.takeWhile_cons_of_pos hd
  have hsplit0 : c :: rest =
      (c :: rest).takeWhile is_digit ++ (c :: rest).dropWhile is_digit :=
    (List.takeWhile_append_dropWhile _ _).symm
  have hpre : ∀ x : List Char,
      1 ≤ byteLen ((c :: rest).takeWhile is_digit ++ x) := by
    intro x
    rw [byteLen_append, htw, byteLen_cons]
    have := Char.utf8Size_pos c
    omega
  have hlen : byteLen ((c :: rest).takeWhile is_digit) =
      ((c :: rest).takeWhile is_digit).length :=
    takeWhile_byteLen_one is_digit is_digit_size _
  unfold TokenLexer.consume_number at h
  dsimp only [consume_and_count] at h
  split at h
  case _ hb =>
    injection h with h1 h2
    refine ⟨h1.symm, (c :: rest).takeWhile is_digit ++ 'b' ::
      ((c :: rest).dropWhile is_digit).tail.takeWhile is_binary_digit,
      ((c :: rest).dropWhile is_digit).tail.dropWhile is_binary_digit,
      ?_, hpre _, ?_⟩
    · conv_lhs => rw [hsplit0, head?_decomp _ 'b' hb.1,
        ← List.takeWhile_append_dropWhile is_binary_digit
          ((c :: rest).dropWhile is_digit).tail]
      rw [List.append_assoc, List.cons_append]
    · rw [← h2]
      have e : ((c :: rest).takeWhile is_digit).length + 1 +
          (((c :: rest).dropWhile is_digit).tail.takeWhile
            is_binary_digit).length =
          byteLen ((c :: rest).takeWhile is_digit ++ 'b' ::
            ((c :: rest).dropWhile is_digit).tail.takeWhile
              is_binary_digit) := by
        rw [byteLen_append, byteLen_cons, hlen,
          takeWhile_byteLen_one is_binary_digit is_binary_digit_size]
        have e1 : ('b' : Char).utf8Size = 1 := by decide
        omega
      rw [e]
  case _ hno1 =>
    split at h
    case _ hb =>
        injection h with h1 h2
        refine ⟨h1.symm, (c :: rest).takeWhile is_digit ++ 'o' ::
          ((c :: rest).dropWhile is_digit).tail.takeWhile is_octal_digit,
          ((c :: rest).dropWhile is_digit).tail.dropWhile is_octal_digit,
          ?_, hpre _, ?_⟩
        · conv_lhs => rw [hsplit0, head?_decomp _ 'o' hb.1,
            ← List.takeWhile_append_dropWhile is_octal_digit
              ((c :: rest).dropWhile is_digit).tail]
          rw [List.append_assoc, List.cons_append]
        · rw [← h2]
          have e : ((c :: rest).takeWhile is_digit).length + 1 +
              (((c :: rest).dropWhile is_digit).tail.takeWhile
                is_octal_digit).length =
              byteLen ((c :: rest).takeWhile is_digit ++ 'o' ::
                ((c :: rest).dropWhile is_digit).tail.takeWhile
                  is_octal_digit) := by
            rw [byteLen_append, byteLen_cons, hlen,
              takeWhile_byteLen_one is_octal_digit is_octal_digit_size]
            have e1 : ('o' : Char).utf8Size = 1 := by decide
            omega
          rw [e]
    case _ hno2 =>
      split at h
      case _ hb =>
          injection h with h1 h2
          refine ⟨h1.symm, (c :: rest).takeWhile is_digit ++ 'x' ::
            ((c :: rest).dropWhile is_digit).tail.takeWhile is_hex_digit,
            ((c :: rest).dropWhile is_digit).tail.dropWhile is_hex_digit,
            ?_, hpre _, ?_⟩
          · conv_lhs => rw [hsplit0, head?_decomp _ 'x' hb.1,
              ← List.takeWhile_append_dropWhile is_hex_digit
                ((c :: rest).dropWhile is_digit).tail]
            rw [List.append_assoc, List.cons_append]
          · rw [← h2]
            have e : ((c :: rest).takeWhile is_digit).length + 1 +
                (((c :: rest).dropWhile is_digit).tail.takeWhile
                  is_hex_digit).length =
                byteLen ((c :: rest).takeWhile is_digit ++ 'x' ::
                  ((c :: rest).dropWhile is_digit).tail.takeWhile
                    is_hex_digit) := by
              rw [byteLen_append, byteLen_cons, hlen,
                takeWhile_byteLen_one is_hex_digit is_hex_digit_size]
              have e1 : ('x' : Char).utf8Size = 1 := by decide
              omega
            rw [e]
      case _ hno3 =>
        split at h
        case _ hdot =>
          split at h
          case _ c2 hc2 =>
            split at h
            case _ hdig =>
              obtain ⟨pf, sf, hf1, hf2⟩ := number_fraction_exponent_adv s
                (((c :: rest).takeWhile is_digit).length)
                ((c :: rest).dropWhile is_digit).tail
              rw [hf2] at h
              injection h with h1 h2
              refine ⟨h1.symm,
                (c :: rest).takeWhile is_digit ++ '.' :: pf, sf, ?_, hpre _, ?_⟩
              · conv_lhs => rw [hsplit0, head?_decomp _ '.' hdot, hf1]
                rw [List.append_assoc, List.cons_append]
              · rw [← h2]
                have e : ((c :: rest).takeWhile is_digit).length + 1 + byteLen pf =
                    byteLen ((c :: rest).takeWhile is_digit ++ '.' :: pf) := by
                  rw [byteLen_append, byteLen_cons, hlen]
                  have e1 : ('.' : Char).utf8Size = 1 := by decide
                  omega
                rw [e]
            case _ hndig =>
              split at h
              case _ he =>
                split at h
                case _ c3 hc3 =>
                  split at h
                  case _ hval =>
                    obtain ⟨pf, sf, hf1, hf2⟩ := number_fraction_exponent_adv s
                      (((c :: rest).takeWhile is_digit).length)
                      ((c :: rest).dropWhile is_digit).tail
                    rw [hf2] at h
                    injection h with h1 h2
                    refine ⟨h1.symm,
                      (c :: rest).takeWhile is_digit ++ '.' :: pf, sf, ?_, hpre _, ?_⟩
                    · conv_lhs => rw [hsplit0, head?_decomp _ '.' hdot, hf1]
                      rw [List.append_assoc, List.cons_append]
                    · rw [← h2]
                      have e : ((c :: rest).takeWhile is_digit).length + 1 + byteLen pf =
                          byteLen ((c :: rest).takeWhile is_digit ++ '.' :: pf) := by
                        rw [byteLen_append, byteLen_cons, hlen]
                        have e1 : ('.' : Char).utf8Size = 1 := by decide
                        omega
                      rw [e]
                  case _ hnval =>
                    injection h with h1 h2
                    refine ⟨h1.symm, (c :: rest).takeWhile is_digit,
                      (c :: rest).dropWhile is_digit, hsplit0, ?_, ?_⟩
                    · have := hpre []
                      rw [byteLen_append, byteLen_nil] at this
                      omega
                    · rw [← h2, hlen]
                case _ hc3 =>
                  injection h with h1 h2
                  refine ⟨h1.symm, (c :: rest).takeWhile is_digit,
                    (c :: rest).dropWhile is_digit, hsplit0, ?_, ?_⟩
                  · have := hpre []
                    rw [byteLen_append, byteLen_nil] at this
                    omega
                  · rw [← h2, hlen]
              case _ hne =>
                injection h with h1 h2
                refine ⟨h1.symm, (c :: rest).takeWhile is_digit,
                  (c :: rest).dropWhile is_digit, hsplit0, ?_, ?_⟩
                · have := hpre []
                  rw [byteLen_append, byteLen_nil] at this
                  omega
                · rw [← h2, hlen]
          case _ hc2 =>
            injection h with h1 h2
            refine ⟨h1.symm, (c :: rest).takeWhile is_digit,
              (c :: rest).dropWhile is_digit, hsplit0, ?_, ?_⟩
            · have := hpre []
              rw [byteLen_append, byteLen_nil] at this
              omega
            · rw [← h2, hlen]
        case _ hnodot =>
          obtain ⟨pe, se, he1, he2⟩ := number_exponent_adv s
            (((c :: rest).takeWhile is_digit).length)
            ((c :: rest).dropWhile is_digit)
          rw [he2] at h
          injection h with h1 h2
          refine ⟨h1.symm, (c :: rest).takeWhile is_digit ++ pe, se, ?_,
            hpre _, ?_⟩
          · conv_lhs => rw [hsplit0, he1]
            rw [List.append_assoc]
          · rw [← h2]
            have e : ((c :: rest).takeWhile is_digit).length + byteLen pe =
                byteLen ((c :: rest).takeWhile is_digit ++ pe) := by
              rw [byteLen_append, hlen]
            rw [e]

theorem dropWhile_of_takeWhile_nil {α : Type} (p : α → Bool) (l : List α)
    (h : l.takeWhile p = []) : l.dropWhile p = l := by
  cases l with
  | nil => rfl
  | cons a t =>
      rw [List.takeWhile_cons] at h
      by_cases hp : p a = true
      · rw [if_pos hp] at h
        exact absurd h (by simp)
      · rw [List.dropWhile_cons, if_neg hp]

theorem keyword_token_len (table : List (String × Token))
    (htab : ∀ p ∈ table, byteLen p.1.data = p.1.utf8ByteSize) (id : String)
    (tok : Token) (n : Nat) (h : keyword_token table id = some (tok, n)) :
    n = byteLen id.data := by
  induction table with
  | nil => exact absurd h (by simp [keyword_token])
  | cons p ps ih =>
      obtain ⟨kw, tk⟩ := p
      unfold keyword_token at h
      by_cases he : id = kw
      · rw [if_pos he] at h
        injection h with h'
        injection h' with h1 h2
        rw [← h2, he]
        exact (htab (kw, tk) (by simp)).symm
      · rw [if_neg he] at h
        exact ih (fun q hq => htab q (by simp [hq])) h

theorem keywords_len : ∀ p ∈ keywords, byteLen p.1.data = p.1.utf8ByteSize := by
  decide

theorem symbols_wf :
    ∀ p ∈ symbols, p.1.data ≠ [] ∧ byteLen p.1.data = p.1.utf8ByteSize := by
  decide

theorem symbol_go_adv (table : List (String × Token)) (s : TokenLexer)
    (remaining : List Char)
    (htab : ∀ p ∈ table, p.1.data ≠ [] ∧ byteLen p.1.data = p.1.utf8ByteSize)
    (tok : Token) (s2 : TokenLexer)
    (h : symbol_go table s remaining = (some tok, s2)) :
    Advances1 s s2 remaining := by
  induction table with
  | nil =>
      unfold symbol_go at h
      injection h with h1 _
      exact absurd h1 (by simp)
  | cons p ps ih =>
      obtain ⟨str, tk⟩ := p
      unfold symbol_go at h
      by_cases hp : str.data.isPrefixOf remaining
      · rw [if_pos hp] at h
        injection h with h1 h2
        subst h2
        obtain ⟨suf, hsuf⟩ := List.isPrefixOf_iff_prefix.mp hp
        obtain ⟨hne, hlen⟩ := htab (str, tk) (by simp)
        refine ⟨rfl, rfl, str.data, suf, hsuf.symm, ?_, ?_⟩
        · show s.current_byte + str.utf8ByteSize =
            s.current_byte + byteLen str.data
          rw [hlen]
        · cases hq : str.data with
          | nil => exact absurd hq hne
          | cons a b => exact byteLen_cons_pos a b
      · rw [if_neg hp] at h
        exact ih (fun q hq => htab q (by simp [hq])) h

theorem consume_id_or_keyword_adv (s : TokenLexer) (c : Char)
    (cs : List Char) :
    Advances1 s (s.consume_id_or_keyword (c :: cs)).2 (c :: cs) := by
  unfold TokenLexer.consume_id_or_keyword
  dsimp only
  split
  case _ helse =>
    split
    case _ h7 =>
      obtain ⟨suf, hsuf⟩ := List.isPrefixOf_iff_prefix.mp h7
      refine ⟨rfl, rfl, ("else if").data, suf, hsuf.symm, ?_, by decide⟩
      show s.current_byte + 7 = s.current_byte + byteLen ("else if").data
      have e : byteLen ("else if").data = 7 := by decide
      rw [e]
    case _ h7 =>
      have hdata : c :: cs.takeWhile is_id_continue = ("else").data :=
        congrArg String.data helse
      refine ⟨rfl, rfl, ("else").data, cs.dropWhile is_id_continue, ?_,
        ?_, by decide⟩
      · rw [← hdata, List.cons_append, List.takeWhile_append_dropWhile]
      · show s.current_byte + 4 = s.current_byte + byteLen ("else").data
        have e : byteLen ("else").data = 4 := by decide
        rw [e]
  case _ helse =>
    split
    case _ quote hq =>
      by_cases hid : String.mk (c :: cs.takeWhile is_id_continue) = "r"
      · rw [if_pos hid] at hq
        obtain ⟨q, hh, hsq⟩ := Option.bind_eq_some.mp hq
        have hdata : c :: cs.takeWhile is_id_continue = ("r").data :=
          congrArg String.data hid
        have hc : c = 'r' := by
          have := List.head_eq_of_cons_eq hdata
          simpa using this
        have htw : cs.takeWhile is_id_continue = [] :=
          List.tail_eq_of_cons_eq hdata
        have hdw : cs.dropWhile is_id_continue = cs :=
          dropWhile_of_takeWhile_nil _ _ htw
        rw [hdw] at hh
        have hq1 : q.utf8Size = 1 := stringQuote?_size q quote hsq
        subst hc
        have er : ('r' : Char).utf8Size = 1 := by decide
        refine ⟨rfl, rfl, ['r', q], cs.tail, ?_, ?_, ?_⟩
        · conv_lhs => rw [head?_decomp cs q hh]
          rfl
        · show s.current_byte + 2 = s.current_byte + byteLen ['r', q]
          rw [byteLen_cons, byteLen_cons, byteLen_nil, er, hq1]
        · rw [byteLen_cons, byteLen_cons, byteLen_nil, er, hq1]
          omega
      · rw [if_neg hid] at hq
        exact absurd hq (by simp)
    case _ hq =>
      split
      case _ hdot =>
        refine ⟨rfl, rfl, c :: cs.takeWhile is_id_continue,
          cs.dropWhile is_id_continue, ?_, ?_, ?_⟩
        · rw [List.cons_append, List.takeWhile_append_dropWhile]
        · show s.current_byte +
              (c.utf8Size + byteLen (cs.takeWhile is_id_continue)) =
            s.current_byte + byteLen (c :: cs.takeWhile is_id_continue)
          rw [byteLen_cons]
        · exact byteLen_cons_pos _ _
      case _ hdot =>
        split
        case _ tok n hk =>
          have hn : n =
              byteLen (String.mk (c :: cs.takeWhile is_id_continue)).data :=
            keyword_token_len keywords keywords_len _ tok n hk
          refine ⟨rfl, rfl, c :: cs.takeWhile is_id_continue,
            cs.dropWhile is_id_continue, ?_, ?_, ?_⟩
          · rw [List.cons_append, List.takeWhile_append_dropWhile]
          · show s.current_byte + n =
              s.current_byte + byteLen (c :: cs.takeWhile is_id_continue)
            rw [hn]
          · exact byteLen_cons_pos _ _
        case _ hk =>
          refine ⟨rfl, rfl, c :: cs.takeWhile is_id_continue,
            cs.dropWhile is_id_continue, ?_, ?_, ?_⟩
          · rw [List.cons_append, List.takeWhile_append_dropWhile]
          · show s.current_byte +
                (c.utf8Size + byteLen (cs.takeWhile is_id_continue)) =
              s.current_byte + byteLen (c :: cs.takeWhile is_id_continue)
            rw [byteLen_cons]
          · exact byteLen_cons_pos _ _


-- -------------------------------------------------------------------
-- The master step lemma: a successful non-Error step consumes a prefix
-- -------------------------------------------------------------------

theorem Advances1.stepOk {s s2 : TokenLexer} {chars : List Char}
    (h : Advances1 s s2 chars) : StepOk s s2 chars := by
  obtain ⟨a1, a2, pre, suf, b1, b2, b3⟩ := h
  exact ⟨a1, a2, pre, suf, b1, b2, fun hz => absurd b3 (by omega)⟩

theorem gnt_inner_ok (s : TokenLexer) (c : Char) (rest : List Char)
    (t : Token) (s2 : TokenLexer) (h : s.gnt_inner c rest = (t, s2))
    (ht : t ≠ Token.Error) : StepOk s s2 (c :: rest) := by
  unfold TokenLexer.gnt_inner at h
  dsimp only at h
  split at h
  case _ quote heq =>
    split at h
    case _ hq =>
      injection h with h1 h2
      subst h2
      have hsz : c.utf8Size = 1 := stringQuote?_size c quote hq
      refine ⟨rfl, rfl, [c], rest, rfl, ?_, ?_⟩
      · show s.current_byte + 1 = s.current_byte + byteLen [c]
        rw [byteLen_cons, byteLen_nil, hsz]
      · intro hz
        rw [byteLen_cons, byteLen_nil, hsz] at hz
        exact absurd hz (by omega)
    case _ hq =>
      split at h
      case _ hdol =>
        injection h with h1 h2
        subst h2
        subst hdol
        refine ⟨rfl, rfl, ['$'], rest, rfl, ?_, ?_⟩
        · show s.current_byte + 1 = s.current_byte + byteLen ['$']
          have e : byteLen ['$'] = 1 := by decide
          rw [e]
        · intro hz
          exact absurd hz (by decide)
      case _ hdol =>
        exact (consume_string_literal_adv s c rest quote t s2 heq hq hdol
          h ht).stepOk
  case _ q heq =>
    obtain ⟨a1, a2, hstk, pre, suf, b1, b2⟩ :=
      consume_raw_string_contents_adv s (c :: rest) q t s2 h ht
    refine ⟨a1, a2, pre, suf, b1, b2, fun hz => ⟨⟨q, heq⟩, ?_⟩⟩
    intro q' hcon
    rw [hstk] at hcon
    simp at hcon
  case _ q heq =>
    exact (consume_raw_string_end_adv s (c :: rest) q t s2 h ht).stepOk
  case _ heq =>
    split at h
    case _ hid =>
      split at h
      case _ s2b hm =>
        injection h with h1 h2
        subst h2
        have adv := consume_id_or_keyword_adv s c rest
        rw [hm] at adv
        obtain ⟨a1, a2, pre, suf, b1, b2, b3⟩ := adv
        exact ⟨a1, a2, pre, suf, b1, b2, fun hz => absurd b3 (by omega)⟩
      case _ t0 s2b hne =>
        injection h with h1 h2
        exact absurd h1.symm ht
    case _ hid =>
      split at h
      case _ hbrace =>
        injection h with h1 h2
        subst h2
        subst hbrace
        refine ⟨rfl, rfl, [("\x7b").data.headI], rest, rfl, ?_, ?_⟩
        · show s.current_byte + 1 =
            s.current_byte + byteLen [("\x7b").data.headI]
          have e : byteLen [("\x7b").data.headI] = 1 := by decide
          rw [e]
        · intro hz
          exact absurd hz (by decide)
      case _ hbrace =>
        injection h with h1 h2
        exact absurd h1.symm ht
  case _ hn1 hn2 hn3 hn4 =>
    by_cases hws : is_whitespace c = true
    · rw [if_pos hws] at h
      dsimp only [consume_and_count] at h
      have hpre : byteLen ((c :: rest).takeWhile is_whitespace) =
          ((c :: rest).takeWhile is_whitespace).length :=
        takeWhile_byteLen_one is_whitespace is_whitespace_size _
      have htw : (c :: rest).takeWhile is_whitespace =
          c :: rest.takeWhile is_whitespace :=
        List.takeWhile_cons_of_pos hws
      split at h
      case _ hprev =>
        injection h with h1 h2
        subst h2
        refine ⟨rfl, rfl, (c :: rest).takeWhile is_whitespace,
          (c :: rest).dropWhile is_whitespace, ?_, ?_, ?_⟩
        · rw [List.takeWhile_append_dropWhile]
        · show s.current_byte + ((c :: rest).takeWhile is_whitespace).length =
            s.current_byte + byteLen ((c :: rest).takeWhile is_whitespace)
          rw [hpre]
        · intro hz
          rw [htw, byteLen_cons] at hz
          have := Char.utf8Size_pos c
          exact absurd hz (by omega)
      case _ hprev =>
        injection h with h1 h2
        subst h2
        refine ⟨rfl, rfl, (c :: rest).takeWhile is_whitespace,
          (c :: rest).dropWhile is_whitespace, ?_, ?_, ?_⟩
        · rw [List.takeWhile_append_dropWhile]
        · show s.current_byte + ((c :: rest).takeWhile is_whitespace).length =
            s.current_byte + byteLen ((c :: rest).takeWhile is_whitespace)
          rw [hpre]
        · intro hz
          rw [htw, byteLen_cons] at hz
          have := Char.utf8Size_pos c
          exact absurd hz (by omega)
    · rw [if_neg hws] at h
      by_cases hnl : c = '\r' ∨ c = '\n'
      · rw [if_pos hnl] at h
        exact (consume_newline_adv s (c :: rest) t s2 h ht).stepOk
      · rw [if_neg hnl] at h
        by_cases hcom : c = '#'
        · rw [if_pos hcom] at h
          exact (consume_comment_adv s (c :: rest) t s2 h ht).stepOk
        · rw [if_neg hcom] at h
          by_cases hdq : c = doubleQuoteChar
          · rw [if_pos hdq] at h
            injection h with h1 h2
            subst h2
            subst hdq
            refine ⟨rfl, rfl, [doubleQuoteChar], rest, rfl, ?_, ?_⟩
            · show s.current_byte + 1 =
                s.current_byte + byteLen [doubleQuoteChar]
              have e : byteLen [doubleQuoteChar] = 1 := by decide
              rw [e]
            · intro hz
              exact absurd hz (by decide)
          · rw [if_neg hdq] at h
            by_cases hsq : c = singleQuoteChar
            · rw [if_pos hsq] at h
              injection h with h1 h2
              subst h2
              subst hsq
              refine ⟨rfl, rfl, [singleQuoteChar], rest, rfl, ?_, ?_⟩
              · show s.current_byte + 1 =
                  s.current_byte + byteLen [singleQuoteChar]
                have e : byteLen [singleQuoteChar] = 1 := by decide
                rw [e]
              · intro hz
                exact absurd hz (by decide)
            · rw [if_neg hsq] at h
              by_cases hdig : is_digit c = true
              · rw [if_pos hdig] at h
                obtain ⟨h1, pre, suf, b1, b2, b3⟩ :=
                  consume_number_adv s c rest hdig t s2 h
                subst b3
                exact ⟨rfl, rfl, pre, suf, b1, rfl,
                  fun hz => absurd b2 (by omega)⟩
              · rw [if_neg hdig] at h
                by_cases hid : is_id_start c = true
                · rw [if_pos hid] at h
                  have adv := consume_id_or_keyword_adv s c rest
                  rw [h] at adv
                  obtain ⟨a1, a2, pre, suf, b1, b2, b3⟩ := adv
                  exact ⟨a1, a2, pre, suf, b1, b2,
                    fun hz => absurd b3 (by omega)⟩
                · rw [if_neg hid] at h
                  by_cases hwild : c = '_'
                  · rw [if_pos hwild] at h
                    have adv := consume_wildcard_adv s c rest
                    rw [h] at adv
                    obtain ⟨a1, a2, pre, suf, b1, b2, b3⟩ := adv
                    exact ⟨a1, a2, pre, suf, b1, b2,
                      fun hz => absurd b3 (by omega)⟩
                  · rw [if_neg hwild] at h
                    split at h
                    case _ tok s2b hsym =>
                      obtain ⟨a1, a2, pre, suf, b1, b2, b3⟩ :=
                        symbol_go_adv symbols s (c :: rest) symbols_wf
                          tok s2b hsym
                      split at h
                      case _ =>
                        split at h
                        case _ =>
                          injection h with h1 h2
                          subst h2
                          exact ⟨a1, a2, pre, suf, b1, b2,
                            fun hz => absurd b3 (by omega)⟩
                        case _ =>
                          injection h with h1 h2
                          subst h2
                          exact ⟨a1, a2, pre, suf, b1, b2,
                            fun hz => absurd b3 (by omega)⟩
                      case _ =>
                        split at h
                        case _ =>
                          injection h with h1 h2
                          subst h2
                          exact ⟨a1, a2, pre, suf, b1, b2,
                            fun hz => absurd b3 (by omega)⟩
                        case _ =>
                          injection h with h1 h2
                          subst h2
                          exact ⟨a1, a2, pre, suf, b1, b2,
                            fun hz => absurd b3 (by omega)⟩
                      case _ =>
                        injection h with h1 h2
                        subst h2
                        exact ⟨a1, a2, pre, suf, b1, b2,
                          fun hz => absurd b3 (by omega)⟩
                    case _ s2b hsym =>
                      injection h with h1 h2
                      exact absurd h1.symm ht

theorem gnt_step_ok (s : TokenLexer) (c : Char) (rest : List Char)
    (t : Token) (s2 : TokenLexer) (h : s.gnt_step c rest = (t, s2))
    (ht : t ≠ Token.Error) : StepOk s s2 (c :: rest) := by
  unfold TokenLexer.gnt_step at h
  dsimp only at h
  by_cases hp : s.previous_token = some Token.NewLine
  · rw [if_pos hp] at h
    exact gnt_inner_ok { s with indent := 0 } c rest t s2 h ht
  · rw [if_neg hp] at h
    exact gnt_inner_ok s c rest t s2 h ht

theorem get_next_token_cons (s : TokenLexer) (c : Char) (rest : List Char)
    (hrem : remainingChars s.source s.current_byte = some (c :: rest)) :
    s.get_next_token =
      (some (s.gnt_step c rest).1,
        { (s.gnt_step c rest).2 with
            previous_token := some (s.gnt_step c rest).1 }) := by
  unfold TokenLexer.get_next_token
  rw [hrem]

theorem get_next_token_nil (s : TokenLexer)
    (hrem : remainingChars s.source s.current_byte = some []) :
    s.get_next_token = (none, { s with previous_token := none }) := by
  unfold TokenLexer.get_next_token
  rw [hrem]

theorem get_next_token_past_end (s : TokenLexer)
    (hrem : remainingChars s.source s.current_byte = none) :
    s.get_next_token = (none, { s with previous_token := none }) := by
  unfold TokenLexer.get_next_token
  rw [hrem]

theorem get_next_token_step (s : TokenLexer) (r : List Char)
    (hrem : remainingChars s.source s.current_byte = some r)
    (t : Token) (s2 : TokenLexer) (hstep : s.get_next_token = (some t, s2))
    (ht : t ≠ Token.Error) : StepOk s s2 r := by
  cases r with
  | nil =>
      rw [get_next_token_nil s hrem] at hstep
      injection hstep with h1 h2
      exact absurd h1 (by simp)
  | cons c rest =>
      rw [get_next_token_cons s c rest hrem] at hstep
      injection hstep with h1 h2
      injection h1 with h1
      rcases hg : s.gnt_step c rest with ⟨t0, s20⟩
      rw [hg] at h1 h2
      dsimp only at h1 h2
      subst h1
      subst h2
      obtain ⟨a1, a2, pre, suf, b1, b2, b3⟩ :=
        gnt_step_ok s c rest t0 s20 hg ht
      exact ⟨a1, a2, pre, suf, b1, b2, b3⟩


theorem rawPot_le (st : TokenLexer) : rawPot st ≤ 1 := by
  unfold rawPot
  split <;> omega

theorem rawPot_eq_one (st : TokenLexer) (q : StringQuote)
    (h : st.string_mode_stack.head? = some (StringMode.RawStart q)) :
    rawPot st = 1 := by
  unfold rawPot
  rw [h]

theorem rawPot_eq_zero (st : TokenLexer)
    (h : ∀ q, st.string_mode_stack.head? ≠ some (StringMode.RawStart q)) :
    rawPot st = 0 := by
  unfold rawPot
  split
  case _ q heq => exact absurd heq (h q)
  case _ => rfl

theorem remainingChars_new (src : List Char) :
    remainingChars (TokenLexer.new src).source
      (TokenLexer.new src).current_byte = some src := by
  show remainingChars src 0 = some src
  rw [remainingChars.eq_def, if_pos rfl]

theorem run_lexer_covers_aux :
    ∀ (fuel : Nat) (s : TokenLexer) (r : List Char)
      (ts : List (Token × Nat × Nat)),
      remainingChars s.source s.current_byte = some r →
      run_lexer fuel s = some ts →
      (∀ x ∈ ts, x.1 ≠ Token.Error) →
      covers ts s.current_byte (s.current_byte + byteLen r) := by
  intro fuel
  induction fuel with
  | zero =>
      intro s r ts hrem hrun herr
      exact absurd hrun (by simp [run_lexer])
  | succ fuel ih =>
      intro s r ts hrem hrun herr
      unfold run_lexer at hrun
      rcases hg : s.get_next_token with ⟨o, sx⟩
      rw [hg] at hrun
      cases o with
      | none =>
          dsimp only at hrun
          injection hrun with hrun
          subst hrun
          cases r with
          | nil => simp [covers, byteLen_nil]
          | cons c rest =>
              rw [get_next_token_cons s c rest hrem] at hg
              injection hg with hg1 _
              exact absurd hg1.symm (by simp)
      | some t =>
          dsimp only at hrun
          rcases hrl : run_lexer fuel sx with _ | ts'
          · rw [hrl] at hrun
            exact absurd hrun (by simp)
          · rw [hrl] at hrun
            injection hrun with hrun
            subst hrun
            have ht : t ≠ Token.Error :=
              herr (t, sx.previous_byte, sx.current_byte) (by simp)
            obtain ⟨a1, a2, pre, suf, b1, b2, _⟩ :=
              get_next_token_step s r hrem t sx hg ht
            refine ⟨a1, ?_⟩
            obtain ⟨p, hp1, hp2⟩ :=
              remainingChars_decomp s.source s.current_byte r hrem
            have hrem2 : remainingChars sx.source sx.current_byte =
                some suf := by
              rw [a2, b2, hp1, b1, ← hp2, ← byteLen_append,
                ← List.append_assoc]
              exact remainingChars_append (p ++ pre) suf
            have hcov := ih sx suf ts' hrem2 hrl
              (fun x hx => herr x (by simp [hx]))
            have heq : sx.current_byte + byteLen suf =
                s.current_byte + byteLen r := by
              rw [b2, b1, byteLen_append]
              omega
            rw [heq] at hcov
            exact hcov

/-- C5: every successful, Error-free run of the lexer over a source tiles
the source's byte range exactly: the first token's byte range starts at 0,
each token's range starts where the previous one ended, and the last range
ends at the total byte length of the input. -/
theorem lexed_ranges_cover_source (src : List Char) (fuel : Nat)
    (ts : List (Token × Nat × Nat))
    (hrun : run_lexer fuel (TokenLexer.new src) = some ts)
    (herr : ∀ x ∈ ts, x.1 ≠ Token.Error) :
    covers ts 0 (byteLen src) := by
  have hcov : covers ts 0 (0 + byteLen src) :=
    run_lexer_covers_aux fuel (TokenLexer.new src) src ts
      (remainingChars_new src) hrun herr
  simpa using hcov

theorem lexed_ranges_cover_source_witness :
    run_lexer 20 (TokenLexer.new ("ab + 1").data) =
        some [(Token.Id, 0, 2), (Token.Whitespace, 2, 3), (Token.Add, 3, 4),
          (Token.Whitespace, 4, 5), (Token.Number, 5, 6)] ∧
    covers [(Token.Id, 0, 2), (Token.Whitespace, 2, 3), (Token.Add, 3, 4),
      (Token.Whitespace, 4, 5), (Token.Number, 5, 6)] 0
      (byteLen ("ab + 1").data) :=
  ⟨rfl, lexed_ranges_cover_source (("ab + 1").data) 20
    [(Token.Id, 0, 2), (Token.Whitespace, 2, 3), (Token.Add, 3, 4),
      (Token.Whitespace, 4, 5), (Token.Number, 5, 6)] rfl (by decide)⟩

theorem run_all_error_aux :
    ∀ (fuel : Nat) (s : TokenLexer) (r : List Char),
      remainingChars s.source s.current_byte = some r →
      lexMeasure s < fuel →
      (run_all fuel s).2 = false →
      Token.Error ∈ (run_all fuel s).1 := by
  intro fuel
  induction fuel with
  | zero =>
      intro s r _ hμ _
      exact absurd hμ (by omega)
  | succ fuel ih =>
      intro s r hrem hμ hdone
      unfold run_all at hdone ⊢
      rcases hg : s.get_next_token with ⟨o, sx⟩
      rw [hg] at hdone
      cases o with
      | none =>
          dsimp only at hdone
          exact absurd hdone (by simp)
      | some t =>
          dsimp only at hdone ⊢
          rcases hra : run_all fuel sx with ⟨ts, d⟩
          dsimp only at hdone ⊢
          by_cases hterr : t = Token.Error
          · subst hterr
            simp
          · obtain ⟨a1, a2, pre, suf, b1, b2, b3⟩ :=
              get_next_token_step s r hrem t sx hg hterr
            obtain ⟨p, hp1, hp2⟩ :=
              remainingChars_decomp s.source s.current_byte r hrem
            have hrem2 : remainingChars sx.source sx.current_byte =
                some suf := by
              rw [a2, b2, hp1, b1, ← hp2, ← byteLen_append,
                ← List.append_assoc]
              exact remainingChars_append (p ++ pre) suf
            have hsrcr : byteLen s.source = s.current_byte + byteLen r := by
              rw [hp1, byteLen_append, hp2]
            have hsplitlen : byteLen r = byteLen pre + byteLen suf := by
              rw [b1, byteLen_append]
            have hμ2 : lexMeasure sx < lexMeasure s := by
              unfold lexMeasure
              rw [a2]
              by_cases hz : byteLen pre = 0
              · obtain ⟨⟨q, hq⟩, hnq⟩ := b3 hz
                rw [rawPot_eq_one s q hq, rawPot_eq_zero sx hnq]
                omega
              · have h1 := rawPot_le sx
                have h2 : 0 ≤ rawPot s := Nat.zero_le _
                omega
            have hmem := ih sx suf hrem2 (by omega) hdone
            rw [hra] at hmem
            exact List.mem_cons_of_mem _ hmem

/-- C4 (amended): an Error-free run of the lexer terminates: with fuel
exceeding twice the source's byte length, a run that has not reached end
of input must have produced an `Error` token.  (Equivalently: as long as
no `Error` is produced, the lexer reaches end of input within that bound,
each non-`Error` token advancing the byte position except the zero-width
empty raw-string literal, which pops the pending raw-string state.) -/
theorem lexer_error_free_terminates (src : List Char) (fuel : Nat)
    (hfuel : 2 * byteLen src < fuel)
    (hdone : (run_all fuel (TokenLexer.new src)).2 = false) :
    Token.Error ∈ (run_all fuel (TokenLexer.new src)).1 := by
  have hμ : lexMeasure (TokenLexer.new src) < fuel := by
    show 2 * (byteLen src - 0) + rawPot (TokenLexer.new src) < fuel
    have : rawPot (TokenLexer.new src) = 0 := rfl
    omega
  exact run_all_error_aux fuel (TokenLexer.new src) src
    (remainingChars_new src) hμ hdone

theorem lexer_error_free_terminates_witness :
    2 * byteLen [doubleQuoteChar, '$', ' '] < 8 ∧
    (run_all 8 (TokenLexer.new [doubleQuoteChar, '$', ' '])).2 = false ∧
    Token.Error ∈ (run_all 8 (TokenLexer.new [doubleQuoteChar, '$', ' '])).1 :=
  ⟨by decide, by decide,
    lexer_error_free_terminates [doubleQuoteChar, '$', ' '] 8 (by decide)
      (by decide)⟩

/-- C4 counterexample: on the input `"$ ` (a string start, a `$`, then a
space, which is not a valid template start), the third call to
`get_next_token` produces `some Error` WITHOUT advancing `current_byte`,
and the state reached after it is a fixpoint: every further call returns
`some Error` with the state unchanged, so the token stream never
terminates and tokens do not advance by at least one byte. -/
theorem lexer_error_no_advance_counterexample :
    (let s3 :=
      ((((TokenLexer.new
        [doubleQuoteChar, '$', ' ']).get_next_token).2.get_next_token).2)
    (s3.get_next_token).1 = some Token.Error ∧
    (s3.get_next_token).2.current_byte = s3.current_byte ∧
    (s3.get_next_token).2.get_next_token =
      (some Token.Error, (s3.get_next_token).2)) :=
  ⟨rfl, rfl, rfl⟩


-- -------------------------------------------------------------------
-- C7: the number lexer's lookahead at a dot
-- -------------------------------------------------------------------

theorem digits_dot_split (ds : List Char) (X : List Char)
    (hds : ∀ d ∈ ds, is_digit d = true) :
    (ds ++ '.' :: X).takeWhile is_digit = ds ∧
      (ds ++ '.' :: X).dropWhile is_digit = '.' :: X :=
  takeWhile_append_all ds ('.' :: X) hds
    (fun c ys' h => by
      have hc : c = '.' := (List.cons.injEq _ _ _ _ ▸ h).1.symm
      subst hc
      decide)

/-- C7: when lexing a number whose integer part is the digit run `ds`, a
dot followed by a non-digit other than `e` is not included in the Number
token (the lexer advances only over `ds`); a dot followed by a digit
consumes the fractional part (and a possible exponent); and after `.e` a
one-character lookahead decides: the exponent is consumed exactly when the
character after the `e` is a digit, `+`, or `-`, and otherwise the token
ends before the dot. -/
theorem number_dot_lookahead (s : TokenLexer) (ds : List Char)
    (hds : ∀ d ∈ ds, is_digit d = true) :
    (∀ c2 rest, is_digit c2 = false → c2 ≠ 'e' →
      s.consume_number (ds ++ '.' :: c2 :: rest) =
        (Token.Number, s.advance_line ds.length)) ∧
    (∀ c2 rest, is_digit c2 = true →
      s.consume_number (ds ++ '.' :: c2 :: rest) =
        number_fraction_exponent s ds.length (c2 :: rest)) ∧
    (∀ c3 rest2,
      ((is_digit c3 = true ∨ c3 = '+' ∨ c3 = '-') →
        s.consume_number (ds ++ '.' :: 'e' :: c3 :: rest2) =
          number_fraction_exponent s ds.length ('e' :: c3 :: rest2)) ∧
      (¬(is_digit c3 = true ∨ c3 = '+' ∨ c3 = '-') →
        s.consume_number (ds ++ '.' :: 'e' :: c3 :: rest2) =
          (Token.Number, s.advance_line ds.length))) := by
  refine ⟨?_, ?_, ?_⟩
  · intro c2 rest hnd hne2
    obtain ⟨htake, hdrop⟩ := digits_dot_split ds (c2 :: rest) hds
    unfold TokenLexer.consume_number
    dsimp only [consume_and_count]
    rw [htake, hdrop]
    simp only [List.head?_cons, List.tail_cons]
    have hnob : ¬(some '.' = some 'b' ∧
        (ds ++ '.' :: c2 :: rest).head? = some '0' ∧ ds.length = 1) :=
      fun hcon => by simpa using hcon.1
    have hnoo : ¬(some '.' = some 'o' ∧
        (ds ++ '.' :: c2 :: rest).head? = some '0' ∧ ds.length = 1) :=
      fun hcon => by simpa using hcon.1
    have hnox : ¬(some '.' = some 'x' ∧
        (ds ++ '.' :: c2 :: rest).head? = some '0' ∧ ds.length = 1) :=
      fun hcon => by simpa using hcon.1
    rw [if_neg hnob, if_neg hnoo, if_neg hnox, if_pos trivial]
    rw [if_neg (show ¬is_digit c2 = true from by rw [hnd]; simp),
      if_neg hne2]
  · intro c2 rest hdig
    obtain ⟨htake, hdrop⟩ := digits_dot_split ds (c2 :: rest) hds
    unfold TokenLexer.consume_number
    dsimp only [consume_and_count]
    rw [htake, hdrop]
    simp only [List.head?_cons, List.tail_cons]
    have hnob : ¬(some '.' = some 'b' ∧
        (ds ++ '.' :: c2 :: rest).head? = some '0' ∧ ds.length = 1) :=
      fun hcon => by simpa using hcon.1
    have hnoo : ¬(some '.' = some 'o' ∧
        (ds ++ '.' :: c2 :: rest).head? = some '0' ∧ ds.length = 1) :=
      fun hcon => by simpa using hcon.1
    have hnox : ¬(some '.' = some 'x' ∧
        (ds ++ '.' :: c2 :: rest).head? = some '0' ∧ ds.length = 1) :=
      fun hcon => by simpa using hcon.1
    rw [if_neg hnob, if_neg hnoo, if_neg hnox, if_pos trivial]
    rw [if_pos hdig]
  · intro c3 rest2
    constructor
    · intro hval
      obtain ⟨htake, hdrop⟩ := digits_dot_split ds ('e' :: c3 :: rest2) hds
      unfold TokenLexer.consume_number
      dsimp only [consume_and_count]
      rw [htake, hdrop]
      simp only [List.head?_cons, List.tail_cons]
      have hnob : ¬(some '.' = some 'b' ∧
          (ds ++ '.' :: 'e' :: c3 :: rest2).head? = some '0' ∧ ds.length = 1) :=
        fun hcon => by simpa using hcon.1
      have hnoo : ¬(some '.' = some 'o' ∧
          (ds ++ '.' :: 'e' :: c3 :: rest2).head? = some '0' ∧ ds.length = 1) :=
        fun hcon => by simpa using hcon.1
      have hnox : ¬(some '.' = some 'x' ∧
          (ds ++ '.' :: 'e' :: c3 :: rest2).head? = some '0' ∧ ds.length = 1) :=
        fun hcon => by simpa using hcon.1
      rw [if_neg hnob, if_neg hnoo, if_neg hnox, if_pos trivial]
      rw [if_pos trivial, if_pos hval,
        if_neg (show ¬is_digit 'e' = true from by decide)]
    · intro hnval
      obtain ⟨htake, hdrop⟩ := digits_dot_split ds ('e' :: c3 :: rest2) hds
      unfold TokenLexer.consume_number
      dsimp only [consume_and_count]
      rw [htake, hdrop]
      simp only [List.head?_cons, List.tail_cons]
      have hnob : ¬(some '.' = some 'b' ∧
          (ds ++ '.' :: 'e' :: c3 :: rest2).head? = some '0' ∧ ds.length = 1) :=
        fun hcon => by simpa using hcon.1
      have hnoo : ¬(some '.' = some 'o' ∧
          (ds ++ '.' :: 'e' :: c3 :: rest2).head? = some '0' ∧ ds.length = 1) :=
        fun hcon => by simpa using hcon.1
      have hnox : ¬(some '.' = some 'x' ∧
          (ds ++ '.' :: 'e' :: c3 :: rest2).head? = some '0' ∧ ds.length = 1) :=
        fun hcon => by simpa using hcon.1
      rw [if_neg hnob, if_neg hnoo, if_neg hnox, if_pos trivial]
      rw [if_pos trivial, if_neg hnval,
        if_neg (show ¬is_digit 'e' = true from by decide)]

theorem number_dot_lookahead_witness :
    (TokenLexer.new (("1.sin").data)).consume_number
        (['1'] ++ '.' :: 's' :: ("in").data) =
      (Token.Number,
        (TokenLexer.new (("1.sin").data)).advance_line
          ([('1' : Char)]).length) :=
  (number_dot_lookahead (TokenLexer.new (("1.sin").data)) ['1']
      (by decide)).1 's' (("in").data) (by decide) (by decide)

-- -------------------------------------------------------------------
-- C6: keywords after a dot
-- -------------------------------------------------------------------

/-- C6 counterexample: lexing `a.else` produces `Else` as the third token
although the previous emitted token is `Dot`: the keyword `else` is
special-cased before the previous-token-is-Dot guard, so a keyword run
after a dot is NOT always emitted as a plain identifier. -/
theorem keyword_after_dot_counterexample :
    run_lexer 10 (TokenLexer.new (("a.else").data)) =
      some [(Token.Id, 0, 1), (Token.Dot, 1, 2), (Token.Else, 2, 6)] := rfl

/-- C6 (amended): for identifier runs whose spelling is in the keyword
table (which does not include `else`: `else`/`else if` are handled before
the guard, and so are raw-string `r`-prefixes, but `r` is not a keyword),
`consume_id_or_keyword` emits the keyword token exactly when the
previously emitted token is not `Dot`, and a plain `Id` token when it is. -/
theorem keyword_after_dot_amended (s : TokenLexer) (c : Char)
    (cs : List Char) (k : Token) (n : Nat)
    (hkw : keyword_token keywords
      (String.mk (c :: cs.takeWhile is_id_continue)) = some (k, n))
    (helse : String.mk (c :: cs.takeWhile is_id_continue) ≠ "else") :
    (s.consume_id_or_keyword (c :: cs)).1 =
      if s.previous_token = some Token.Dot then Token.Id else k := by
  unfold TokenLexer.consume_id_or_keyword
  dsimp only
  rw [if_neg helse]
  have hr : (if String.mk (c :: cs.takeWhile is_id_continue) = "r" then
      ((cs.dropWhile is_id_continue).head?.bind stringQuote?)
    else none) = none := by
    by_cases hid : String.mk (c :: cs.takeWhile is_id_continue) = "r"
    · rw [hid] at hkw
      have he : keyword_token keywords "r" = none := by decide
      rw [he] at hkw
      exact absurd hkw (by simp)
    · rw [if_neg hid]
  rw [hr]
  by_cases hdot : s.previous_token = some Token.Dot
  · rw [if_pos hdot, if_pos hdot]
  · rw [if_neg hdot, if_neg hdot, hkw]

theorem keyword_after_dot_amended_witness :
    (({ TokenLexer.new (("x.and()").data) with
          previous_token := some Token.Dot } : TokenLexer).consume_id_or_keyword
        ('a' :: ("nd()").data)).1 =
      if ({ TokenLexer.new (("x.and()").data) with
            previous_token := some Token.Dot } : TokenLexer).previous_token =
          some Token.Dot then Token.Id else Token.And :=
  keyword_after_dot_amended
    ({ TokenLexer.new (("x.and()").data) with
        previous_token := some Token.Dot })
    'a' (("nd()").data) Token.And 3 (by decide) (by decide)


-- -------------------------------------------------------------------
-- C3: peek and the token queue
-- -------------------------------------------------------------------

theorem takeTokens_decomp : ∀ (k : Nat) (s : KotoLexer),
    takeTokens k s = s.token_queue.take k ++
      rawTokens (k - s.token_queue.length) s.lexer := by
  intro k
  induction k with
  | zero => intro s; simp [takeTokens, rawTokens]
  | succ k ih =>
      intro s
      obtain ⟨lx, queue⟩ := s
      rcases queue with _ | ⟨t, q⟩
      · show takeTokens (k + 1) ⟨lx, []⟩ =
          ([] : List LexedToken).take (k + 1) ++
            rawTokens (k + 1 - ([] : List LexedToken).length) lx
        rcases hg : lx.get_next_token with ⟨o, lx2⟩
        cases o with
        | some tok =>
            have h1 : takeTokens (k + 1) ⟨lx, []⟩ =
                { token := tok
                  source_bytes := lx2.source_bytes
                  span := lx2.span
                  indent := lx2.indent } :: takeTokens k ⟨lx2, []⟩ := by
              conv_lhs => unfold takeTokens KotoLexer.next KotoLexer.next_token
              rw [hg]
            have h2 : rawTokens (k + 1) lx =
                { token := tok
                  source_bytes := lx2.source_bytes
                  span := lx2.span
                  indent := lx2.indent } :: rawTokens k lx2 := by
              conv_lhs => unfold rawTokens
              rw [hg]
            rw [h1]
            simp only [List.length_nil, Nat.sub_zero, List.take_nil,
              List.nil_append]
            rw [h2, ih ⟨lx2, []⟩]
            simp
        | none =>
            have h1 : takeTokens (k + 1) ⟨lx, []⟩ = [] := by
              conv_lhs => unfold takeTokens KotoLexer.next KotoLexer.next_token
              rw [hg]
            have h2 : rawTokens (k + 1) lx = [] := by
              conv_lhs => unfold rawTokens
              rw [hg]
            rw [h1]
            simp only [List.length_nil, Nat.sub_zero, List.take_nil,
              List.nil_append]
            rw [h2]
      · show takeTokens (k + 1) ⟨lx, t :: q⟩ =
          (t :: q).take (k + 1) ++ rawTokens (k + 1 - (t :: q).length) lx
        have h1 : takeTokens (k + 1) ⟨lx, t :: q⟩ =
            t :: takeTokens k ⟨lx, q⟩ := by
          conv_lhs => unfold takeTokens KotoLexer.next
        rw [h1, ih ⟨lx, q⟩, List.take_succ_cons, List.length_cons,
          Nat.succ_sub_succ]
        rfl

theorem rawTokens_nil (lx lx2 : TokenLexer)
    (hg : lx.get_next_token = (none, lx2)) :
    (∀ m, rawTokens m lx = []) ∧ (∀ m, rawTokens m lx2 = []) := by
  have hnil1 : ∀ m, rawTokens m lx = [] := by
    intro m
    cases m with
    | zero => rfl
    | succ m =>
        conv_lhs => unfold rawTokens
        rw [hg]
  refine ⟨hnil1, ?_⟩
  unfold TokenLexer.get_next_token at hg
  rcases hrem : remainingChars lx.source lx.current_byte with _ | r
  · rw [hrem] at hg
    injection hg with _ h2
    subst h2
    intro m
    cases m with
    | zero => rfl
    | succ m =>
        conv_lhs => unfold rawTokens
        rw [get_next_token_past_end
          ({ lx with previous_token := none } : TokenLexer) hrem]
  · cases r with
    | cons c rest =>
        rw [hrem] at hg
        injection hg with h1 _
        exact absurd h1 (by simp)
    | nil =>
        rw [hrem] at hg
        injection hg with _ h2
        subst h2
        intro m
        cases m with
        | zero => rfl
        | succ m =>
            conv_lhs => unfold rawTokens
            rw [get_next_token_nil
              ({ lx with previous_token := none } : TokenLexer) hrem]

/-- C3 (amended): `peek n` is correct when `n` does not exceed the current
queue length: it returns (without panicking) the `(n+1)`-th not-yet-consumed
token (`none` when fewer remain), and the stream later produced by `next`
is unchanged.  (For `n` beyond the queue, the buffering arithmetic
under-fills the queue: see the counterexample.) -/
theorem peek_correct_amended (s : KotoLexer) (n : Nat)
    (h : n ≤ s.token_queue.length) :
    ∃ s2, KotoLexer.peek n s = some ((takeTokens (n + 1) s).get? n, s2) ∧
      ∀ k, takeTokens k s2 = takeTokens k s := by
  obtain ⟨lx, queue⟩ := s
  have h' : n ≤ queue.length := h
  unfold KotoLexer.peek
  dsimp only
  have hmax : n.max queue.length = queue.length := Nat.max_eq_right h'
  rw [hmax]
  have hsub : checked_sub (queue.length + 1) queue.length = some 1 := by
    unfold checked_sub
    rw [if_pos (by omega)]
    congr 1
    omega
  rw [hsub]
  dsimp only
  rcases hg : lx.get_next_token with ⟨o, lx2⟩
  cases o with
  | some tok =>
      set T : LexedToken := { token := tok
                              source_bytes := lx2.source_bytes
                              span := lx2.span
                              indent := lx2.indent } with hT
      have hadd : add_tokens 1 ⟨lx, queue⟩ = ⟨lx2, queue ++ [T]⟩ := by
        conv_lhs => unfold add_tokens KotoLexer.next_token
        rw [hg]
        rfl
      rw [hadd]
      refine ⟨⟨lx2, queue ++ [T]⟩, ?_, ?_⟩
      · congr 2
        rw [takeTokens_decomp (n + 1) ⟨lx, queue⟩]
        dsimp only
        by_cases hlt : n < queue.length
        · rw [List.get?_append hlt, List.get?_append
            (by rw [List.length_take]; omega), List.get?_take (by omega)]
        · have heq : n = queue.length := by omega
          subst heq
          rw [List.get?_concat_length, List.take_of_length_le (by omega),
            List.get?_append_right (by omega)]
          have hone : queue.length + 1 - queue.length = 1 := by omega
          have hz : queue.length - queue.length = 0 := by omega
          rw [hone, hz]
          have hraw1 : rawTokens 1 lx = [T] := by
            conv_lhs => unfold rawTokens
            rw [hg]
            rfl
          rw [hraw1]
          rfl
      · intro k
        rw [takeTokens_decomp k ⟨lx2, queue ++ [T]⟩,
          takeTokens_decomp k ⟨lx, queue⟩]
        dsimp only
        by_cases hk : k ≤ queue.length
        · rw [List.take_append_of_le_length hk]
          have h1 : k - (queue ++ [T]).length = 0 := by
            rw [List.length_append]
            omega
          have h2 : k - queue.length = 0 := by omega
          rw [h1, h2]
          rfl
        · rw [List.take_of_length_le (by rw [List.length_append]; simp; omega),
            List.take_of_length_le (by omega)]
          have hraw : rawTokens (k - queue.length) lx =
              T :: rawTokens (k - queue.length - 1) lx2 := by
            obtain ⟨m, hm⟩ : ∃ m, k - queue.length = m + 1 :=
              ⟨k - queue.length - 1, by omega⟩
            rw [hm]
            conv_lhs => unfold rawTokens
            rw [hg]
            have hm2 : m + 1 - 1 = m := by omega
            rw [hm2]
          rw [hraw]
          have h1 : k - (queue ++ [T]).length = k - queue.length - 1 := by
            rw [List.length_append]
            simp
            omega
          rw [h1, List.append_assoc]
          rfl
  | none =>
      have hadd : add_tokens 1 ⟨lx, queue⟩ = ⟨lx2, queue⟩ := by
        conv_lhs => unfold add_tokens KotoLexer.next_token
        rw [hg]
      rw [hadd]
      obtain ⟨hnil1, hnil2⟩ := rawTokens_nil lx lx2 hg
      refine ⟨⟨lx2, queue⟩, ?_, ?_⟩
      · congr 2
        rw [takeTokens_decomp (n + 1) ⟨lx, queue⟩]
        dsimp only
        rw [hnil1, List.append_nil]
        by_cases hlt : n < queue.length
        · rw [List.get?_take (by omega)]
        · have heq : n = queue.length := by omega
          subst heq
          rw [List.take_of_length_le (by omega)]
      · intro k
        rw [takeTokens_decomp k ⟨lx2, queue⟩, takeTokens_decomp k ⟨lx, queue⟩]
        dsimp only
        rw [hnil1, hnil2]

/-- C3 counterexample: on a fresh lexer over `a b` (three tokens pending,
empty queue), `peek 1` computes `tokens_to_add = len + 1 - max n len = 0`,
under-fills the queue, and returns no token even though a second token
exists (`takeTokens 2` returns two tokens); and for `n = len + 2` the
subtraction in `peek` underflows `usize`, a panic in a debug build
(modelled as the outer `none`).  So `peek n` is not correct for arbitrary
`n`. -/
theorem peek_skips_counterexample :
    (KotoLexer.peek 1 (KotoLexer.new (("a b").data))).map
        (fun p => p.1) = some none ∧
    (takeTokens 2 (KotoLexer.new (("a b").data))).length = 2 ∧
    KotoLexer.peek 2 (KotoLexer.new (("a b").data)) = none :=
  ⟨rfl, rfl, rfl⟩

theorem peek_correct_amended_witness :
    ∃ s2, KotoLexer.peek 0 (KotoLexer.new (("ab").data)) =
        some ((takeTokens 1 (KotoLexer.new (("ab").data))).get? 0, s2) ∧
      ∀ k, takeTokens k s2 = takeTokens k (KotoLexer.new (("ab").data)) :=
  peek_correct_amended (KotoLexer.new (("ab").data)) 0 (by decide)

theorem parseAtom_toks (a : Atom) (R : List FTok) :
    parseAtom (atomToks a ++ R) = some (a, R) := by
  obtain ⟨n, b⟩ := a
  induction n with
  | zero => cases b <;> rfl
  | succ n ih =>
    show parseAtom (FTok.op '-' :: (atomToks ⟨n, b⟩ ++ R)) = _
    simp [parseAtom, ih]

theorem pairsToks_length (ps : List (Char × Atom)) :
    ps.length ≤ (pairsToks ps).length := by
  induction ps with
  | nil => simp [pairsToks]
  | cons p ps ih =>
    simp only [pairsToks, List.flatMap_cons, List.length_append,
      List.length_cons] at *
    omega

theorem parsePairs_toks (ps : List (Char × Atom)) (fuel : Nat)
    (h : ps.length ≤ fuel) :
    parsePairs fuel (pairsToks ps) = some ps := by
  induction ps generalizing fuel with
  | nil => cases fuel <;> rfl
  | cons p ps ih =>
    obtain ⟨c, a⟩ := p
    cases fuel with
    | zero => simp at h
    | succ f =>
      show parsePairs (f + 1) (FTok.op c :: (atomToks a ++ pairsToks ps)) = _
      rw [parsePairs, parseAtom_toks]
      dsimp only
      rw [ih f (by simp at h; omega)]
      rfl

theorem parseExpr_toks (e : UnitExpr) : parseExpr (exprToks e) = some e := by
  obtain ⟨a, ps⟩ := e
  show parseExpr (atomToks a ++ pairsToks ps) = _
  rw [parseExpr, parseAtom_toks]
  dsimp only
  rw [parsePairs_toks ps _ (pairsToks_length ps)]
  rfl

theorem pairsRender_head (ps : List (Char × Atom)) :
    pairsRender ps = [] ∨ ∃ r, pairsRender ps = ' ' :: r := by
  cases ps with
  | nil => left; rfl
  | cons p tl => right; exact ⟨_, rfl⟩

theorem tokenize_renderAtom (a : Atom) (R : List Char) (ts : List FTok)
    (hwf : a.wf)
    (hhead : R = [] ∨ ∃ r, R = ' ' :: r)
    (hcont : ∀ fuel, R.length ≤ fuel → tokenizeLineGo fuel R = some ts) :
    ∀ fuel, (renderAtom a ++ R).length ≤ fuel →
      tokenizeLineGo fuel (renderAtom a ++ R) = some (atomToks a ++ ts) := by
  obtain ⟨n, b⟩ := a
  have hb : b.wf := hwf
  induction n with
  | zero =>
    intro fuel hlen
    have hhead3 : R = [] ∨ (∃ r, R = ' ' :: r) ∨ (∃ r, R = ',' :: r) := by
      rcases hhead with h | h
      · exact Or.inl h
      · exact Or.inr (Or.inl h)
    cases b with
    | id s =>
      exact tokenizeLineGo_consume_tok (FTok.ident s) ts R hhead3 hcont hb
        fuel hlen
    | num s =>
      exact tokenizeLineGo_consume_tok (FTok.num s) ts R hhead3 hcont hb
        fuel hlen
  | succ n ih =>
    intro fuel hlen
    have hshape : renderAtom ⟨n + 1, b⟩ ++ R =
        '-' :: (renderAtom ⟨n, b⟩ ++ R) := by
      simp [renderAtom, List.replicate_succ]
    rw [hshape] at hlen ⊢
    cases fuel with
    | zero => simp at hlen
    | succ f =>
      rw [tokenizeLineGo_op_step f _ '-' (by decide),
        ih hb f (by simp only [List.length_cons] at hlen; omega)]
      simp [atomToks, List.replicate_succ]

theorem tokenize_pairsRender (ps : List (Char × Atom))
    (hwf : ∀ p ∈ ps, p.1 ∈ opChars ∧ p.2.wf) :
    ∀ fuel, (pairsRender ps).length ≤ fuel →
      tokenizeLineGo fuel (pairsRender ps) = some (pairsToks ps) := by
  induction ps with
  | nil => intro fuel _; cases fuel <;> rfl
  | cons p tl ih =>
    obtain ⟨c, a⟩ := p
    intro fuel hlen
    have hshape : pairsRender ((c, a) :: tl) =
        ' ' :: c :: ' ' :: (renderAtom a ++ pairsRender tl) := by
      simp [pairsRender]
    rw [hshape] at hlen ⊢
    simp only [List.length_cons] at hlen
    cases fuel with
    | zero => omega
    | succ f =>
      rw [tokenizeLineGo_space_step]
      cases f with
      | zero => omega
      | succ f2 =>
        rw [tokenizeLineGo_op_step f2 _ c (hwf (c, a) (by simp)).1]
        cases f2 with
        | zero => omega
        | succ f3 =>
          rw [tokenizeLineGo_space_step,
            tokenize_renderAtom a (pairsRender tl) (pairsToks tl)
              (hwf (c, a) (by simp)).2 (pairsRender_head tl)
              (ih (fun q hq => hwf q (by simp [hq]))) f3 (by omega)]
          simp [pairsToks]

theorem tokenizeLineGo_renderExpr (e : UnitExpr) (hwf : e.wf) :
    ∀ fuel, (renderExpr e).length ≤ fuel →
      tokenizeLineGo fuel (renderExpr e) = some (exprToks e) := by
  intro fuel hlen
  exact tokenize_renderAtom e.head (pairsRender e.rest) (pairsToks e.rest)
    hwf.1 (pairsRender_head e.rest) (tokenize_pairsRender e.rest hwf.2)
    fuel hlen

theorem tokenizeLine_renderExpr (e : UnitExpr) (hwf : e.wf) :
    tokenizeLine (renderExpr e) = some (exprToks e) :=
  tokenizeLineGo_renderExpr e hwf _ le_rfl

theorem parseContent_renderExpr (e : UnitExpr) (hwf : e.wf) :
    parseContent (renderExpr e) = some e := by
  rw [parseContent, tokenizeLine_renderExpr e hwf]
  show parseExpr (exprToks e) = some e
  exact parseExpr_toks e

theorem parseContent_cont (e : UnitExpr) (hwf : e.wf) :
    parseContent (' ' :: renderExpr e) = some e := by
  rw [parseContent]
  have ht : tokenizeLine (' ' :: renderExpr e) = some (exprToks e) := by
    show tokenizeLineGo ((' ' :: renderExpr e).length) (' ' :: renderExpr e) =
      some (exprToks e)
    simp only [List.length_cons]
    rw [tokenizeLineGo_space_step]
    exact tokenizeLineGo_renderExpr e hwf _ le_rfl
  rw [ht]
  show parseExpr (exprToks e) = some e
  exact parseExpr_toks e

theorem splitOps_head (p : Char → Bool) (h : Atom)
    (rest : List (Char × Atom)) :
    (splitOps p h rest).1.head = h := by
  induction rest generalizing h with
  | nil => rfl
  | cons pa rest ih =>
    obtain ⟨c, a⟩ := pa
    rcases hs : splitOps p a rest with ⟨s1, ss⟩
    by_cases hc : p c <;> simp [splitOps, hs, hc]

theorem splitOps_all (h : Atom) (rest : List (Char × Atom)) :
    (splitOps (fun _ => true) h rest).1.rest = [] ∧
    ∀ q ∈ (splitOps (fun _ => true) h rest).2, q.2.rest = [] := by
  induction rest generalizing h with
  | nil => exact ⟨rfl, by simp [splitOps]⟩
  | cons pa rest ih =>
    obtain ⟨c, a⟩ := pa
    rcases hs : splitOps (fun _ => true) a rest with ⟨s1, ss⟩
    obtain ⟨ih1, ih2⟩ := ih a
    rw [hs] at ih1 ih2
    have hsplit : splitOps (fun _ => true) h ((c, a) :: rest) =
        (⟨h, []⟩, (c, s1) :: ss) := by
      simp [splitOps, hs]
    rw [hsplit]
    refine ⟨rfl, fun q hq => ?_⟩
    simp only [List.mem_cons] at hq
    rcases hq with rfl | hq
    · exact ih1
    · exact ih2 q hq

theorem splitOps_wf (p : Char → Bool) (h : Atom)
    (rest : List (Char × Atom)) (hh : h.wf)
    (hrest : ∀ q ∈ rest, q.1 ∈ opChars ∧ q.2.wf) :
    (splitOps p h rest).1.wf ∧
    ∀ q ∈ (splitOps p h rest).2, q.1 ∈ opChars ∧ q.2.wf := by
  induction rest generalizing h with
  | nil =>
    constructor
    · show (UnitExpr.mk h []).wf
      exact ⟨hh, by simp⟩
    · intro q hq
      simp [splitOps] at hq
  | cons pa rest ih =>
    obtain ⟨c, a⟩ := pa
    rcases hs : splitOps p a rest with ⟨s1, ss⟩
    have hca := hrest (c, a) (by simp)
    obtain ⟨ihs1, ihss⟩ := ih a hca.2 (fun q hq => hrest q (by simp [hq]))
    rw [hs] at ihs1 ihss
    by_cases hc : p c
    · have hsplit : splitOps p h ((c, a) :: rest) =
          (⟨h, []⟩, (c, s1) :: ss) := by
        simp [splitOps, hs, hc]
      rw [hsplit]
      refine ⟨⟨hh, by simp⟩, fun q hq => ?_⟩
      simp only [List.mem_cons] at hq
      rcases hq with rfl | hq
      · exact ⟨hca.1, ihs1⟩
      · exact ihss q hq
    · have hsplit : splitOps p h ((c, a) :: rest) =
          (⟨h, (c, s1.head) :: s1.rest⟩, ss) := by
        simp [splitOps, hs, hc]
      rw [hsplit]
      refine ⟨⟨hh, fun q hq => ?_⟩, fun q hq => ihss q hq⟩
      simp only [List.mem_cons] at hq
      rcases hq with rfl | hq
      · exact ⟨hca.1, ihs1.1⟩
      · exact ihs1.2 q hq

theorem list_flatMap_eq_self {α : Type} (f : α → List α) (l : List α)
    (h : ∀ x ∈ l, f x = [x]) : l.flatMap f = l := by
  induction l with
  | nil => rfl
  | cons x l ih =>
    rw [List.flatMap_cons, h x (by simp), ih (fun y hy => h y (by simp [hy]))]
    rfl

theorem breakAllFirst_spec (L : Nat) (e : UnitExpr) :
    (breakAllFirst L e).1.head = e.head ∧
    (exprWidth (breakAllFirst L e).1 ≤ L ∨ (breakAllFirst L e).1.rest = []) ∧
    ∀ q ∈ (breakAllFirst L e).2, q.2.rest = [] := by
  by_cases hw : exprWidth e ≤ L
  · simp [breakAllFirst, hw]
  · simp only [breakAllFirst, if_neg hw]
    exact ⟨splitOps_head _ _ _, Or.inr (splitOps_all e.head e.rest).1,
      (splitOps_all e.head e.rest).2⟩

theorem breakAllFirst_wf (L : Nat) (e : UnitExpr) (hwf : e.wf) :
    (breakAllFirst L e).1.wf ∧
    ∀ q ∈ (breakAllFirst L e).2, q.1 ∈ opChars ∧ q.2.wf := by
  by_cases hw : exprWidth e ≤ L
  · simp [breakAllFirst, hw, hwf]
  · simp only [breakAllFirst, if_neg hw]
    exact splitOps_wf _ e.head e.rest hwf.1 hwf.2

theorem breakAllCont_spec (L : Nat) (q : Char × UnitExpr) :
    ∀ r ∈ breakAllCont L q, 4 + exprWidth r.2 ≤ L ∨ r.2.rest = [] := by
  by_cases hw : 4 + exprWidth q.2 ≤ L
  · simp [breakAllCont, hw]
  · intro r hr
    rcases hs : splitOps (fun _ => true) q.2.head q.2.rest with ⟨s1, ss⟩
    simp only [breakAllCont, if_neg hw, hs, List.mem_cons] at hr
    obtain ⟨h1, h2⟩ := splitOps_all q.2.head q.2.rest
    rw [hs] at h1 h2
    rcases hr with rfl | hr
    · exact Or.inr h1
    · exact Or.inr (h2 r hr)

theorem breakAllCont_wf (L : Nat) (q : Char × UnitExpr)
    (h1 : q.1 ∈ opChars) (h2 : q.2.wf) :
    ∀ r ∈ breakAllCont L q, r.1 ∈ opChars ∧ r.2.wf := by
  by_cases hw : 4 + exprWidth q.2 ≤ L
  · simp [breakAllCont, hw]
    exact ⟨h1, h2⟩
  · intro r hr
    rcases hs : splitOps (fun _ => true) q.2.head q.2.rest with ⟨s1, ss⟩
    simp only [breakAllCont, if_neg hw, hs, List.mem_cons] at hr
    obtain ⟨hwf1, hwf2⟩ := splitOps_wf _ q.2.head q.2.rest h2.1 h2.2
    rw [hs] at hwf1 hwf2
    rcases hr with rfl | hr
    · exact ⟨h1, hwf1⟩
    · exact hwf2 r hr

theorem breakFirst_head (L : Nat) (e : UnitExpr) :
    (breakFirst L e).1.head = e.head := by
  by_cases hw : exprWidth e ≤ L
  · simp [breakFirst, hw]
  · rcases hs : splitOps isLowOp e.head e.rest with ⟨s1, ss⟩
    rcases hf : breakAllFirst L s1 with ⟨f1, fs⟩
    simp only [breakFirst, if_neg hw, hs, hf]
    have h1 := (breakAllFirst_spec L s1).1
    rw [hf] at h1
    have h2 := splitOps_head isLowOp e.head e.rest
    rw [hs] at h2
    have h1x : f1.head = s1.head := h1
    have h2x : s1.head = e.head := h2
    show f1.head = e.head
    exact h1x.trans h2x

theorem breakFirst_elems (L : Nat) (e : UnitExpr) :
    (exprWidth (breakFirst L e).1 ≤ L ∨ (breakFirst L e).1.rest = []) ∧
    ∀ r ∈ (breakFirst L e).2, 4 + exprWidth r.2 ≤ L ∨ r.2.rest = [] := by
  by_cases hw : exprWidth e ≤ L
  · simp [breakFirst, hw]
  · rcases hs : splitOps isLowOp e.head e.rest with ⟨s1, ss⟩
    rcases hf : breakAllFirst L s1 with ⟨f1, fs⟩
    simp only [breakFirst, if_neg hw, hs, hf]
    obtain ⟨_, hspec1, hspec2⟩ := breakAllFirst_spec L s1
    rw [hf] at hspec1 hspec2
    refine ⟨hspec1, ?_⟩
    intro r hr
    rcases List.mem_append.mp hr with hr1 | hr1
    · exact Or.inr (hspec2 r hr1)
    · obtain ⟨q, _, hq2⟩ := List.mem_flatMap.mp hr1
      exact breakAllCont_spec L q r hq2

theorem breakFirst_wf (L : Nat) (e : UnitExpr) (hwf : e.wf) :
    (breakFirst L e).1.wf ∧
    ∀ r ∈ (breakFirst L e).2, r.1 ∈ opChars ∧ r.2.wf := by
  by_cases hw : exprWidth e ≤ L
  · simp [breakFirst, hw, hwf]
  · rcases hs : splitOps isLowOp e.head e.rest with ⟨s1, ss⟩
    rcases hf : breakAllFirst L s1 with ⟨f1, fs⟩
    simp only [breakFirst, if_neg hw, hs, hf]
    obtain ⟨hw1, hw2⟩ := splitOps_wf isLowOp e.head e.rest hwf.1 hwf.2
    rw [hs] at hw1 hw2
    obtain ⟨hf1, hf2⟩ := breakAllFirst_wf L s1 hw1
    rw [hf] at hf1 hf2
    refine ⟨hf1, ?_⟩
    intro r hr
    rcases List.mem_append.mp hr with hr1 | hr1
    · exact hf2 r hr1
    · obtain ⟨q, hq1, hq2⟩ := List.mem_flatMap.mp hr1
      exact breakAllCont_wf L q (hw2 q hq1).1 (hw2 q hq1).2 r hq2

theorem breakCont_elems (L : Nat) (q : Char × UnitExpr) :
    ∀ r ∈ breakCont L q, 4 + exprWidth r.2 ≤ L ∨ r.2.rest = [] := by
  by_cases hw : 4 + exprWidth q.2 ≤ L
  · simp [breakCont, hw]
  · intro r hr
    rcases hs : splitOps isLowOp q.2.head q.2.rest with ⟨s1, ss⟩
    simp only [breakCont, if_neg hw, hs] at hr
    rcases List.mem_append.mp hr with hr1 | hr1
    · exact breakAllCont_spec L (q.1, s1) r hr1
    · obtain ⟨u, _, hu2⟩ := List.mem_flatMap.mp hr1
      exact breakAllCont_spec L u r hu2

theorem breakCont_wf (L : Nat) (q : Char × UnitExpr)
    (h1 : q.1 ∈ opChars) (h2 : q.2.wf) :
    ∀ r ∈ breakCont L q, r.1 ∈ opChars ∧ r.2.wf := by
  by_cases hw : 4 + exprWidth q.2 ≤ L
  · simp [breakCont, hw]
    exact ⟨h1, h2⟩
  · intro r hr
    rcases hs : splitOps isLowOp q.2.head q.2.rest with ⟨s1, ss⟩
    simp only [breakCont, if_neg hw, hs] at hr
    obtain ⟨hw1, hw2⟩ := splitOps_wf isLowOp q.2.head q.2.rest h2.1 h2.2
    rw [hs] at hw1 hw2
    rcases List.mem_append.mp hr with hr1 | hr1
    · exact breakAllCont_wf L (q.1, s1) h1 hw1 r hr1
    · obtain ⟨u, hu1, hu2⟩ := List.mem_flatMap.mp hr1
      exact breakAllCont_wf L u (hw2 u hu1).1 (hw2 u hu1).2 r hu2

theorem breakFirst_stable_of (L : Nat) (e : UnitExpr)
    (h : exprWidth e ≤ L ∨ e.rest = []) : breakFirst L e = (e, []) := by
  by_cases hw : exprWidth e ≤ L
  · simp [breakFirst, hw]
  · rcases h with h | h
    · exact absurd h hw
    · obtain ⟨h0, r0⟩ := e
      simp only at h
      subst h
      simp only [breakFirst, if_neg hw, splitOps]
      simp only [breakAllFirst]
      rw [if_neg]
      · simp [splitOps]
      · exact hw

theorem breakCont_stable_of (L : Nat) (q : Char × UnitExpr)
    (h : 4 + exprWidth q.2 ≤ L ∨ q.2.rest = []) : breakCont L q = [q] := by
  by_cases hw : 4 + exprWidth q.2 ≤ L
  · simp [breakCont, hw]
  · rcases h with h | h
    · exact absurd h hw
    · obtain ⟨c, e⟩ := q
      obtain ⟨h0, r0⟩ := e
      simp only at h
      subst h
      simp only [breakCont, if_neg hw, splitOps]
      simp only [breakAllCont]
      rw [if_neg]
      · simp [splitOps]
      · exact hw

theorem breakBlock_stable (L : Nat) (b : FBlock) :
    (breakBlock L b).stable L := by
  cases b with
  | blank => trivial
  | unit e conts =>
    rcases hf : breakFirst L e with ⟨f1, fs⟩
    simp only [breakBlock, hf]
    obtain ⟨he1, he2⟩ := breakFirst_elems L e
    rw [hf] at he1 he2
    refine ⟨breakFirst_stable_of L f1 he1, ?_⟩
    intro q hq
    rcases List.mem_append.mp hq with hq1 | hq1
    · exact breakCont_stable_of L q (he2 q hq1)
    · obtain ⟨u, _, hu2⟩ := List.mem_flatMap.mp hq1
      exact breakCont_stable_of L q (breakCont_elems L u q hu2)

theorem breakBlock_eq_of_stable (L : Nat) (b : FBlock) (h : b.stable L) :
    breakBlock L b = b := by
  cases b with
  | blank => rfl
  | unit e conts =>
    obtain ⟨h1, h2⟩ := h
    simp only [breakBlock, h1]
    rw [list_flatMap_eq_self _ conts h2]
    rfl

theorem breakBlock_wfB (L : Nat) (b : FBlock) (h : b.wfB) :
    (breakBlock L b).wfB := by
  cases b with
  | blank => trivial
  | unit e conts =>
    rcases hf : breakFirst L e with ⟨f1, fs⟩
    simp only [breakBlock, hf]
    obtain ⟨hw1, hw2⟩ := breakFirst_wf L e h.1
    rw [hf] at hw1 hw2
    refine ⟨hw1, ?_⟩
    intro q hq
    rcases List.mem_append.mp hq with hq1 | hq1
    · exact hw2 q hq1
    · obtain ⟨u, hu1, hu2⟩ := List.mem_flatMap.mp hq1
      exact breakCont_wf L u (h.2 u hu1).1 (h.2 u hu1).2 q hu2

theorem breakBlock_isBlank (L : Nat) (b : FBlock) :
    (breakBlock L b).isBlank = b.isBlank := by
  cases b with
  | blank => rfl
  | unit e conts =>
    rcases hf : breakFirst L e with ⟨f1, fs⟩
    simp [breakBlock, hf, FBlock.isBlank]

theorem breakBlock_firstNegZero (L : Nat) (b : FBlock)
    (h : firstNegZero b) : firstNegZero (breakBlock L b) := by
  cases b with
  | blank => trivial
  | unit e conts =>
    rcases hf : breakFirst L e with ⟨f1, fs⟩
    simp only [breakBlock, hf, firstNegZero]
    have := breakFirst_head L e
    rw [hf] at this
    simp only at this
    rw [this]
    exact h

theorem opChar_ne_newline (c : Char) (h : c ∈ opChars) : c ≠ '\n' := by
  simp only [opChars, List.mem_cons, List.not_mem_nil, or_false] at h
  rcases h with rfl | rfl | rfl | rfl | rfl <;> decide

theorem opChar_ne_space (c : Char) (h : c ∈ opChars) : c ≠ ' ' := by
  simp only [opChars, List.mem_cons, List.not_mem_nil, or_false] at h
  rcases h with rfl | rfl | rfl | rfl | rfl <;> decide

theorem isOpChar_of_mem (c : Char) (h : c ∈ opChars) : isOpChar c = true := by
  simp only [opChars, List.mem_cons, List.not_mem_nil, or_false] at h
  rcases h with rfl | rfl | rfl | rfl | rfl <;> decide

theorem alpha_not_op (c : Char) (h : c.isAlpha = true) : isOpChar c = false := by
  cases hc : isOpChar c
  · rfl
  · simp only [isOpChar, Bool.or_eq_true, decide_eq_true_eq] at hc
    rcases hc with (((rfl | rfl) | rfl) | rfl) | rfl <;>
      exact absurd h (by decide)

theorem digit_not_op (c : Char) (h : c.isDigit = true) : isOpChar c = false := by
  cases hc : isOpChar c
  · rfl
  · simp only [isOpChar, Bool.or_eq_true, decide_eq_true_eq] at hc
    rcases hc with (((rfl | rfl) | rfl) | rfl) | rfl <;>
      exact absurd h (by decide)

theorem newline_not_mem_renderAtom (a : Atom) (h : a.wf) :
    ('\n') ∉ renderAtom a := by
  intro hm
  obtain ⟨n, b⟩ := a
  simp only [renderAtom, List.mem_append] at hm
  rcases hm with h1 | h1
  · have := List.eq_of_mem_replicate h1
    exact absurd this (by decide)
  · cases b with
    | id s => exact newline_not_mem_renderTok (FTok.ident s) h h1
    | num s => exact newline_not_mem_renderTok (FTok.num s) h h1

theorem newline_not_mem_renderExpr (e : UnitExpr) (h : e.wf) :
    ('\n') ∉ renderExpr e := by
  intro hm
  rcases List.mem_append.mp hm with h1 | h1
  · exact newline_not_mem_renderAtom e.head h.1 h1
  · obtain ⟨q, hq1, hq2⟩ := List.mem_flatMap.mp h1
    obtain ⟨hop, hwf⟩ := h.2 q hq1
    simp only [List.mem_cons] at hq2
    rcases hq2 with h2 | h2 | h2 | h2
    · exact absurd h2.symm (by decide)
    · exact absurd h2.symm (opChar_ne_newline q.1 hop)
    · exact absurd h2.symm (by decide)
    · exact newline_not_mem_renderAtom q.2 hwf h2

theorem renderExpr_head (e : UnitExpr) (h : e.wf) :
    ∃ c0 r, renderExpr e = c0 :: r ∧
      (c0 = '-' ∨ c0.isAlpha = true ∨ c0.isDigit = true) ∧
      (e.head.neg = 0 → c0.isAlpha = true ∨ c0.isDigit = true) := by
  obtain ⟨⟨n, b⟩, ps⟩ := e
  cases n with
  | succ m =>
    cases b with
    | id s =>
      refine ⟨'-', (List.replicate m '-' ++ s) ++ pairsRender ps,
        ?_, Or.inl rfl, ?_⟩
      · simp [renderExpr, renderAtom, List.replicate_succ]
      · intro h0
        simp at h0
    | num s =>
      refine ⟨'-', (List.replicate m '-' ++ s) ++ pairsRender ps,
        ?_, Or.inl rfl, ?_⟩
      · simp [renderExpr, renderAtom, List.replicate_succ]
      · intro h0
        simp at h0
  | zero =>
    cases b with
    | id s =>
      obtain ⟨hne, hall⟩ := h.1
      cases s with
      | nil => exact absurd rfl hne
      | cons c0 s' =>
        refine ⟨c0, s' ++ pairsRender ps, by simp [renderExpr, renderAtom],
          Or.inr (Or.inl (hall c0 (by simp))), ?_⟩
        intro _
        exact Or.inl (hall c0 (by simp))
    | num s =>
      obtain ⟨hne, hall⟩ := h.1
      cases s with
      | nil => exact absurd rfl hne
      | cons c0 s' =>
        refine ⟨c0, s' ++ pairsRender ps, by simp [renderExpr, renderAtom],
          Or.inr (Or.inr (hall c0 (by simp))), ?_⟩
        intro _
        exact Or.inr (hall c0 (by simp))

theorem head_class_not_space (c0 : Char)
    (h : c0 = '-' ∨ c0.isAlpha = true ∨ c0.isDigit = true) :
    c0 ≠ ' ' ∧ c0 ≠ '\t' := by
  rcases h with rfl | h | h
  · exact ⟨by decide, by decide⟩
  · constructor <;> (rintro rfl; exact absurd h (by decide))
  · constructor <;> (rintro rfl; exact absurd h (by decide))

theorem renderExpr_not_blank (e : UnitExpr) (h : e.wf) :
    isBlankLine (renderExpr e) = false := by
  obtain ⟨c0, r, heq, hcls, _⟩ := renderExpr_head e h
  rw [heq]
  simp [isBlankLine, (head_class_not_space c0 hcls).1]

theorem renderExpr_head_not_ws (e : UnitExpr) (h : e.wf) :
    ¬((renderExpr e).head? = some ' ' ∨ (renderExpr e).head? = some '\t') := by
  obtain ⟨c0, r, heq, hcls, _⟩ := renderExpr_head e h
  rw [heq]
  obtain ⟨h1, h2⟩ := head_class_not_space c0 hcls
  rintro (hh | hh) <;> simp only [List.head?_cons, Option.some.injEq] at hh
  · exact h1 hh
  · exact h2 hh

theorem contLine?_renderExpr (e : UnitExpr) (h : e.wf)
    (h0 : e.head.neg = 0) : contLine? (renderExpr e) = none := by
  obtain ⟨c0, r, heq, hcls, hz⟩ := renderExpr_head e h
  have hcd := hz h0
  have hns : c0 ≠ ' ' := (head_class_not_space c0 hcls).1
  have hop : isOpChar c0 = false := by
    rcases hcd with h1 | h1
    · exact alpha_not_op c0 h1
    · exact digit_not_op c0 h1
  rw [heq]
  simp [contLine?, List.dropWhile_cons, hns, hop]

theorem contLine?_renderContPiece (q : Char × UnitExpr) (h : q.1 ∈ opChars) :
    contLine? (renderContPiece q) = some (q.1, ' ' :: renderExpr q.2) := by
  obtain ⟨c, e⟩ := q
  have hns : c ≠ ' ' := opChar_ne_space c h
  have hop : isOpChar c = true := isOpChar_of_mem c h
  show contLine? (' ' :: ' ' :: c :: ' ' :: renderExpr e) = _
  simp [contLine?, List.dropWhile_cons, hns, hop]

theorem splitConts_stop (ls : List (List Char))
    (h : ls = [] ∨ ∃ l0 tl, ls = l0 :: tl ∧ contLine? l0 = none) :
    splitConts ls = ([], ls) := by
  rcases h with rfl | ⟨l0, tl, rfl, hc⟩
  · rfl
  · simp [splitConts, hc]

theorem splitConts_render (tl : List (Char × UnitExpr))
    (hwf : ∀ q ∈ tl, q.1 ∈ opChars ∧ q.2.wf)
    (rest' : List (List Char))
    (hstop : rest' = [] ∨ ∃ l0 t2, rest' = l0 :: t2 ∧ contLine? l0 = none) :
    splitConts (tl.map renderContPiece ++ rest') =
      (tl.map (fun q => (q.1, ' ' :: renderExpr q.2)), rest') := by
  induction tl with
  | nil => simpa using splitConts_stop rest' hstop
  | cons q tl ih =>
    simp only [List.map_cons, List.cons_append]
    simp only [splitConts, contLine?_renderContPiece q (hwf q (by simp)).1]
    rw [ih (fun r hr => hwf r (by simp [hr]))]

theorem mapM_parse_conts (tl : List (Char × UnitExpr))
    (hwf : ∀ q ∈ tl, q.1 ∈ opChars ∧ q.2.wf) :
    (tl.map (fun q => (q.1, ' ' :: renderExpr q.2))).mapM
      (fun p => (parseContent p.2).map (fun e => (p.1, e))) = some tl := by
  induction tl with
  | nil => rfl
  | cons q tl ih =>
    rw [List.map_cons, List.mapM_cons,
      parseContent_cont q.2 (hwf q (by simp)).2,
      ih (fun r hr => hwf r (by simp [hr]))]
    rfl

theorem groupGo_render (B : List FBlock)
    (hwf : ∀ b ∈ B, b.wfB)
    (hchain : List.Chain'
      (fun b1 b2 => b1.isBlank = false → firstNegZero b2) B) :
    ∀ fuel, (B.flatMap blockLines ++ [[]]).length ≤ fuel →
      groupGo fuel (B.flatMap blockLines ++ [[]]) =
        some (B ++ [FBlock.blank]) := by
  induction B with
  | nil =>
    intro fuel hlen
    cases fuel with
    | zero => simp at hlen
    | succ f =>
      show groupGo (f + 1) [[]] = some [FBlock.blank]
      simp [groupGo, isBlankLine]
  | cons b B ih =>
    intro fuel hlen
    have hwfb := hwf b (by simp)
    have hwf' : ∀ x ∈ B, x.wfB := fun x hx => hwf x (by simp [hx])
    have hchain' := hchain.tail
    cases b with
    | blank =>
      have hshape : (FBlock.blank :: B).flatMap blockLines ++ [[]] =
          [] :: (B.flatMap blockLines ++ [[]]) := by
        simp [blockLines]
      rw [hshape] at hlen ⊢
      cases fuel with
      | zero => simp at hlen
      | succ f =>
        rw [groupGo]
        rw [if_pos (show isBlankLine [] = true from rfl)]
        rw [ih hwf' hchain' f
          (by simp only [List.length_cons] at hlen; omega)]
        rfl
    | unit e conts =>
      have hshape : (FBlock.unit e conts :: B).flatMap blockLines ++ [[]] =
          renderExpr e :: (conts.map renderContPiece ++
            (B.flatMap blockLines ++ [[]])) := by
        simp [blockLines]
      rw [hshape] at hlen ⊢
      cases fuel with
      | zero => simp at hlen
      | succ f =>
        have hstop : B.flatMap blockLines ++ [[]] = [] ∨
            ∃ l0 t2, B.flatMap blockLines ++ [[]] = l0 :: t2 ∧
              contLine? l0 = none := by
          cases B with
          | nil => exact Or.inr ⟨[], [], rfl, rfl⟩
          | cons b2 B2 =>
            cases b2 with
            | blank =>
              exact Or.inr ⟨[], B2.flatMap blockLines ++ [[]],
                by simp [blockLines], rfl⟩
            | unit e2 conts2 =>
              refine Or.inr ⟨renderExpr e2,
                conts2.map renderContPiece ++
                  (B2.flatMap blockLines ++ [[]]),
                by simp [blockLines], ?_⟩
              have hz : firstNegZero (FBlock.unit e2 conts2) :=
                (List.chain'_cons.mp hchain).1 rfl
              exact contLine?_renderExpr e2
                (hwf (FBlock.unit e2 conts2) (by simp)).1 hz
        rw [groupGo]
        rw [if_neg (by simp [renderExpr_not_blank e hwfb.1])]
        rw [if_neg (renderExpr_head_not_ws e hwfb.1)]
        rw [parseContent_renderExpr e hwfb.1]
        dsimp only
        rw [splitConts_render conts hwfb.2 _ hstop]
        dsimp only
        rw [mapM_parse_conts conts hwfb.2]
        dsimp only
        rw [ih hwf' hchain' f (by
          simp only [List.length_cons, List.length_append,
            List.length_map] at hlen ⊢
          omega)]
        rfl

theorem collapseBlanks_head (bs : List FBlock) (b : FBlock) :
    ∃ b' tl, collapseBlanks (b :: bs) = b' :: tl ∧
      (b' = b ∨ (b'.isBlank = true ∧ b.isBlank = true)) := by
  induction bs generalizing b with
  | nil => exact ⟨b, [], rfl, Or.inl rfl⟩
  | cons b2 rest ih =>
    by_cases hbb : b.isBlank = true ∧ b2.isBlank = true
    · rw [collapseBlanks, if_pos hbb]
      obtain ⟨b', tl, heq, hd⟩ := ih b2
      refine ⟨b', tl, heq, Or.inr ?_⟩
      rcases hd with rfl | hd
      · exact ⟨hbb.2, hbb.1⟩
      · exact ⟨hd.1, hbb.1⟩
    · rw [collapseBlanks, if_neg hbb]
      exact ⟨b, collapseBlanks (b2 :: rest), rfl, Or.inl rfl⟩

theorem collapseBlanks_mem (bs : List FBlock) (b : FBlock)
    (h : b ∈ collapseBlanks bs) : b ∈ bs := by
  induction bs with
  | nil => exact h
  | cons b1 rest ih =>
    cases rest with
    | nil => exact h
    | cons b2 rest2 =>
      by_cases hbb : b1.isBlank = true ∧ b2.isBlank = true
      · rw [collapseBlanks, if_pos hbb] at h
        exact List.mem_cons_of_mem _ (ih h)
      · rw [collapseBlanks, if_neg hbb] at h
        rcases List.mem_cons.mp h with rfl | h2
        · exact List.mem_cons_self _ _
        · exact List.mem_cons_of_mem _ (ih h2)

theorem collapseBlanks_noadj (bs : List FBlock) :
    List.Chain' (fun b1 b2 => ¬(b1.isBlank = true ∧ b2.isBlank = true))
      (collapseBlanks bs) := by
  induction bs with
  | nil => simp [collapseBlanks]
  | cons b1 rest ih =>
    cases rest with
    | nil => simp [collapseBlanks]
    | cons b2 rest2 =>
      by_cases hbb : b1.isBlank = true ∧ b2.isBlank = true
      · rw [collapseBlanks, if_pos hbb]
        exact ih
      · rw [collapseBlanks, if_neg hbb]
        obtain ⟨b', tl, heq, hd⟩ := collapseBlanks_head rest2 b2
        rw [heq]
        rw [heq] at ih
        refine List.chain'_cons.mpr ⟨?_, ih⟩
        intro hcon
        apply hbb
        rcases hd with rfl | hd
        · exact hcon
        · exact ⟨hcon.1, hd.2⟩

theorem collapseBlanks_chainNeg (bs : List FBlock)
    (h : List.Chain' (fun b1 b2 => b1.isBlank = false → firstNegZero b2) bs) :
    List.Chain' (fun b1 b2 => b1.isBlank = false → firstNegZero b2)
      (collapseBlanks bs) := by
  induction bs with
  | nil => simpa [collapseBlanks] using h
  | cons b1 rest ih =>
    cases rest with
    | nil => simpa [collapseBlanks] using h
    | cons b2 rest2 =>
      obtain ⟨hr12, hrest⟩ := List.chain'_cons.mp h
      by_cases hbb : b1.isBlank = true ∧ b2.isBlank = true
      · rw [collapseBlanks, if_pos hbb]
        exact ih hrest
      · rw [collapseBlanks, if_neg hbb]
        obtain ⟨b', tl, heq, hd⟩ := collapseBlanks_head rest2 b2
        have ihr := ih hrest
        rw [heq] at ihr
        rw [heq]
        refine List.chain'_cons.mpr ⟨?_, ihr⟩
        intro hb1
        rcases hd with rfl | hd
        · exact hr12 hb1
        · cases b' with
          | blank => trivial
          | unit e c =>
            simp [FBlock.isBlank] at hd

theorem chain_append_left {α : Type} (R : α → α → Prop) (l1 l2 : List α)
    (h : List.Chain' R (l1 ++ l2)) : List.Chain' R l1 := by
  induction l1 with
  | nil => simp
  | cons a l1 ih =>
    rw [List.cons_append] at h
    obtain ⟨h1, h2⟩ := List.chain'_cons'.mp h
    refine List.chain'_cons'.mpr ⟨?_, ih h2⟩
    intro y hy
    apply h1
    cases l1 with
    | nil => simp at hy
    | cons z l1' => simpa using hy

theorem dropTrailingBlanks_decomp (bs : List FBlock) :
    ∃ tl, bs = dropTrailingBlanks bs ++ tl := by
  induction bs with
  | nil => exact ⟨[], rfl⟩
  | cons b rest ih =>
    rw [dropTrailingBlanks]
    cases hdt : dropTrailingBlanks rest with
    | nil =>
      rw [hdt] at ih
      obtain ⟨tl, htl⟩ := ih
      by_cases hb : b.isBlank
      · rw [if_pos hb]
        exact ⟨b :: rest, rfl⟩
      · rw [if_neg hb]
        exact ⟨tl, by simpa using htl⟩
    | cons r0 r' =>
      rw [hdt] at ih
      obtain ⟨tl, htl⟩ := ih
      refine ⟨tl, ?_⟩
      rw [List.cons_append, ← htl]

theorem dropTrailingBlanks_last (bs : List FBlock) :
    ∀ b0 ∈ (dropTrailingBlanks bs).getLast?, b0.isBlank = false := by
  induction bs with
  | nil => simp [dropTrailingBlanks]
  | cons b rest ih =>
    rw [dropTrailingBlanks]
    cases hdt : dropTrailingBlanks rest with
    | nil =>
      by_cases hb : b.isBlank
      · rw [if_pos hb]
        simp
      · rw [if_neg hb]
        intro b0 hb0
        simp only [List.getLast?_singleton, Option.mem_def,
          Option.some.injEq] at hb0
        subst hb0
        simpa using hb
    | cons r0 r' =>
      intro b0 hb0
      rw [List.getLast?_cons_cons] at hb0
      apply ih
      rw [hdt]
      exact hb0

theorem dropTrailingBlanks_eq_self (bs : List FBlock)
    (h : ∀ b0 ∈ bs.getLast?, b0.isBlank = false) :
    dropTrailingBlanks bs = bs := by
  induction bs with
  | nil => rfl
  | cons b rest ih =>
    cases rest with
    | nil =>
      have hb : b.isBlank = false := h b (by simp)
      rw [dropTrailingBlanks]
      simp [dropTrailingBlanks, hb]
    | cons r0 r' =>
      have hrest : dropTrailingBlanks (r0 :: r') = r0 :: r' := by
        apply ih
        intro b0 hb0
        apply h
        rwa [List.getLast?_cons_cons]
      rw [dropTrailingBlanks, hrest]

theorem dropTrailingBlanks_append_blank (B : List FBlock) :
    dropTrailingBlanks (B ++ [FBlock.blank]) = dropTrailingBlanks B := by
  induction B with
  | nil => rfl
  | cons b B ih =>
    show dropTrailingBlanks (b :: (B ++ [FBlock.blank])) = _
    rw [dropTrailingBlanks, ih]
    rw [dropTrailingBlanks]

theorem parseAtom_wf (ts : List FTok) (a : Atom) (rest : List FTok)
    (h : parseAtom ts = some (a, rest)) (hwf : ∀ t ∈ ts, t.wf) :
    a.wf ∧ ∀ t ∈ rest, t.wf := by
  induction ts generalizing a rest with
  | nil => simp [parseAtom] at h
  | cons t ts' ih =>
    cases t with
    | ident s =>
      simp only [parseAtom, Option.some.injEq, Prod.mk.injEq] at h
      obtain ⟨rfl, rfl⟩ := h
      exact ⟨hwf (FTok.ident s) (by simp), fun u hu => hwf u (by simp [hu])⟩
    | num s =>
      simp only [parseAtom, Option.some.injEq, Prod.mk.injEq] at h
      obtain ⟨rfl, rfl⟩ := h
      exact ⟨hwf (FTok.num s) (by simp), fun u hu => hwf u (by simp [hu])⟩
    | comma => simp [parseAtom] at h
    | op c =>
      rw [parseAtom] at h
      by_cases hc : c = '-'
      · rw [if_pos hc] at h
        rcases Option.map_eq_some'.mp h with ⟨⟨a', rest'⟩, h1, h2⟩
        obtain ⟨ha', hr'⟩ := ih a' rest' h1 (fun u hu => hwf u (by simp [hu]))
        simp only [Prod.mk.injEq] at h2
        obtain ⟨rfl, rfl⟩ := h2
        exact ⟨ha', hr'⟩
      · rw [if_neg hc] at h
        simp at h

theorem parsePairs_wf (fuel : Nat) (ts : List FTok)
    (ps : List (Char × Atom)) (h : parsePairs fuel ts = some ps)
    (hwf : ∀ t ∈ ts, t.wf) : ∀ q ∈ ps, q.1 ∈ opChars ∧ q.2.wf := by
  induction fuel generalizing ts ps with
  | zero =>
    cases ts with
    | nil =>
      simp only [parsePairs, Option.some.injEq] at h
      subst h
      simp
    | cons t ts' => simp [parsePairs] at h
  | succ f ih =>
    cases ts with
    | nil =>
      simp only [parsePairs, Option.some.injEq] at h
      subst h
      simp
    | cons t ts' =>
      cases t with
      | ident s => simp [parsePairs] at h
      | num s => simp [parsePairs] at h
      | comma => simp [parsePairs] at h
      | op c =>
        rw [parsePairs] at h
        cases ha : parseAtom ts' with
        | none => rw [ha] at h; simp at h
        | some r =>
          obtain ⟨a, rest2⟩ := r
          rw [ha] at h
          dsimp only at h
          rcases Option.map_eq_some'.mp h with ⟨ps', h1, h2⟩
          subst h2
          obtain ⟨haw, hrw⟩ :=
            parseAtom_wf ts' a rest2 ha (fun u hu => hwf u (by simp [hu]))
          intro q hq
          rcases List.mem_cons.mp hq with rfl | hq2
          · exact ⟨hwf (FTok.op c) (by simp), haw⟩
          · exact ih rest2 ps' h1 hrw q hq2

theorem parseExpr_wf (ts : List FTok) (e : UnitExpr)
    (h : parseExpr ts = some e) (hwf : ∀ t ∈ ts, t.wf) : e.wf := by
  rw [parseExpr] at h
  cases ha : parseAtom ts with
  | none => rw [ha] at h; simp at h
  | some r =>
    obtain ⟨a, rest⟩ := r
    rw [ha] at h
    dsimp only at h
    rcases Option.map_eq_some'.mp h with ⟨ps, h1, h2⟩
    subst h2
    obtain ⟨haw, hrw⟩ := parseAtom_wf ts a rest ha hwf
    exact ⟨haw, parsePairs_wf rest.length rest ps h1 hrw⟩

theorem parseContent_wf (l : List Char) (e : UnitExpr)
    (h : parseContent l = some e) : e.wf := by
  rw [parseContent] at h
  cases ht : tokenizeLine l with
  | none => rw [ht] at h; simp at h
  | some ts =>
    rw [ht] at h
    exact parseExpr_wf ts e h (tokenizeLineGo_wf l.length l ts ht)

theorem contLine?_op (l : List Char) (p : Char × List Char)
    (h : contLine? l = some p) : isOpChar p.1 = true := by
  rw [contLine?] at h
  cases hd : l.dropWhile (fun c => c = ' ') with
  | nil => rw [hd] at h; simp at h
  | cons c r =>
    rw [hd] at h
    dsimp only at h
    by_cases hc : isOpChar c = true
    · rw [if_pos hc] at h
      simp only [Option.some.injEq] at h
      subst h
      exact hc
    · rw [if_neg hc] at h
      simp at h

theorem splitConts_ops (ls : List (List Char)) :
    ∀ cps rem, splitConts ls = (cps, rem) →
      (∀ p ∈ cps, isOpChar p.1 = true) ∧
      (∀ l0, rem.head? = some l0 → contLine? l0 = none) := by
  induction ls with
  | nil =>
    intro cps rem h
    simp only [splitConts, Prod.mk.injEq] at h
    obtain ⟨rfl, rfl⟩ := h
    exact ⟨by simp, by simp⟩
  | cons l rest ih =>
    intro cps rem h
    rw [splitConts] at h
    cases hc : contLine? l with
    | some p =>
      rw [hc] at h
      rcases hsp : splitConts rest with ⟨ps', rem'⟩
      rw [hsp] at h
      simp only [Prod.mk.injEq] at h
      obtain ⟨rfl, rfl⟩ := h
      obtain ⟨ih1, ih2⟩ := ih ps' rem' hsp
      refine ⟨fun q hq => ?_, ih2⟩
      rcases List.mem_cons.mp hq with rfl | hq2
      · exact contLine?_op l q hc
      · exact ih1 q hq2
    | none =>
      rw [hc] at h
      simp only [Prod.mk.injEq] at h
      obtain ⟨rfl, rfl⟩ := h
      refine ⟨by simp, fun l0 hl0 => ?_⟩
      simp only [List.head?_cons, Option.some.injEq] at hl0
      subst hl0
      exact hc

theorem mem_of_isOpChar (c : Char) (h : isOpChar c = true) : c ∈ opChars := by
  simp only [isOpChar, Bool.or_eq_true, decide_eq_true_eq] at h
  rcases h with (((rfl | rfl) | rfl) | rfl) | rfl <;> decide

theorem tokenizeLineGo_head (f : Nat) (c0 : Char) (r : List Char)
    (ts : List FTok) (h : tokenizeLineGo (f + 1) (c0 :: r) = some ts)
    (hws : ¬(c0 = ' ' ∨ c0 = '\t'))
    (hop : isOpChar c0 = false) :
    (∃ s tl, ts = FTok.ident s :: tl) ∨
    (∃ s tl, ts = FTok.num s :: tl) ∨
    (∃ tl, ts = FTok.comma :: tl) := by
  rw [tokenizeLineGo] at h
  rw [if_neg hws] at h
  by_cases ha : c0.isAlpha = true
  · rw [if_pos ha] at h
    rcases Option.map_eq_some'.mp h with ⟨tl, _, h2⟩
    exact Or.inl ⟨_, tl, h2.symm⟩
  · rw [if_neg ha] at h
    by_cases hd : c0.isDigit = true
    · rw [if_pos hd] at h
      rcases Option.map_eq_some'.mp h with ⟨tl, _, h2⟩
      exact Or.inr (Or.inl ⟨_, tl, h2.symm⟩)
    · rw [if_neg hd] at h
      by_cases hcm : c0 = ','
      · rw [if_pos hcm] at h
        rcases Option.map_eq_some'.mp h with ⟨tl, _, h2⟩
        exact Or.inr (Or.inr ⟨tl, h2.symm⟩)
      · rw [if_neg hcm] at h
        have hnotmem : ¬(c0 ∈ opChars) := by
          intro hmem
          rw [isOpChar_of_mem c0 hmem] at hop
          exact absurd hop (by decide)
        rw [if_neg hnotmem] at h
        simp at h

theorem parseContent_neg_zero (l : List Char) (e : UnitExpr)
    (hp : parseContent l = some e)
    (hws : ¬(l.head? = some ' ' ∨ l.head? = some '\t'))
    (hcont : contLine? l = none) : e.head.neg = 0 := by
  cases l with
  | nil =>
    simp [parseContent, tokenizeLine, tokenizeLineGo, parseExpr,
      parseAtom] at hp
  | cons c0 r =>
    simp only [List.head?_cons] at hws
    have hc0s : ¬(c0 = ' ' ∨ c0 = '\t') := by
      rintro (rfl | rfl)
      · exact hws (Or.inl rfl)
      · exact hws (Or.inr rfl)
    have hop : isOpChar c0 = false := by
      cases hoc : isOpChar c0
      · rfl
      · have hc0sp : ¬(c0 = ' ') := fun hh => hc0s (Or.inl hh)
        rw [contLine?] at hcont
        rw [List.dropWhile_cons] at hcont
        rw [if_neg (by simp [hc0sp])] at hcont
        dsimp only at hcont
        rw [if_pos hoc] at hcont
        simp at hcont
    rw [parseContent] at hp
    cases ht : tokenizeLine (c0 :: r) with
    | none => rw [ht] at hp; simp at hp
    | some ts =>
      rw [ht] at hp
      have hp' : parseExpr ts = some e := hp
      have ht' : tokenizeLineGo (r.length + 1) (c0 :: r) = some ts := ht
      rcases tokenizeLineGo_head r.length c0 r ts ht' hc0s hop with
        ⟨s, tl, rfl⟩ | ⟨s, tl, rfl⟩ | ⟨tl, rfl⟩
      · rw [parseExpr] at hp'
        rw [show parseAtom (FTok.ident s :: tl) =
          some ({ neg := 0, base := ABase.id s }, tl) from rfl] at hp'
        dsimp only at hp'
        rcases Option.map_eq_some'.mp hp' with ⟨ps, _, h2⟩
        subst h2
        rfl
      · rw [parseExpr] at hp'
        rw [show parseAtom (FTok.num s :: tl) =
          some ({ neg := 0, base := ABase.num s }, tl) from rfl] at hp'
        dsimp only at hp'
        rcases Option.map_eq_some'.mp hp' with ⟨ps, _, h2⟩
        subst h2
        rfl
      · simp [parseExpr, parseAtom] at hp'

theorem mapM_conts_mem (cps : List (Char × List Char))
    (conts : List (Char × UnitExpr))
    (h : cps.mapM (fun p => (parseContent p.2).map (fun e => (p.1, e))) =
      some conts) :
    ∀ q ∈ conts, ∃ p, p ∈ cps ∧ parseContent p.2 = some q.2 ∧ q.1 = p.1 := by
  induction cps generalizing conts with
  | nil =>
    simp only [List.mapM_nil, Option.pure_def, Option.some.injEq] at h
    subst h
    simp
  | cons p cps' ih =>
    rw [List.mapM_cons] at h
    rcases Option.bind_eq_some.mp h with ⟨q0, hq0, h2⟩
    rcases Option.bind_eq_some.mp h2 with ⟨tl, htl, h3⟩
    simp only [Option.pure_def, Option.some.injEq] at h3
    subst h3
    intro q hq
    rcases List.mem_cons.mp hq with rfl | hq2
    · rcases Option.map_eq_some'.mp hq0 with ⟨e, he, h4⟩
      subst h4
      exact ⟨p, by simp, he, rfl⟩
    · obtain ⟨p', hp1, hp2, hp3⟩ := ih tl htl q hq2
      exact ⟨p', by simp [hp1], hp2, hp3⟩

theorem groupGo_wfB (fuel : Nat) :
    ∀ lines bs, groupGo fuel lines = some bs → ∀ b ∈ bs, b.wfB := by
  induction fuel with
  | zero =>
    intro lines bs h b hb
    cases lines with
    | nil =>
      simp only [groupGo, Option.some.injEq] at h
      subst h
      simp at hb
    | cons l rest => simp [groupGo] at h
  | succ f ih =>
    intro lines bs h b hb
    cases lines with
    | nil =>
      simp only [groupGo, Option.some.injEq] at h
      subst h
      simp at hb
    | cons l rest =>
      rw [groupGo] at h
      by_cases hbl : isBlankLine l = true
      · rw [if_pos hbl] at h
        rcases Option.map_eq_some'.mp h with ⟨bs', h1, h2⟩
        subst h2
        rcases List.mem_cons.mp hb with rfl | hb2
        · trivial
        · exact ih rest bs' h1 b hb2
      · rw [if_neg hbl] at h
        by_cases hws : l.head? = some ' ' ∨ l.head? = some '\t'
        · rw [if_pos hws] at h
          simp at h
        · rw [if_neg hws] at h
          cases hp : parseContent l with
          | none => rw [hp] at h; simp at h
          | some e0 =>
            rw [hp] at h
            dsimp only at h
            rcases hsp : splitConts rest with ⟨cps, rem⟩
            rw [hsp] at h
            dsimp only at h
            cases hm : cps.mapM
                (fun p => (parseContent p.2).map (fun e => (p.1, e))) with
            | none => rw [hm] at h; simp at h
            | some conts =>
              rw [hm] at h
              dsimp only at h
              rcases Option.map_eq_some'.mp h with ⟨bs', h1, h2⟩
              subst h2
              rcases List.mem_cons.mp hb with rfl | hb2
              · refine ⟨parseContent_wf l e0 hp, ?_⟩
                intro q hq
                obtain ⟨p, hp1, hp2, hp3⟩ := mapM_conts_mem cps conts hm q hq
                refine ⟨?_, parseContent_wf p.2 q.2 hp2⟩
                rw [hp3]
                exact mem_of_isOpChar p.1
                  ((splitConts_ops rest cps rem hsp).1 p hp1)
              · exact ih rem bs' h1 b hb2

theorem groupGo_headzero (fuel : Nat) (lines : List (List Char))
    (bs : List FBlock) (h : groupGo fuel lines = some bs)
    (hstop : ∀ l0, lines.head? = some l0 → contLine? l0 = none) :
    ∀ b2, bs.head? = some b2 → firstNegZero b2 := by
  intro b2 hb2
  cases lines with
  | nil =>
    cases fuel with
    | zero =>
      simp only [groupGo, Option.some.injEq] at h
      subst h
      simp at hb2
    | succ f =>
      simp only [groupGo, Option.some.injEq] at h
      subst h
      simp at hb2
  | cons l rest =>
    cases fuel with
    | zero => simp [groupGo] at h
    | succ f =>
      rw [groupGo] at h
      by_cases hbl : isBlankLine l = true
      · rw [if_pos hbl] at h
        rcases Option.map_eq_some'.mp h with ⟨bs', _, h2⟩
        subst h2
        simp only [List.head?_cons, Option.some.injEq] at hb2
        subst hb2
        trivial
      · rw [if_neg hbl] at h
        by_cases hws : l.head? = some ' ' ∨ l.head? = some '\t'
        · rw [if_pos hws] at h
          simp at h
        · rw [if_neg hws] at h
          cases hp : parseContent l with
          | none => rw [hp] at h; simp at h
          | some e0 =>
            rw [hp] at h
            dsimp only at h
            rcases hsp : splitConts rest with ⟨cps, rem⟩
            rw [hsp] at h
            dsimp only at h
            cases hm : cps.mapM
                (fun p => (parseContent p.2).map (fun e => (p.1, e))) with
            | none => rw [hm] at h; simp at h
            | some conts =>
              rw [hm] at h
              dsimp only at h
              rcases Option.map_eq_some'.mp h with ⟨bs', _, h2⟩
              subst h2
              simp only [List.head?_cons, Option.some.injEq] at hb2
              subst hb2
              exact parseContent_neg_zero l e0 hp hws (hstop l rfl)

theorem groupGo_chainNeg (fuel : Nat) :
    ∀ lines bs, groupGo fuel lines = some bs →
      List.Chain' (fun b1 b2 => b1.isBlank = false → firstNegZero b2) bs := by
  induction fuel with
  | zero =>
    intro lines bs h
    cases lines with
    | nil =>
      simp only [groupGo, Option.some.injEq] at h
      subst h
      simp
    | cons l rest => simp [groupGo] at h
  | succ f ih =>
    intro lines bs h
    cases lines with
    | nil =>
      simp only [groupGo, Option.some.injEq] at h
      subst h
      simp
    | cons l rest =>
      rw [groupGo] at h
      by_cases hbl : isBlankLine l = true
      · rw [if_pos hbl] at h
        rcases Option.map_eq_some'.mp h with ⟨bs', h1, h2⟩
        subst h2
        refine List.chain'_cons'.mpr ⟨?_, ih rest bs' h1⟩
        intro y _ hfalse
        simp [FBlock.isBlank] at hfalse
      · rw [if_neg hbl] at h
        by_cases hws : l.head? = some ' ' ∨ l.head? = some '\t'
        · rw [if_pos hws] at h
          simp at h
        · rw [if_neg hws] at h
          cases hp : parseContent l with
          | none => rw [hp] at h; simp at h
          | some e0 =>
            rw [hp] at h
            dsimp only at h
            rcases hsp : splitConts rest with ⟨cps, rem⟩
            rw [hsp] at h
            dsimp only at h
            cases hm : cps.mapM
                (fun p => (parseContent p.2).map (fun e => (p.1, e))) with
            | none => rw [hm] at h; simp at h
            | some conts =>
              rw [hm] at h
              dsimp only at h
              rcases Option.map_eq_some'.mp h with ⟨bs', h1, h2⟩
              subst h2
              refine List.chain'_cons'.mpr ⟨?_, ih rem bs' h1⟩
              intro y hy _
              exact groupGo_headzero f rem bs' h1
                (splitConts_ops rest cps rem hsp).2 y hy

theorem list_map_eq_self {α : Type} (f : α → α) (l : List α)
    (h : ∀ x ∈ l, f x = x) : l.map f = l := by
  induction l with
  | nil => rfl
  | cons x l ih =>
    rw [List.map_cons, h x (by simp), ih (fun y hy => h y (by simp [hy]))]

theorem collapseBlanks_eq_self (bs : List FBlock)
    (h : List.Chain'
      (fun b1 b2 => ¬(b1.isBlank = true ∧ b2.isBlank = true)) bs) :
    collapseBlanks bs = bs := by
  induction bs with
  | nil => rfl
  | cons b1 rest ih =>
    cases rest with
    | nil => rfl
    | cons b2 rest2 =>
      obtain ⟨h12, htl⟩ := List.chain'_cons.mp h
      rw [collapseBlanks, if_neg h12, ih htl]

theorem blockLines_ne_nil (b : FBlock) : blockLines b ≠ [] := by
  cases b <;> simp [blockLines]

theorem newline_not_mem_blockLines (b : FBlock) (hwf : b.wfB) :
    ∀ l ∈ blockLines b, ('\n') ∉ l := by
  cases b with
  | blank =>
    intro l hl
    simp only [blockLines, List.mem_singleton] at hl
    subst hl
    simp
  | unit e conts =>
    intro l hl
    simp only [blockLines, List.mem_cons] at hl
    rcases hl with rfl | hl
    · exact newline_not_mem_renderExpr e hwf.1
    · obtain ⟨q, hq1, hq2⟩ := List.mem_map.mp hl
      subst hq2
      intro hm
      simp only [renderContPiece, List.mem_cons] at hm
      rcases hm with hm | hm | hm | hm | hm
      · exact absurd hm (by decide)
      · exact absurd hm (by decide)
      · exact absurd hm.symm (opChar_ne_newline q.1 (hwf.2 q hq1).1)
      · exact absurd hm (by decide)
      · exact newline_not_mem_renderExpr q.2 (hwf.2 q hq1).2 hm

theorem format_render_fixed (opts : FormatOptions) (B : List FBlock)
    (hwf : ∀ b ∈ B, b.wfB)
    (hchain : List.Chain'
      (fun b1 b2 => b1.isBlank = false → firstNegZero b2) B)
    (hnoadj : List.Chain'
      (fun b1 b2 => ¬(b1.isBlank = true ∧ b2.isBlank = true)) B)
    (hlast : ∀ b0 ∈ B.getLast?, b0.isBlank = false)
    (hstab : ∀ b ∈ B, b.stable opts.line_length) :
    format opts (renderBlocks B) = some (renderBlocks B) := by
  cases B with
  | nil => rfl
  | cons b0 Brest =>
    have hBne : (b0 :: Brest) ≠ [] := by simp
    set B := b0 :: Brest with hB
    have hflatne : B.flatMap blockLines ≠ [] := by
      rw [hB]
      simp only [List.flatMap_cons]
      intro hcon
      rcases List.append_eq_nil.mp hcon with ⟨h1, _⟩
      exact blockLines_ne_nil b0 h1
    have hnonl : ∀ l ∈ B.flatMap blockLines, ('\n') ∉ l := by
      intro l hl
      obtain ⟨b, hb1, hb2⟩ := List.mem_flatMap.mp hl
      exact newline_not_mem_blockLines b (hwf b hb1) l hb2
    have hrender : renderBlocks B = joinLines (B.flatMap blockLines) := by
      rw [hB]
      rfl
    rw [hrender]
    rw [format]
    have hsplit : splitLines (joinLines (B.flatMap blockLines)) =
        B.flatMap blockLines ++ [[]] :=
      splitLines_joinLines (B.flatMap blockLines) hflatne hnonl
    rw [hsplit]
    rw [groupGo_render B hwf hchain _ le_rfl]
    dsimp only
    have hnoadjapp : List.Chain'
        (fun b1 b2 => ¬(b1.isBlank = true ∧ b2.isBlank = true))
        (B ++ [FBlock.blank]) := by
      rw [List.chain'_append]
      refine ⟨hnoadj, by simp, ?_⟩
      intro x hx y hy
      simp only [List.head?_cons, Option.mem_def, Option.some.injEq] at hy
      subst hy
      intro hcon
      have := hlast x (by simpa using hx)
      rw [this] at hcon
      exact absurd hcon.1 (by simp)
    rw [collapseBlanks_eq_self _ hnoadjapp, dropTrailingBlanks_append_blank,
      dropTrailingBlanks_eq_self B hlast,
      list_map_eq_self _ B
        (fun b hb => breakBlock_eq_of_stable opts.line_length b
          (hstab b hb))]
    rw [hrender]

/-- C1 (spec-modelled formatter, §4.3): `format(source, options)` is
idempotent on the modelled source core — whenever it succeeds with output
`t`, formatting `t` again with the same options returns `t` unchanged.
The modelled formatter applies §4.3's normalization (one space each side
of a binary operator except unary minus, blank-line runs collapsed,
trailing whitespace stripped, exactly one trailing newline) and the
line-length layout algorithm: a unit whose rendering exceeds
`options.line_length` is broken at its lowest-precedence operators first,
each break operator starting a continuation line indented one level, and
still-over-budget segments are broken at every operator; breaking is
monotonic (existing breaks in the input are kept).  `always_indent_arms`
only affects match/switch arm bodies, of which the modelled core has
none. -/
theorem format_idempotent (opts : FormatOptions) (src t : List Char)
    (h : format opts src = some t) : format opts t = some t := by
  rw [format] at h
  cases hg : groupGo (splitLines src).length (splitLines src) with
  | none => rw [hg] at h; simp at h
  | some bs =>
    rw [hg] at h
    dsimp only at h
    simp only [Option.some.injEq] at h
    subst h
    have hwf0 := groupGo_wfB (splitLines src).length (splitLines src) bs hg
    have hchain0 := groupGo_chainNeg (splitLines src).length (splitLines src)
      bs hg
    obtain ⟨tlb, htlb⟩ := dropTrailingBlanks_decomp (collapseBlanks bs)
    have hwf1 : ∀ b ∈ dropTrailingBlanks (collapseBlanks bs), b.wfB :=
      fun b hb => hwf0 b (collapseBlanks_mem bs b
        (by rw [htlb]; exact List.mem_append_left _ hb))
    have hchain1 := chain_append_left _ _ tlb
      (by rw [← htlb]; exact collapseBlanks_chainNeg bs hchain0)
    have hnoadj1 := chain_append_left _ _ tlb
      (by rw [← htlb]; exact collapseBlanks_noadj bs)
    have hlast1 := dropTrailingBlanks_last (collapseBlanks bs)
    apply format_render_fixed
    · intro b hb
      obtain ⟨b1, hb1, hb2⟩ := List.mem_map.mp hb
      subst hb2
      exact breakBlock_wfB opts.line_length b1 (hwf1 b1 hb1)
    · rw [List.chain'_map]
      refine hchain1.imp ?_
      intro a b hab h1
      rw [breakBlock_isBlank] at h1
      exact breakBlock_firstNegZero opts.line_length b (hab h1)
    · rw [List.chain'_map]
      refine hnoadj1.imp ?_
      intro a b hab hcon
      rw [breakBlock_isBlank, breakBlock_isBlank] at hcon
      exact hab hcon
    · intro b0 hb0
      rw [List.getLast?_map] at hb0
      rcases Option.map_eq_some'.mp hb0 with ⟨b1, hb1, hb2⟩
      subst hb2
      rw [breakBlock_isBlank]
      exact hlast1 b1 hb1
    · intro b hb
      obtain ⟨b1, _, hb2⟩ := List.mem_map.mp hb
      subst hb2
      exact breakBlock_stable opts.line_length b1

/-- Witness for `format_idempotent`: a concrete source whose formatting
exercises unary minus, blank-line collapsing and line-length breaking
(budget 10), and whose output re-formats to itself. -/
theorem format_idempotent_witness :
    format ⟨10, false⟩ ("ab + cde * fg + -h\n\n\n-x".data) =
      some ("ab\n  + cde\n  * fg\n  + -h\n\n-x\n".data) ∧
    format ⟨10, false⟩ ("ab\n  + cde\n  * fg\n  + -h\n\n-x\n".data) =
      some ("ab\n  + cde\n  * fg\n  + -h\n\n-x\n".data) :=
  ⟨rfl, format_idempotent ⟨10, false⟩
    ("ab + cde * fg + -h\n\n\n-x".data)
    ("ab\n  + cde\n  * fg\n  + -h\n\n-x\n".data) rfl⟩

end Koto
